import Mathlib

/-!
Verification of the puretabix repository (BGZF / Tabix / VCF tooling).

The definitions below are shallow embeddings of the Python sources:
  * `src/puretabix/tabix.py`  — `TabixIndex`, `TabixIndexedFile`
  * `src/puretabix/bgzip.py`  — `BlockGZipReader`, `BlockGZipWriter`
  * `src/puretabix/fsm.py`    — the finite state machine driver
  * `src/puretabix/vcf.py`    — the VCF line parser and serializer

Python `bytes` are modelled as `List Nat` (each element < 256 by
construction), Python `str` as `List Char`, Python `dict` (which preserves
insertion order) as association lists, and fallible code as `Option` /
`Except`.
-/

namespace Puretabix

/-! ## Binning arithmetic (`TabixIndex.region_to_bin`, `region_to_bins`) -/
/-- Embedding of `TabixIndex.region_to_bin` (tabix.py lines 401-417):
returns the index of the smallest bin that contains the region. -/
def region_to_bin (begin_ e : Nat) : Nat :=
  if begin_ >>> 14 = e >>> 14 then ((1 <<< 15) - 1) / 7 + (begin_ >>> 14)
  else if begin_ >>> 17 = e >>> 17 then ((1 <<< 12) - 1) / 7 + (begin_ >>> 17)
  else if begin_ >>> 20 = e >>> 20 then ((1 <<< 9) - 1) / 7 + (begin_ >>> 20)
  else if begin_ >>> 23 = e >>> 23 then ((1 <<< 6) - 1) / 7 + (begin_ >>> 23)
  else if begin_ >>> 26 = e >>> 26 then ((1 <<< 3) - 1) / 7 + (begin_ >>> 26)
  else 0

/-- Loop body of `TabixIndex.region_to_bins` (tabix.py lines 377-399).
`k` counts the remaining iterations of `for level in range(n_levels + 1)`;
`level`, `t` and `s` are the Python loop variables.  Each iteration yields
`range(t + (begin >> s), t + (end >> s) + 1)` and then updates
`t += 1 << ((level << 1) + level)` and `s -= 3`. -/
def region_to_bins_aux (begin_ e : Nat) : Nat → Nat → Nat → Nat → List Nat
  | 0, _, _, _ => []
  | k + 1, level, t, s =>
      List.range' (t + (begin_ >>> s)) ((t + (e >>> s)) - (t + (begin_ >>> s)) + 1) ++
        region_to_bins_aux begin_ e k (level + 1)
          (t + (1 <<< ((level <<< 1) + level))) (s - 3)

/-- Embedding of `TabixIndex.region_to_bins` (tabix.py lines 377-399): the
generator of keys to bins of records which may overlap the given region,
collected into a list in yield order. -/
def region_to_bins (begin_ e : Nat) (n_levels : Nat := 5) (min_shift : Nat := 14) :
    List Nat :=
  region_to_bins_aux begin_ e (n_levels + 1) 0 0
    (min_shift + (n_levels <<< 1) + n_levels)

/-! ## Tabix index data model (`TabixIndex.__init__`, tabix.py lines 15-48) -/
/-- A chunk: half-open pair of virtual offsets `(chunk_begin, chunk_end)`. -/
abbrev Chunk := Nat × Nat

/-- A bin index: Python `dict` from bin number to chunk list, modelled as an
insertion-ordered association list. -/
abbrev BinIdx := List (Nat × List Chunk)

/-- A linear (interval) index: list of virtual offsets, one per 16 kb window. -/
abbrev LinIdx := List Nat

/-- First-match association-list lookup, the model of Python `dict[key]`
(keys are unique by construction wherever this is used). -/
def alistFind {α β : Type} [DecidableEq α] (k : α) : List (α × β) → Option β
  | [] => none
  | (a, b) :: rest => if a = k then some b else alistFind k rest

/-- Embedding of the `TabixIndex` object state (tabix.py lines 16-48).
`indexes` maps sequence names to `(bin_index, interval_index)` pairs and is
insertion ordered like the Python `dict`. -/
structure TabixIndexData where
  file_format : Int
  column_sequence : Int
  column_begin : Int
  column_end : Int
  meta : Char
  headerlines_count : Int
  indexes : List (List Char × (BinIdx × LinIdx))
  deriving Repr

/-- Embedding of `TabixIndex._lookup_linear` (tabix.py lines 144-164):
`i = start >> 14`; `None` when the sequence is absent or the window is
beyond the linear index, otherwise the stored offset. -/
def lookup_linear (t : TabixIndexData) (sequence_name : List Char) (start : Nat) :
    Option Nat :=
  let i := start >>> 14
  match alistFind sequence_name t.indexes with
  | none => none
  | some (_, linear_index) => linear_index[i]?

/-- Embedding of `TabixIndex._lookup_bin_chunks` (tabix.py lines 166-178)
for a given bin index: chunks of every bin of `region_to_bins start end`,
iterated in reversed order, for bins present in the index. -/
def lookup_bin_chunks (bin_index : BinIdx) (start e : Nat) : List Chunk :=
  (region_to_bins start e).reverse.flatMap fun k => (alistFind k bin_index).getD []

/-- Loop of `TabixIndex.lookup_virtual` over the chunks
(tabix.py lines 206-221), threading `(virtual_start, virtual_end)`. -/
def lookup_virtual_loop (linear_start : Nat) :
    List Chunk → Option Nat × Option Nat → Option Nat × Option Nat
  | [], acc => acc
  | (chunk_start, chunk_end) :: rest, (vs, ve) =>
      if chunk_end ≤ linear_start then
        lookup_virtual_loop linear_start rest (vs, ve)
      else
        let cs := min chunk_start linear_start
        let vs := match vs with
          | none => some cs
          | some v => if cs < v then some cs else some v
        let ve := match ve with
          | none => some chunk_end
          | some v => if chunk_end > v then some chunk_end else some v
        lookup_virtual_loop linear_start rest (vs, ve)

/-- Embedding of `TabixIndex.lookup_virtual` (tabix.py lines 192-226) for
integer queries.  (The Python branch taken when both `start` and `end` are
`None` — `_lookup_sequence_min_max` — is unreachable for integer queries
and is not part of this embedding.)  Note the Python guard
`if not linear_start` treats both `None` and the stored offset `0` as
"nothing found". -/
def lookup_virtual (t : TabixIndexData) (sequence_name : List Char) (start e : Nat) :
    Option Nat × Option Nat :=
  match lookup_linear t sequence_name start with
  | none => (none, none)
  | some linear_start =>
      if linear_start = 0 then (none, none)
      else
        let bin_index := ((alistFind sequence_name t.indexes).map Prod.fst).getD []
        lookup_virtual_loop linear_start
          (lookup_bin_chunks bin_index start e) (none, none)

/-! ## Index builder (`TabixIndex.build_from`, tabix.py lines 281-375) -/
/-- Set a key in an insertion-ordered association list, the model of Python
`dict[key] = value`: an existing key keeps its position, a new key is
appended at the end. -/
def alistSet {α β : Type} [DecidableEq α] (k : α) (v : β) :
    List (α × β) → List (α × β)
  | [] => [(k, v)]
  | (a, b) :: rest => if a = k then (k, v) :: rest else (a, b) :: alistSet k v rest

/-- Apply `f` to the last element of a list (identity on `[]`). -/
def updateLast {α : Type} (f : α → α) : List α → List α
  | [] => []
  | [a] => [f a]
  | a :: b :: rest => a :: updateLast f (b :: rest)

/-- One data line of the input VCF as `build_from` sees it after parsing:
the fields of the parsed `vcf_line` that the loop body uses, together with
the virtual-offset coordinates yielded by `generate_lines_offset`. -/
structure BuildRecord where
  is_comment : Bool
  chrom : List Char
  pos : Nat
  ref : List Char
  start_block : Nat
  start_offset : Nat
  end_block : Nat
  end_offset : Nat

/-- Chunk-list update of `build_from` (tabix.py lines 347-357): extend the
last chunk if directly continuous, otherwise append.  (In the source the
chunk list of an existing bin is never empty; the `[]` branch is
unreachable.) -/
def update_chunks (chunks : List Chunk) (start_virtual end_virtual1 : Nat) :
    List Chunk :=
  match chunks.getLast? with
  | some (cs, ce) =>
      if ce = start_virtual then chunks.dropLast ++ [(cs, end_virtual1)]
      else chunks ++ [(start_virtual, end_virtual1)]
  | none => chunks ++ [(start_virtual, end_virtual1)]

/-- The `if vcf_line.chrom not in indexes` step of `build_from`
(tabix.py lines 328-331): a new chromosome gets fresh empty indexes
appended at the end of the dict. -/
def ensure_chrom (indexes : List (List Char × (BinIdx × LinIdx)))
    (chrom : List Char) : List (List Char × (BinIdx × LinIdx)) :=
  if (alistFind chrom indexes).isNone then indexes ++ [(chrom, ([], []))]
  else indexes

/-- Loop body of `build_from` (tabix.py lines 310-371) for one parsed line.
After `ensure_chrom`, the local Python names `bin_index` and
`interval_index` alias the indexes of the most recently created
chromosome, which is the last entry of the insertion-ordered dict; the
update is therefore applied to the last entry. -/
def build_from_step (indexes : List (List Char × (BinIdx × LinIdx)))
    (r : BuildRecord) : List (List Char × (BinIdx × LinIdx)) :=
  if r.is_comment then indexes
  else
    updateLast (fun p =>
      let bin_index := p.2.1
      let interval_index := p.2.2
      let start_virtual := r.start_block <<< 16 ||| r.start_offset
      let end_virtual := r.end_block <<< 16 ||| r.end_offset
      let record_start := r.pos - 1
      let record_end := r.pos - 1 + r.ref.length - 1
      let bin_i := region_to_bin record_start record_end
      let bin_index :=
        match alistFind bin_i bin_index with
        | none => alistSet bin_i [(start_virtual, end_virtual + 1)] bin_index
        | some chunks =>
            alistSet bin_i (update_chunks chunks start_virtual (end_virtual + 1))
              bin_index
      let interval_i := record_start >>> 14
      let interval_index :=
        if r.start_block = r.end_block then
          interval_index ++
            List.replicate (interval_i + 1 - interval_index.length) start_virtual
        else interval_index
      (p.1, (bin_index, interval_index)))
      (ensure_chrom indexes r.chrom)

/-- Embedding of `TabixIndex.build_from` (tabix.py lines 281-375) over the
already-parsed sequence of lines.  (Line parsing itself is the FSM of
vcf.py, embedded separately below; `build_from` does nothing after the
single pass — in particular there is no forward-fill post-pass.) -/
def build_from (records : List BuildRecord) : TabixIndexData :=
  { file_format := 2, column_sequence := 1, column_begin := 2, column_end := 0,
    meta := '#', headerlines_count := 0,
    indexes := records.foldl build_from_step [] }

/-! ## BGZF writer (`BlockGZipWriter`, bgzip.py lines 362-434) -/
/-- Little-endian encoding of `n` on `w` bytes (the model of the fixed-width
fields of `struct.pack "<BBBBIBBHBBHH"` and `"<II"`). -/
def leBytes : Nat → Nat → List Nat
  | 0, _ => []
  | w + 1, n => (n % 256) :: leBytes w (n / 256)

/-- One bit-round of the reflected CRC-32 (polynomial `0xEDB88320`). -/
def crc32_round (c : Nat) : Nat :=
  if c % 2 = 1 then (c / 2) ^^^ 0xEDB88320 else c / 2

/-- `n` CRC-32 bit-rounds. -/
def crc32_rounds : Nat → Nat → Nat
  | 0, c => c
  | n + 1, c => crc32_rounds n (crc32_round c)

/-- Fold one byte into a CRC-32 state. -/
def crc32_byte (c b : Nat) : Nat := crc32_rounds 8 (c ^^^ b)

/-- Modelled from the spec: `zlib.crc32`, the standard reflected CRC-32
checksum used by the BGZF trailer (`generate_tail`, `get_tail`). -/
def crc32 (bs : List Nat) : Nat :=
  (bs.foldl crc32_byte 0xFFFFFFFF) ^^^ 0xFFFFFFFF

/-- Embedding of `BlockGZipWriter.generate_header` (bgzip.py lines 402-418):
`struct.pack(headerpattern, 31, 139, 8, 4, 0, 0, 255, 6, 66, 67, 2,
len(compressed) + 6 + 19)` with `headerpattern = "<BBBBIBBHBBHH"`;
`None` models the `struct.error` raised when the 16-bit `BSIZE` field
overflows. -/
def generate_header (compressed : List Nat) : Option (List Nat) :=
  let bsize := compressed.length + 6 + 19
  if bsize ≤ 65535 then
    some ([31, 139, 8, 4] ++ leBytes 4 0 ++ [0, 255] ++ leBytes 2 6 ++
      [66, 67] ++ leBytes 2 2 ++ leBytes 2 bsize)
  else none

/-- Embedding of `BlockGZipWriter.generate_tail` (bgzip.py lines 420-426):
`struct.pack("<II", zlib.crc32(content), len(content))`; `None` models the
`struct.error` when the length does not fit 32 bits. -/
def generate_tail (content : List Nat) : Option (List Nat) :=
  if content.length ≤ 0xFFFFFFFF then
    some (leBytes 4 (crc32 content) ++ leBytes 4 content.length)
  else none

/-- Embedding of `BlockGZipWriter.make_block` (bgzip.py lines 428-433),
parameterized by the raw-deflate compressor `compress_content` (an external
`zlib` call): `header + compressed + tail`. -/
def make_block (compress : List Nat → List Nat) (content : List Nat) :
    Option (List Nat) :=
  let compressed := compress content
  match generate_header compressed, generate_tail content with
  | some headerbytes, some tailbytes => some (headerbytes ++ compressed ++ tailbytes)
  | _, _ => none

/-- Modelled from the spec: the canonical 28-byte BGZF end-of-file marker
block — an empty-payload block (raw deflate stream `03 00`, CRC 0,
ISIZE 0, `BSIZE` 27). -/
def bgzfEofMarker : List Nat :=
  [31, 139, 8, 4, 0, 0, 0, 0, 0, 255, 6, 0, 66, 67, 2, 0, 27, 0,
   3, 0, 0, 0, 0, 0, 0, 0, 0, 0]

/-! ## Indexed file reads (`TabixIndexedFile`, tabix.py lines 436-557)

The underlying BGZF data file is modelled as the list of its blocks in file
order — each with its compressed byte offset and decompressed content —
plus the total compressed file length.  `BlockGZipReader.get_block` at a
position succeeds exactly when a block starts there, and afterwards
`tell()` is the next block's offset (or the file length after the last
block). -/
/-- Model of the BGZF file behind a `BlockGZipReader`. -/
structure ModelFile where
  blocks : List (Nat × List Char)
  file_end : Nat

/-- The `tell()` value after reading a block: the next block's offset, or
the file length when no block remains. -/
def nextOff (file_end : Nat) : List (Nat × List Char) → Nat
  | [] => file_end
  | (o, _) :: _ => o

/-- The loop of `TabixIndexedFile.fetch_bytes_block_offset`
(tabix.py lines 448-467).  `blocks` is the remainder of the file at the
current position, `block` the Python loop variable, `value` the
accumulator; `none` models the `EOFError`/`AssertionError` raised by
`get_block` when the position is not the start of a block. -/
def fetch_bytes_go (file_end block_start block_end offset_start offset_end : Nat) :
    List (Nat × List Char) → Nat → List Char → Option (List Char)
  | [], block, value => if block ≤ block_end then none else some value
  | (o, decompressed) :: rest, block, value =>
    if block ≤ block_end then
      if o ≠ block then none
      else if decompressed = [] then some value
      else
        let d1 := if block = block_end then decompressed.take offset_end
                  else decompressed
        let d2 := if block = block_start then d1.drop offset_start else d1
        fetch_bytes_go file_end block_start block_end offset_start offset_end
          rest (nextOff file_end rest) (value ++ d2)
    else some value

/-- Embedding of `TabixIndexedFile.fetch_bytes_block_offset`
(tabix.py lines 445-467): seek to `block_start` and run the loop. -/
def fetch_bytes_block_offset (mf : ModelFile)
    (block_start offset_start block_end offset_end : Nat) : Option (List Char) :=
  let blocks := mf.blocks.dropWhile (fun p => p.1 < block_start)
  fetch_bytes_go mf.file_end block_start block_end offset_start offset_end
    blocks block_start []

/-- Embedding of `TabixIndexedFile.fetch_bytes_virtual`
(tabix.py lines 469-478): split both virtual offsets into block offset and
intra-block offset. -/
def fetch_bytes_virtual (mf : ModelFile) (virtual_start virtual_end : Nat) :
    Option (List Char) :=
  fetch_bytes_block_offset mf (virtual_start >>> 16) (virtual_start &&& 0xFFFF)
    (virtual_end >>> 16) (virtual_end &&& 0xFFFF)

/-- Python truthiness of `Optional[int]`: `None` and `0` are falsy. -/
def pyFalsy : Option Nat → Bool
  | none => true
  | some v => v == 0

/-- The Python idiom `if not end: end = start` on `end: Union[None, int]`. -/
def pyDefaultEnd (e : Option Nat) (start : Nat) : Nat :=
  match e with
  | none => start
  | some v => if v = 0 then start else v

/-- Embedding of `TabixIndexedFile.fetch_bytes` (tabix.py lines 480-503):
empty bytes for an unknown sequence name, `if not end: end = start`, then
the virtual-offset lookup; `(falsy, falsy)` lookup results give empty
bytes, a half-set lookup raises (`none`), and otherwise the bytes of
`[virtual_start, virtual_end - 1)` are fetched. -/
def fetch_bytes (mf : ModelFile) (t : TabixIndexData) (name : List Char)
    (start : Nat) (e : Option Nat) : Option (List Char) :=
  if (alistFind name t.indexes).isNone then some []
  else
    let e := pyDefaultEnd e start
    match lookup_virtual t name start e with
    | (vs?, ve?) =>
      if pyFalsy vs? && pyFalsy ve? then some []
      else
        match vs?, ve? with
        | some virtual_start, some virtual_end =>
            fetch_bytes_virtual mf virtual_start (virtual_end - 1)
        | _, _ => none

/-- Python `str.splitlines` restricted to `\n` terminators (the only line
terminator occurring in the BGZF VCF data this code reads): split on
`'\n'`, dropping the empty piece after a trailing terminator. -/
def splitlinesPy (s : List Char) : List (List Char) :=
  if s = [] then []
  else
    let pieces := s.splitOn '\n'
    if pieces.getLast? = some [] then pieces.dropLast else pieces

/-- Python `line.split("\t")`. -/
def splitTab (s : List Char) : List (List Char) := s.splitOn '\t'

/-- Python `line.startswith(c)` for a single-character prefix. -/
def startswith (line : List Char) (c : Char) : Bool := line.head? == some c

/-- Python `lst[i]` with negative-index wrap-around; `none` models
`IndexError`. -/
def pyGet {α : Type} (l : List α) (i : Int) : Option α :=
  if i ≥ 0 then l[i.toNat]?
  else
    let j := (l.length : Int) + i
    if j ≥ 0 then l[j.toNat]? else none

/-- Python `int(s)` on the strings this code passes to it: an optional
minus sign followed by at least one decimal digit (`none` models
`ValueError`; surrounding whitespace, `+` and `_` — which Python would
also accept — do not occur in the filtered columns and are not
modelled). -/
def pyInt (s : List Char) : Option Int :=
  match s with
  | '-' :: rest =>
      if rest ≠ [] ∧ rest.all Char.isDigit then
        some (-(rest.foldl (fun n c => 10 * n + (c.toNat - 48)) 0 : Int))
      else none
  | _ =>
      if s ≠ [] ∧ s.all Char.isDigit then
        some ((s.foldl (fun n c => 10 * n + (c.toNat - 48)) 0 : Int))
      else none

/-- Run a fallible keep-predicate over a list, keeping the elements on
`some true`; `none` aborts (the model of an exception escaping a Python
generator as it is consumed). -/
def filterLines (keep : List Char → Option Bool) :
    List (List Char) → Option (List (List Char))
  | [] => some []
  | l :: rest =>
      match keep l with
      | none => none
      | some true => (filterLines keep rest).map (l :: ·)
      | some false => filterLines keep rest

/-- The final filter of `TabixIndexedFile.fetch_lines`
(tabix.py lines 543-551) for one line: column count at least
`max(column_sequence, column_begin, column_end)`, then begin column
`≥ start`, then end column (begin column when `column_end` is 0)
`≤ end`, with Python short-circuit evaluation; `none` models a
`ValueError`/`IndexError` from `int(...)`/indexing. -/
def fetch_line_keep (t : TabixIndexData) (start e : Nat) (line : List Char) :
    Option Bool :=
  let line_split := splitTab line
  let expected_len := max t.column_sequence (max t.column_begin t.column_end)
  let column_begin := t.column_begin
  let column_end := if t.column_end = 0 then t.column_begin else t.column_end
  if (line_split.length : Int) ≥ expected_len then
    match pyGet line_split (column_begin - 1) with
    | none => none
    | some sb =>
        match pyInt sb with
        | none => none
        | some vb =>
            if vb ≥ (start : Int) then
              match pyGet line_split (column_end - 1) with
              | none => none
              | some se =>
                  match pyInt se with
                  | none => none
                  | some ve => some (decide (ve ≤ (e : Int)))
            else some false
  else some false

/-- The line-filtering tail of `TabixIndexedFile.fetch_lines`
(tabix.py lines 515-551), applied to the fetched and decoded region:
split into lines, drop lines starting with the meta character, then apply
`fetch_line_keep`. -/
def fetch_lines_filter (t : TabixIndexData) (start e : Nat)
    (region : List Char) : Option (List (List Char)) :=
  let lines := splitlinesPy region
  let lines := lines.filter (fun line => !(startswith line t.meta))
  filterLines (fetch_line_keep t start e) lines

/-- Embedding of `TabixIndexedFile.fetch_lines` (tabix.py lines 505-551):
default the end coordinate, fetch the region bytes, return no lines for an
empty region, otherwise filter the region's lines. -/
def fetch_lines (mf : ModelFile) (t : TabixIndexData) (name : List Char)
    (start : Nat) (e : Option Nat) : Option (List (List Char)) :=
  let e := pyDefaultEnd e start
  match fetch_bytes mf t name start (some e) with
  | none => none
  | some region =>
      if region = [] then some []
      else fetch_lines_filter t start e region

/-- Python `"\n".join(lines)`. -/
def joinNl (lines : List (List Char)) : List Char := List.intercalate ['\n'] lines

/-- Embedding of `TabixIndexedFile.fetch` (tabix.py lines 553-557). -/
def fetch (mf : ModelFile) (t : TabixIndexData) (name : List Char)
    (start : Nat) (e : Option Nat := none) : Option (List Char) :=
  (fetch_lines mf t name start e).map joinNl

/-- A concrete index whose sequence `s` has linear index `[0]` (window 0
exists and stores virtual offset 0) and one bin with a chunk. -/
def c1Index : TabixIndexData :=
  { file_format := 2, column_sequence := 1, column_begin := 2, column_end := 0,
    meta := '#', headerlines_count := 0,
    indexes := [(['s'], ([(4681, [(1, 100)])], [0]))] }

/-- A data record whose line spans two BGZF blocks (block 0 to block 1). -/
def c2Record : BuildRecord :=
  { is_comment := false, chrom := ['1'], pos := 1, ref := ['A'],
    start_block := 0, start_offset := 5, end_block := 1, end_offset := 3 }

/-- Claim-side description of a virtual-offset byte range (claim C10): the
decompressed contents of each block from the start block through the end
block, concatenated, with the first block sliced at the start intra-offset
and the last block sliced at the end intra-offset. -/
def slice_blocks : List (List Char) → Nat → Nat → List Char
  | [], _, _ => []
  | [c], os, oe => (c.take oe).drop os
  | c :: c2 :: rest, os, oe => c.drop os ++ slice_blocks (c2 :: rest) 0 oe

/-- The compressed offset of the last block of a block list (0 for `[]`). -/
def lastOffset : List (Nat × List Char) → Nat
  | [] => 0
  | [x] => x.1
  | _ :: y :: rest => lastOffset (y :: rest)

/-- A concrete three-block file: blocks at compressed offsets 0, 30 and an
empty trailer block at 70, total length 74. -/
def c10File : ModelFile :=
  ⟨[(0, ['a', 'b', 'c', 'd', 'e', 'f']), (30, ['g', 'h', 'i', 'j']), (70, [])], 74⟩

/-- A concrete index for `c10File`: one sequence `s`, linear index `[1]`,
bin 4681 holding the chunk `[2, 30 << 16 | 3)`. -/
def c10Index : TabixIndexData :=
  { file_format := 2, column_sequence := 1, column_begin := 2, column_end := 0,
    meta := '#', headerlines_count := 0,
    indexes := [(['s'], ([(4681, [(2, 1966083)])], [1]))] }

/-- Claim-side keep condition for one fetched line (claim C4): lines with
fewer columns than `max(col_seq, col_beg, col_end)` are dropped, and of the
rest exactly the lines whose begin-column value is `≥ begin` and whose
end-column value (the begin column again when `col_end = 0`) is `≤ end`
are kept (the end column is only consulted when the begin-column test
passed, matching the generator's short-circuit). -/
def spec_keep (t : TabixIndexData) (start e : Nat) (line : List Char) :
    Option Bool :=
  let line_split := splitTab line
  let endcol := if t.column_end = 0 then t.column_begin else t.column_end
  if (line_split.length : Int) <
      max t.column_sequence (max t.column_begin t.column_end) then
    some false
  else do
    let sb ← pyGet line_split (t.column_begin - 1)
    let vb ← pyInt sb
    if vb < (start : Int) then pure false
    else do
      let se ← pyGet line_split (endcol - 1)
      let vend ← pyInt se
      pure (decide (vb ≥ (start : Int)) && decide (vend ≤ (e : Int)))

/-- Claim-side line pipeline of claim C4, following its words: the first
`skip_lines` (`headerlines_count`) lines of the fetched region are
skipped, lines whose first character equals the meta character are
dropped, and the rest are filtered by `spec_keep`. -/
def fetch_lines_spec (t : TabixIndexData) (start e : Nat) (region : List Char) :
    Option (List (List Char)) :=
  let lines := splitlinesPy region
  let lines := lines.drop t.headerlines_count.toNat
  filterLines
    (fun l => if startswith l t.meta then some false else spec_keep t start e l)
    lines

/-- The same pipeline without the header-line skipping (the behaviour the
code actually implements). -/
def fetch_lines_spec_noskip (t : TabixIndexData) (start e : Nat)
    (region : List Char) : Option (List (List Char)) :=
  filterLines
    (fun l => if startswith l t.meta then some false else spec_keep t start e l)
    (splitlinesPy region)

/-- An index demanding one skipped header line (`headerlines_count = 1`). -/
def c4Index : TabixIndexData :=
  { file_format := 0, column_sequence := 1, column_begin := 2, column_end := 0,
    meta := '#', headerlines_count := 1, indexes := [] }

/-! ## Tabix index serialization (`TabixIndex.from_file` lines 50-139,
`TabixIndex.write_to` lines 228-271)

`from_file` wraps the file object in `gzip.GzipFile` and parses the
decompressed stream with `struct`; the functions below embed that parsing
over the decompressed payload bytes.  Sequence names are kept as raw byte
lists (Python decodes them to `str` on read and ascii-encodes them on
write, the identity on the ascii byte sequences that reach `write_to`
without error). -/
/-- The parsed index as needed for the serialization claim: the same
object state as `TabixIndexData` but with the meta character and sequence
names kept as bytes. -/
structure TbiIndex where
  file_format : Int
  column_sequence : Int
  column_begin : Int
  column_end : Int
  meta : Nat
  headerlines_count : Int
  indexes : List (List Nat × (BinIdx × LinIdx))
  deriving Repr

/-- Little-endian value of a byte list. -/
def leVal (bs : List Nat) : Nat := bs.foldr (fun b acc => b + 256 * acc) 0

/-- `struct.unpack "<i"`: signed little-endian 32-bit value of 4 bytes. -/
def int32OfBytes (bs : List Nat) : Int :=
  let v := leVal bs
  if v < 2 ^ 31 then (v : Int) else (v : Int) - 2 ^ 32

/-- Read exactly `n` bytes (`f.read(n)` followed by a length-checked
`struct.unpack` / name-count check, both of which fail on a short read). -/
def rdBytes (n : Nat) (s : List Nat) : Option (List Nat × List Nat) :=
  if n ≤ s.length then some (s.take n, s.drop n) else none

/-- Read a little-endian signed 32-bit integer. -/
def rdInt32 (s : List Nat) : Option (Int × List Nat) :=
  (rdBytes 4 s).map (fun p => (int32OfBytes p.1, p.2))

/-- Read a little-endian unsigned 32-bit integer (`struct.unpack "<I"`). -/
def rdUInt32 (s : List Nat) : Option (Nat × List Nat) :=
  (rdBytes 4 s).map (fun p => (leVal p.1, p.2))

/-- Read a little-endian unsigned 64-bit integer (`struct.unpack "<Q"`). -/
def rdUInt64 (s : List Nat) : Option (Nat × List Nat) :=
  (rdBytes 8 s).map (fun p => (leVal p.1, p.2))

/-- `struct.iter_unpack("<QQ", f.read(16 * n_chunks))`. -/
def rdChunks : Nat → List Nat → Option (List Chunk × List Nat)
  | 0, s => some ([], s)
  | n + 1, s => do
      let (c1, s) ← rdUInt64 s
      let (c2, s) ← rdUInt64 s
      let (rest, s) ← rdChunks n s
      pure ((c1, c2) :: rest, s)

/-- The bin-index parsing loop of `from_file` (tabix.py lines 108-119);
`none` on a duplicate bin key (the `assert bin_key not in bins`) or a
negative chunk count (which would make `f.read` misbehave). -/
def rdBins : Nat → BinIdx → List Nat → Option (BinIdx × List Nat)
  | 0, acc, s => some (acc, s)
  | n + 1, acc, s => do
      let (bin_key, s) ← rdUInt32 s
      let (n_chunks, s) ← rdInt32 s
      if n_chunks < 0 then none
      else do
        let (chunks, s) ← rdChunks n_chunks.toNat s
        if (alistFind bin_key acc).isSome then none
        else rdBins n (acc ++ [(bin_key, chunks)]) s

/-- `struct.iter_unpack("<Q", f.read(8 * n_intervals))`. -/
def rdU64List : Nat → List Nat → Option (List Nat × List Nat)
  | 0, s => some ([], s)
  | n + 1, s => do
      let (v, s) ← rdUInt64 s
      let (rest, s) ← rdU64List n s
      pure (v :: rest, s)

/-- The per-sequence parsing loop of `from_file` (tabix.py lines 104-129);
`none` on a duplicate sequence name. -/
def rdSeqs : List (List Nat) → List (List Nat × (BinIdx × LinIdx)) → List Nat →
    Option (List (List Nat × (BinIdx × LinIdx)) × List Nat)
  | [], acc, _s => some (acc, _s)
  | name :: rest, acc, s => do
      let (n_bins, s) ← rdInt32 s
      let (bins, s) ← rdBins n_bins.toNat [] s
      let (n_intervals, s) ← rdInt32 s
      let (intervals, s) ← rdU64List n_intervals.toNat s
      if (alistFind name acc).isSome then none
      else rdSeqs rest (acc ++ [(name, (bins, intervals))]) s

/-- Python `bytes.split(b"\x00")`. -/
def splitNul : List Nat → List (List Nat)
  | [] => [[]]
  | b :: rest =>
      if b = 0 then [] :: splitNul rest
      else
        match splitNul rest with
        | [] => [[b]]
        | piece :: pieces => (b :: piece) :: pieces

/-- Embedding of `TabixIndex.from_file` (tabix.py lines 50-139) over the
gzip-decompressed payload bytes: `none` models every raised exception
(bad magic, bad format, non-`#` meta, wrong name count, duplicate names or
bins, short reads, negative sizes).  Bytes remaining after the last
sequence are never read and are ignored, as in the source. -/
def from_file_payload (s0 : List Nat) : Option TbiIndex := do
  let (magic, s) ← rdBytes 4 s0
  if magic ≠ [84, 66, 73, 1] then none
  else do
    let (n_sequences, s) ← rdInt32 s
    let (file_format, s) ← rdInt32 s
    if file_format ≠ 0 ∧ file_format ≠ 1 ∧ file_format ≠ 2 then none
    else do
      let (column_sequence, s) ← rdInt32 s
      let (column_begin, s) ← rdInt32 s
      let (column_end, s) ← rdInt32 s
      let (meta4, s) ← rdBytes 4 s
      if ¬ meta4.all (· < 128) then none
      else
        match meta4 with
        | [] => none
        | m0 :: _ =>
          if m0 ≠ 35 then none
          else do
            let (headerlines_count, s) ← rdInt32 s
            let (l_nm, s) ← rdInt32 s
            if l_nm < 0 then none
            else do
              let (namebytes, s) ← rdBytes l_nm.toNat s
              let names := (splitNul namebytes).dropLast
              if (names.length : Int) ≠ n_sequences then none
              else do
                let (indexes, _s) ← rdSeqs names [] s
                pure { file_format := file_format,
                       column_sequence := column_sequence,
                       column_begin := column_begin,
                       column_end := column_end,
                       meta := m0,
                       headerlines_count := headerlines_count,
                       indexes := indexes }

/-- `struct.pack "<i"`: `none` models the `struct.error` on out-of-range
values. -/
def int32Bytes (v : Int) : Option (List Nat) :=
  if v < -(2 ^ 31) ∨ 2 ^ 31 ≤ v then none
  else some (leBytes 4 (v % 2 ^ 32).toNat)

/-- `struct.pack "<I"`. -/
def uint32Bytes (v : Nat) : Option (List Nat) :=
  if v < 2 ^ 32 then some (leBytes 4 v) else none

/-- `struct.pack "<Q"`. -/
def uint64Bytes (v : Nat) : Option (List Nat) :=
  if v < 2 ^ 64 then some (leBytes 8 v) else none

/-- The `b"".join(i.encode("ascii") + b"\0" for i in names)` of `write_to`
(byte level). -/
def namesConcat : List (List Nat) → List Nat
  | [] => []
  | n :: rest => n ++ 0 :: namesConcat rest

/-- Serialize one chunk list. -/
def wrChunks : List Chunk → Option (List Nat)
  | [] => some []
  | (a, b) :: rest => do
      let ba ← uint64Bytes a
      let bb ← uint64Bytes b
      let brest ← wrChunks rest
      pure (ba ++ bb ++ brest)

/-- Serialize one bin index in dict order (tabix.py lines 261-266). -/
def wrBins : BinIdx → Option (List Nat)
  | [] => some []
  | (bin_i, chunks) :: rest => do
      let bk ← uint32Bytes bin_i
      let nc ← int32Bytes (chunks.length : Int)
      let bc ← wrChunks chunks
      let brest ← wrBins rest
      pure (bk ++ nc ++ bc ++ brest)

/-- Serialize a linear index (tabix.py lines 268-271). -/
def wrIntervals : LinIdx → Option (List Nat)
  | [] => some []
  | v :: rest => do
      let bv ← uint64Bytes v
      let brest ← wrIntervals rest
      pure (bv ++ brest)

/-- Serialize the per-sequence sections in dict order. -/
def wrSeqs : List (List Nat × (BinIdx × LinIdx)) → Option (List Nat)
  | [] => some []
  | (_, (bins, intervals)) :: rest => do
      let nb ← int32Bytes (bins.length : Int)
      let bb ← wrBins bins
      let ni ← int32Bytes (intervals.length : Int)
      let bi ← wrIntervals intervals
      let brest ← wrSeqs rest
      pure (nb ++ bb ++ ni ++ bi ++ brest)

/-- Embedding of `TabixIndex.write_to` (tabix.py lines 228-271): the
serialized bytes, or `none` for the exceptions `struct.pack` /
`str.encode("ascii")` would raise.  Note the output is written directly to
`outfile`: it is not BGZF- or gzip-compressed. -/
def write_to (t : TbiIndex) : Option (List Nat) := do
  if ¬ t.meta < 128 then none
  else do
    let nseq ← int32Bytes (t.indexes.length : Int)
    let ff ← int32Bytes t.file_format
    let cs ← int32Bytes t.column_sequence
    let cb ← int32Bytes t.column_begin
    let ce ← int32Bytes t.column_end
    let hc ← int32Bytes t.headerlines_count
    let names := t.indexes.map Prod.fst
    if ¬ names.all (fun n => n.all (· < 128)) then none
    else do
      let nc := namesConcat names
      let lnm ← int32Bytes (nc.length : Int)
      let body ← wrSeqs t.indexes
      pure ([84, 66, 73, 1] ++ nseq ++ ff ++ cs ++ cb ++ ce ++
        (t.meta :: [0, 0, 0]) ++ hc ++ lnm ++ nc ++ body)

/-- Well-formedness of an in-memory index as `write_to` + `from_file`
preserve it: a supported file format, meta character `#`, no duplicate
sequence names, no NUL byte inside a name, and no duplicate bin keys.
(All size bounds are enforced by `write_to` itself.) -/
def TbiWF (t : TbiIndex) : Prop :=
  (t.file_format = 0 ∨ t.file_format = 1 ∨ t.file_format = 2) ∧
  t.meta = 35 ∧
  (t.indexes.map Prod.fst).Nodup ∧
  (∀ x ∈ t.indexes, (0 : Nat) ∉ x.1 ∧ (x.2.1.map Prod.fst).Nodup)

/-- Modelled from the spec: raw-DEFLATE decompression restricted to stored
(uncompressed) blocks — `BFINAL` is bit 0 of the block's first byte,
`BTYPE` (which must be 0 here) bits 1-2, followed by `LEN`/`NLEN` and
`LEN` literal bytes.  Returns the payload and the remaining bytes.  The
fuel argument bounds the number of blocks. -/
def inflateStored : Nat → List Nat → Option (List Nat × List Nat)
  | 0, _ => none
  | _ + 1, [] => none
  | fuel + 1, b :: rest =>
      let bfinal := b % 2
      let btype := (b / 2) % 4
      if btype ≠ 0 then none
      else
        match rest with
        | lenLo :: lenHi :: nlenLo :: nlenHi :: rest2 =>
            let len := lenLo + 256 * lenHi
            let nlen := nlenLo + 256 * nlenHi
            if len + nlen ≠ 65535 then none
            else if len ≤ rest2.length then
              let dat := rest2.take len
              let rest3 := rest2.drop len
              if bfinal = 1 then some (dat, rest3)
              else
                match inflateStored fuel rest3 with
                | some (dat2, rest4) => some (dat ++ dat2, rest4)
                | none => none
            else none
        | _ => none

/-- Modelled from the spec: one GZIP member as `gzip.GzipFile` reads it,
restricted to the BGZF shape (`FLG = FEXTRA`, extra field skipped, raw
deflate of stored blocks, then CRC32 and ISIZE which are both checked). -/
def gunzipMember (s : List Nat) : Option (List Nat × List Nat) :=
  match s with
  | 31 :: 139 :: 8 :: flg :: _m1 :: _m2 :: _m3 :: _m4 :: _xfl :: _os :: rest =>
      if flg = 4 then
        match rest with
        | xl1 :: xl2 :: rest2 =>
            let xlen := xl1 + 256 * xl2
            if xlen ≤ rest2.length then
              let rest3 := rest2.drop xlen
              match inflateStored (rest3.length + 1) rest3 with
              | some (payload, rest4) =>
                  match rest4 with
                  | c1 :: c2 :: c3 :: c4 :: i1 :: i2 :: i3 :: i4 :: rest5 =>
                      if leVal [c1, c2, c3, c4] = crc32 payload ∧
                          leVal [i1, i2, i3, i4] = payload.length % 2 ^ 32 then
                        some (payload, rest5)
                      else none
                  | _ => none
              | none => none
            else none
        | _ => none
      else none
  | _ => none

/-- Modelled from the spec: `gzip.GzipFile(...).read()`, concatenating the
payloads of consecutive GZIP members. -/
def gunzip : Nat → List Nat → Option (List Nat)
  | 0, _ => none
  | _ + 1, [] => some []
  | fuel + 1, s =>
      match gunzipMember s with
      | some (payload, rest) =>
          match gunzip fuel rest with
          | some p2 => some (payload ++ p2)
          | none => none
      | none => none

/-- `parse_tabix_index` of the spec: `TabixIndex.from_file` on an on-disk
(gzip-compressed) index file — gzip decompression followed by payload
parsing. -/
def parse_tabix_index (x : List Nat) : Option TbiIndex :=
  (gunzip (x.length + 1) x).bind from_file_payload

/-- A concrete well-formed one-sequence index (sequence `a`, one bin with
one chunk, one linear entry). -/
def c3Index : TbiIndex :=
  { file_format := 2, column_sequence := 1, column_begin := 2, column_end := 0,
    meta := 35, headerlines_count := 0,
    indexes := [([97], ([(4681, [(5, 9)])], [5]))] }

/-- The 78-byte uncompressed serialization of `c3Index`. -/
def c3Payload : List Nat :=
  [84, 66, 73, 1, 1, 0, 0, 0, 2, 0, 0, 0, 1, 0, 0, 0, 2, 0, 0, 0, 0, 0, 0, 0,
   35, 0, 0, 0, 0, 0, 0, 0, 2, 0, 0, 0, 97, 0, 1, 0, 0, 0, 73, 18, 0, 0, 1, 0,
   0, 0, 5, 0, 0, 0, 0, 0, 0, 0, 9, 0, 0, 0, 0, 0, 0, 0, 1, 0, 0, 0, 5, 0, 0,
   0, 0, 0, 0, 0]

/-- A 109-byte on-disk `.tbi` for `c3Index`: one BGZF block whose deflate
stream is a single stored block holding `c3Payload`, with correct `BSIZE`,
CRC32 and ISIZE. -/
def c3File : List Nat :=
  [31, 139, 8, 4, 0, 0, 0, 0, 0, 255, 6, 0, 66, 67, 2, 0, 108, 0,
   1, 78, 0, 177, 255] ++ c3Payload ++ [150, 197, 96, 5, 78, 0, 0, 0]

/-! ## VCF line parser (vcf.py, fsm.py)

The finite state machine of `get_vcf_fsm` (vcf.py lines 465-684) driven by
`FSMachine.run` (fsm.py lines 125-165).  States are the string constants of
vcf.py; the accepting "state" `None` is `Option.none`.  The accumulator is
`VCFAccumulator` (vcf.py lines 301-439) with Python strings as `List Char`
and its insertion-ordered dicts as association lists. -/
/-- The parser states of vcf.py lines 443-462. -/
inductive VState
  | LINE_START | COMMENT | COMMENT_KEY | COMMENT_VALUE | COMMENT_STRUCT_KEY
  | COMMENT_STRUCT_VALUE | COMMENT_STRUCT_VALUE_QUOTED
  | CHROM | POS | ID | REF | ALT | QUAL | FILTER | INFO_KEY | INFO_VALUE
  | FORMAT | SAMPLE
  deriving DecidableEq, Repr

/-- The exceptions parsing can raise: `ValueError` for an unmatched input
(`process_next`, fsm.py line 165), the `AssertionError` of `run`
(fsm.py line 144), `ValueError` from `int('')` (`pos_to_id`), the
`AssertionError` of `comment_struct_key_to_comment_struct_value`, the
`AttributeError` from appending to a `None` info value, the `TypeError`
from matching the regex against the end-of-input `None`, and the
`IndexError` from `tuple(keys)[-1]` on an empty dict. -/
inductive PErr
  | noTransition (state : VState)
  | unexpectedEnding (state : VState)
  | intParseError
  | duplicateStructKey
  | appendToNone
  | regexNoneInput (state : VState)
  | emptyStructIndex
  deriving DecidableEq, Repr

/-- The accumulator state (vcf.py lines 301-326).  The private
`__characters` buffer is `characters`; `__infokey` is `infokey`.
(`_alt_option`, `_comment_struct_key` and `_comment_struct_value` are never
read back observably and are omitted; `_comment_struct_key` is always the
empty string, which is how the assert of
`comment_struct_key_to_comment_struct_value` is modelled below.) -/
structure VCFAccumulator where
  characters : List Char
  comment_raw : List Char
  comment_key : List Char
  comment_value : List Char
  comment_struct : List (List Char × Option (List Char))
  chrom : List Char
  pos : Nat
  ids : List (List Char)
  ref : List Char
  alt : List (List Char)
  qual : List Char
  filters : List (List Char)
  info : List (List Char × Option (List (List Char)))
  infokey : List Char
  format : List (List Char)
  samples : List (List (List Char × List Char))
  deriving DecidableEq, Repr

/-- `VCFAccumulator.reset` (vcf.py lines 305-325). -/
def VCFAccumulator.reset : VCFAccumulator :=
  ⟨[], [], [], [], [], [], 0, [], [], [], [], [], [], [], [], []⟩

/-- The parsed line record (vcf.py lines 11-114).  `qual` (the float parse
of `qual_str`) is omitted: floating point is not modelled and the field is
never used by `__str__`. -/
structure VCFLine where
  comment_raw : List Char
  comment_key : List Char
  comment_value_str : List Char
  comment_value_dict : List (List Char × Option (List Char))
  chrom : List Char
  pos : Nat
  ids : List (List Char)
  ref : List Char
  alt : List (List Char)
  qual_str : List Char
  filters : List (List Char)
  info : List (List Char × Option (List (List Char)))
  sample : List (List (List Char × List Char))
  deriving DecidableEq, Repr

/-- `VCFAccumulator.to_vcfline` (vcf.py lines 327-342). -/
def VCFAccumulator.to_vcfline (a : VCFAccumulator) : VCFLine :=
  ⟨a.comment_raw, a.comment_key, a.comment_value, a.comment_struct, a.chrom,
   a.pos, a.ids, a.ref, a.alt, a.qual, a.filters, a.info, a.samples⟩

abbrev CB := VCFAccumulator → Option Char → Except PErr VCFAccumulator

/-- `append_character`.  (With the end-of-input `None` the Python version
appends `None` to the buffer; that buffer is never joined afterwards
because `run` stops right after the end-of-input step, so this is
unobservable and modelled as a no-op.) -/
def append_character : CB := fun a c =>
  match c with
  | some ch => .ok { a with characters := a.characters ++ [ch] }
  | none => .ok a

/-- `end_comment`. -/
def end_comment : CB := fun a _ =>
  .ok { a with comment_raw := a.characters, characters := [] }

/-- `comment_value_to_end`. -/
def comment_value_to_end : CB := fun a _ =>
  .ok { a with comment_value := a.characters, characters := [] }

/-- `comment_key_to_comment_value`. -/
def comment_key_to_comment_value : CB := fun a _ =>
  .ok { a with comment_key := a.characters, characters := [] }

/-- `comment_value_to_comment_struct_key`. -/
def comment_value_to_comment_struct_key : CB := fun a _ =>
  .ok { a with comment_value := a.characters, characters := [] }

/-- `comment_struct_key_to_comment_struct_value`: the assert compares the
always-empty `_comment_struct_key` against the dict keys, so it fires
exactly when a previous struct key was the empty string. -/
def comment_struct_key_to_comment_struct_value : CB := fun a _ =>
  if (alistFind ([] : List Char) a.comment_struct).isSome then
    .error .duplicateStructKey
  else
    .ok { a with comment_struct := alistSet a.characters none a.comment_struct,
                 characters := [] }

/-- `comment_struct_value_to_comment_struct_key`: assigns the accumulated
value to the last key of the insertion-ordered dict. -/
def comment_struct_value_to_comment_struct_key : CB := fun a _ =>
  match (a.comment_struct.map Prod.fst).getLast? with
  | none => .error .emptyStructIndex
  | some lastKey =>
      .ok { a with
        comment_struct := alistSet lastKey (some a.characters) a.comment_struct,
        characters := [] }

/-- `chrom_to_pos`. -/
def chrom_to_pos : CB := fun a _ =>
  .ok { a with chrom := a.characters, characters := [] }

/-- The digit-string value used by Python `int` on the all-digit buffers
reaching `pos_to_id`. -/
def digitsToNat (s : List Char) : Nat :=
  s.foldl (fun n c => 10 * n + (c.toNat - 48)) 0

/-- `pos_to_id`: `int("".join(...))`, a `ValueError` on the empty string. -/
def pos_to_id : CB := fun a _ =>
  if a.characters ≠ [] ∧ a.characters.all Char.isDigit then
    .ok { a with pos := digitsToNat a.characters, characters := [] }
  else .error .intParseError

/-- `id_to_ref`. -/
def id_to_ref : CB := fun a _ =>
  .ok { a with ids := a.ids ++ [a.characters], characters := [] }

/-- `ref_to_alt`. -/
def ref_to_alt : CB := fun a _ =>
  .ok { a with ref := a.characters, characters := [] }

/-- `alt_to_alt`. -/
def alt_to_alt : CB := fun a _ =>
  .ok { a with alt := a.alt ++ [a.characters], characters := [] }

/-- `alt_to_qual`. -/
def alt_to_qual : CB := fun a _ =>
  .ok { a with alt := a.alt ++ [a.characters], characters := [] }

/-- `qual_to_filter`. -/
def qual_to_filter : CB := fun a _ =>
  .ok { a with qual := a.characters, characters := [] }

/-- `filter_to_info_key`. -/
def filter_to_info_key : CB := fun a _ =>
  .ok { a with filters := a.filters ++ [a.characters], characters := [] }

/-- `info_key_to_info_key`. -/
def info_key_to_info_key : CB := fun a _ =>
  .ok { a with infokey := a.characters,
               info := alistSet a.characters none a.info, characters := [] }

/-- `info_key_to_info_value`. -/
def info_key_to_info_value : CB := fun a _ =>
  .ok { a with infokey := a.characters, characters := [] }

/-- `info_value_to_format`: appends to `info[infokey]`, creating the list
when absent; appending to a committed flag (`None`) raises
`AttributeError`. -/
def info_value_to_format : CB := fun a _ =>
  match alistFind a.infokey a.info with
  | none =>
      .ok { a with info := alistSet a.infokey (some [a.characters]) a.info,
                   characters := [] }
  | some none => .error .appendToNone
  | some (some vs) =>
      .ok { a with info := alistSet a.infokey (some (vs ++ [a.characters])) a.info,
                   characters := [] }

/-- `format_to_sample`. -/
def format_to_sample : CB := fun a _ =>
  .ok { a with format := a.format ++ [a.characters], characters := [] }

/-- Python `str.split(":")`. -/
def splitColon (s : List Char) : List (List Char) := s.splitOn ':'

/-- The dict built by `sample_to_sample`: `sample[key] = value` over
`zip(format, parts)`. -/
def zipSample (format : List (List Char)) (parts : List (List Char)) :
    List (List Char × List Char) :=
  (format.zip parts).foldl (fun d kv => alistSet kv.1 kv.2 d) []

/-- `sample_to_sample`. -/
def sample_to_sample : CB := fun a _ =>
  .ok { a with
    samples := a.samples ++ [zipSample a.format (splitColon a.characters)],
    characters := [] }

/-- The transition guards of fsm.py: `SetInTransition` over a set that may
contain the end-of-input `None`, `SetNotInTransition` over characters
(which the end-of-input `None` always satisfies), and `RegexTransition`
with the pattern `\S` (which raises on `None`). -/
inductive TCond
  | inSet (cs : List (Option Char))
  | notInSet (cs : List Char)
  | regexNonSpace
  deriving Repr

/-- One `add_transition` entry. -/
structure Transition where
  dst : Option VState
  cond : TCond
  callback : Option CB

/-- Python `\s` on the ASCII characters this parser sees. -/
def isPySpace (c : Char) : Bool :=
  c = ' ' ∨ c = '\t' ∨ c = '\n' ∨ c = '\r' ∨ c = '\x0b' ∨ c = '\x0c'

/-- Guard evaluation (`match` of the three transition classes). -/
def tmatch (state : VState) (cond : TCond) (i : Option Char) :
    Except PErr Bool :=
  match cond with
  | .inSet cs => .ok (decide (i ∈ cs))
  | .notInSet cs =>
      match i with
      | some ch => .ok (decide (ch ∉ cs))
      | none => .ok true
  | .regexNonSpace =>
      match i with
      | some ch => .ok (!(isPySpace ch))
      | none => .error (.regexNoneInput state)

/-- The transition table of `get_vcf_fsm` (vcf.py lines 465-684), with the
transitions of each state in `add_transition` order. -/
def transitions : VState → List Transition
  | .LINE_START =>
      [⟨some .CHROM, .notInSet ['#'], some append_character⟩,
       ⟨some .COMMENT, .inSet [some '#'], none⟩]
  | .CHROM =>
      [⟨some .CHROM, .notInSet ['\t'], some append_character⟩,
       ⟨some .POS, .inSet [some '\t'], some chrom_to_pos⟩]
  | .POS =>
      [⟨some .POS, .inSet (['0','1','2','3','4','5','6','7','8','9'].map some),
        some append_character⟩,
       ⟨some .ID, .inSet [some '\t'], some pos_to_id⟩]
  | .ID =>
      [⟨some .ID, .regexNonSpace, some append_character⟩,
       ⟨some .ID, .inSet [some ';'], some id_to_ref⟩,
       ⟨some .REF, .inSet [some '\t'], some id_to_ref⟩]
  | .REF =>
      [⟨some .REF, .inSet (['A','C','G','T','N'].map some), some append_character⟩,
       ⟨some .ALT, .inSet [some '\t'], some ref_to_alt⟩]
  | .ALT =>
      [⟨some .ALT, .notInSet [',', '\t'], some append_character⟩,
       ⟨some .ALT, .inSet [some ','], some alt_to_alt⟩,
       ⟨some .QUAL, .inSet [some '\t'], some alt_to_qual⟩]
  | .QUAL =>
      [⟨some .QUAL,
        .inSet (['0','1','2','3','4','5','6','7','8','9','.','-'].map some),
        some append_character⟩,
       ⟨some .FILTER, .inSet [some '\t'], some qual_to_filter⟩]
  | .FILTER =>
      [⟨some .FILTER, .notInSet ['\t', ';'], some append_character⟩,
       ⟨some .FILTER, .inSet [some ';'], some filter_to_info_key⟩,
       ⟨some .INFO_KEY, .inSet [some '\t'], some filter_to_info_key⟩]
  | .INFO_KEY =>
      [⟨some .INFO_KEY, .notInSet ['=', '\t', ';', '\n'], some append_character⟩,
       ⟨some .INFO_VALUE, .inSet [some '='], some info_key_to_info_value⟩,
       ⟨some .INFO_KEY, .inSet [some ';'], some info_key_to_info_key⟩,
       ⟨some .FORMAT, .inSet [some '\t'], some info_key_to_info_key⟩,
       ⟨none, .inSet [some '\n', none], some info_key_to_info_key⟩]
  | .INFO_VALUE =>
      [⟨some .INFO_VALUE, .notInSet ['\t', ';', ',', '\n'], some append_character⟩,
       ⟨some .INFO_VALUE, .inSet [some ','], some info_value_to_format⟩,
       ⟨some .INFO_KEY, .inSet [some ';'], some info_value_to_format⟩,
       ⟨some .FORMAT, .inSet [some '\t'], some info_value_to_format⟩,
       ⟨none, .inSet [some '\n', none], some info_value_to_format⟩]
  | .FORMAT =>
      [⟨some .FORMAT, .notInSet ['\t', ':'], some append_character⟩,
       ⟨some .FORMAT, .inSet [some ':'], some format_to_sample⟩,
       ⟨some .SAMPLE, .inSet [some '\t'], some format_to_sample⟩]
  | .SAMPLE =>
      [⟨some .SAMPLE, .notInSet ['\t', '\n'], some append_character⟩,
       ⟨some .SAMPLE, .inSet [some '\t'], some sample_to_sample⟩,
       ⟨none, .inSet [some '\n', none], some sample_to_sample⟩]
  | .COMMENT =>
      [⟨some .COMMENT, .notInSet ['#', '\n'], some append_character⟩,
       ⟨none, .inSet [some '\n', none], some end_comment⟩,
       ⟨some .COMMENT_KEY, .inSet [some '#'], none⟩]
  | .COMMENT_KEY =>
      [⟨some .COMMENT_KEY, .notInSet ['='], some append_character⟩,
       ⟨some .COMMENT_VALUE, .inSet [some '='], some comment_key_to_comment_value⟩]
  | .COMMENT_VALUE =>
      [⟨some .COMMENT_VALUE, .notInSet ['<', '\n'], some append_character⟩,
       ⟨some .COMMENT_STRUCT_KEY, .inSet [some '<'],
        some comment_value_to_comment_struct_key⟩,
       ⟨none, .inSet [some '\n', none], some comment_value_to_end⟩]
  | .COMMENT_STRUCT_KEY =>
      [⟨some .COMMENT_STRUCT_KEY, .notInSet ['='], some append_character⟩,
       ⟨some .COMMENT_STRUCT_VALUE, .inSet [some '='],
        some comment_struct_key_to_comment_struct_value⟩]
  | .COMMENT_STRUCT_VALUE =>
      [⟨some .COMMENT_STRUCT_VALUE, .notInSet ['"', ',', '>'],
        some append_character⟩,
       ⟨some .COMMENT_STRUCT_VALUE_QUOTED, .inSet [some '"'],
        some append_character⟩,
       ⟨some .COMMENT_STRUCT_KEY, .inSet [some ','],
        some comment_struct_value_to_comment_struct_key⟩,
       ⟨some .COMMENT, .inSet [some '>'],
        some comment_struct_value_to_comment_struct_key⟩]
  | .COMMENT_STRUCT_VALUE_QUOTED =>
      [⟨some .COMMENT_STRUCT_VALUE_QUOTED, .notInSet ['"'],
        some append_character⟩,
       ⟨some .COMMENT_STRUCT_VALUE, .inSet [some '"'], some append_character⟩]

/-- The transition scan of `FSMachine.process_next` (fsm.py lines 146-165):
first matching transition wins, its callback runs, the state moves; no
match raises `ValueError`. -/
def findTrans (state : VState) (i : Option Char) (a : VCFAccumulator) :
    List Transition → Except PErr (Option VState × VCFAccumulator)
  | [] => .error (.noTransition state)
  | t :: rest =>
      match tmatch state t.cond i with
      | .error e => .error e
      | .ok true =>
          match t.callback with
          | none => .ok (t.dst, a)
          | some cb => (cb a i).map (fun a2 => (t.dst, a2))
      | .ok false => findTrans state i a rest

/-- `process_next` on the full transition list of the current state. -/
def process_next (state : VState) (i : Option Char) (a : VCFAccumulator) :
    Except PErr (Option VState × VCFAccumulator) :=
  findTrans state i a (transitions state)

/-- `FSMachine.run` (fsm.py lines 125-144): consume the characters (an
accepting `None` state stops consumption early), then process the
end-of-input `None`, then assert the machine accepted. -/
def runFSM : List Char → VState → VCFAccumulator → Except PErr VCFAccumulator
  | [], state, a =>
      match process_next state none a with
      | .error e => .error e
      | .ok (some s2, _) => .error (.unexpectedEnding s2)
      | .ok (none, a2) => .ok a2
  | c :: rest, state, a =>
      match process_next state (some c) a with
      | .error e => .error e
      | .ok (none, a2) => .ok a2
      | .ok (some s2, a2) => runFSM rest s2 a2

/-- Running `get_vcf_fsm().run(line, LINE_START, accumulator)` on a fresh
accumulator followed by `accumulator.to_vcfline()`. -/
def run_vcf (line : List Char) : Except PErr VCFLine :=
  (runFSM line .LINE_START VCFAccumulator.reset).map VCFAccumulator.to_vcfline

/-- The decimal digit characters, indexed. -/
def digitChar (d : Nat) : Char :=
  [('0' : Char), '1', '2', '3', '4', '5', '6', '7', '8', '9'].getD d '0'

/-- Decimal rendering of a natural number (Python `str(int)`), fuel-based. -/
def natReprAux : Nat → Nat → List Char → List Char
  | 0, _, acc => acc
  | fuel + 1, n, acc =>
      if n < 10 then digitChar n :: acc
      else natReprAux fuel (n / 10) (digitChar (n % 10) :: acc)

/-- Python `str` of a nonnegative int. -/
def natRepr (n : Nat) : List Char := natReprAux (n + 1) n []

/-- The first-seen-order key superset over all samples
(vcf.py lines 165-171). -/
def keylistOf (samples : List (List (List Char × List Char))) :
    List (List Char) :=
  samples.foldl
    (fun kl s => s.foldl
      (fun kl2 kv => if kv.1 ∈ kl2 then kl2 else kl2 ++ [kv.1]) kl) []

/-- `VCFLine.__str__` (vcf.py lines 116-181): comment lines, meta-information
lines (scalar and structured) and data lines, with Python truthiness on the
guards (`if value else key` renders just the key for `None` and for the
empty string / empty list). -/
def vcfline_str (v : VCFLine) : List Char :=
  if v.comment_raw ≠ [] then '#' :: v.comment_raw
  else if v.comment_key ≠ [] ∧ v.comment_value_str ≠ [] then
    '#' :: '#' :: v.comment_key ++ '=' :: v.comment_value_str
  else if v.comment_key ≠ [] ∧ v.comment_value_dict ≠ [] then
    '#' :: '#' :: v.comment_key ++ '=' :: '<' ::
      List.intercalate [','] (v.comment_value_dict.map (fun kv =>
        match kv.2 with
        | some val => if val ≠ [] then kv.1 ++ '=' :: val else kv.1
        | none => kv.1)) ++ ['>']
  else
    let required := List.intercalate ['\t']
      [v.chrom, natRepr v.pos, List.intercalate [';'] v.ids, v.ref,
       List.intercalate [','] v.alt, v.qual_str,
       List.intercalate [';'] v.filters,
       List.intercalate [';'] (v.info.map (fun kv =>
         match kv.2 with
         | some vs =>
             if vs ≠ [] then kv.1 ++ '=' :: List.intercalate [','] vs else kv.1
         | none => kv.1))]
    if v.sample = [] then required
    else
      required ++ '\t' :: List.intercalate [':'] (keylistOf v.sample) ++
        v.sample.flatMap (fun s => '\t' ::
          List.intercalate [':']
            ((keylistOf v.sample).map (fun k => (alistFind k s).getD ['.'])))

/-- Consume input characters through non-accepting states: `none` when the
machine errors or accepts strictly inside the consumed prefix. -/
def consume : List Char → VState → VCFAccumulator →
    Option (VState × VCFAccumulator)
  | [], st, a => some (st, a)
  | c :: rest, st, a =>
      match process_next st (some c) a with
      | .ok (some s2, a2) => consume rest s2 a2
      | _ => none

/-- Claim-side canonical data-line shape (spec section 6): the fields a
canonical tab-separated data record is built from. -/
structure DataShape where
  chrom : List Char
  pos : Nat
  idStr : List Char
  refStr : List Char
  alt : List (List Char)
  qualStr : List Char
  filters : List (List Char)
  info : List (List Char × Option (List (List Char)))
  format : List (List Char)
  rows : List (List (List Char))
  deriving DecidableEq, Repr

/-- Claim-side canonical line shapes: comment, scalar meta-information,
structured meta-information, and data lines. -/
inductive VCFShape
  | comment (text : List Char)
  | metaScalar (key value : List Char)
  | metaStruct (key : List Char) (entries : List (List Char × List Char))
  | data (d : DataShape)
  deriving DecidableEq, Repr

/-- Claim-side rendering of one info entry: `key` for a flag, `key=v1,...`
for a valued entry. -/
def renderInfoEntry : List Char × Option (List (List Char)) → List Char
  | (k, none) => k
  | (k, some vs) => k ++ '=' :: List.intercalate [','] vs

/-- Claim-side rendering of a canonical data line (with its final newline). -/
def renderDataShape (d : DataShape) : List Char :=
  d.chrom ++ '\t' :: natRepr d.pos ++ '\t' :: d.idStr ++ '\t' ::
  d.refStr ++ '\t' :: List.intercalate [','] d.alt ++ '\t' ::
  d.qualStr ++ '\t' :: List.intercalate [';'] d.filters ++ '\t' ::
  List.intercalate [';'] (d.info.map renderInfoEntry) ++
  (if d.rows = [] then [] else
    '\t' :: List.intercalate [':'] d.format ++
      d.rows.flatMap (fun r => '\t' :: List.intercalate [':'] r)) ++ ['\n']

/-- Claim-side rendering of a canonical line (with its final newline). -/
def renderShape : VCFShape → List Char
  | .comment text => '#' :: text ++ ['\n']
  | .metaScalar k v => '#' :: '#' :: k ++ '=' :: v ++ ['\n']
  | .metaStruct k es => '#' :: '#' :: k ++ '=' :: '<' ::
      List.intercalate [','] (es.map (fun e => e.1 ++ '=' :: e.2)) ++
      '>' :: ['\n']
  | .data d => renderDataShape d

/-- Well-formedness of a canonical data shape: nonempty chromosome not
starting with `#` and free of separators, character classes for ID, REF,
QUAL, nonempty ALT / FILTER / INFO lists with separator-free parts and
distinct info keys, nonempty valued-info value lists, and sample rows
matching a duplicate-free FORMAT in length with separator-free parts. -/
def dataWFb (d : DataShape) : Bool :=
  d.chrom ≠ [] && d.chrom.head? ≠ some '#' &&
  d.chrom.all (fun c => c ∉ ['\t', '\n']) &&
  d.idStr.all (fun c => !(isPySpace c)) &&
  d.refStr.all (fun c => c ∈ ['A', 'C', 'G', 'T', 'N']) &&
  d.alt ≠ [] && d.alt.all (fun e => e.all (fun c => c ∉ [',', '\t', '\n'])) &&
  d.qualStr.all (fun c =>
    c ∈ ['0', '1', '2', '3', '4', '5', '6', '7', '8', '9', '.', '-']) &&
  d.filters ≠ [] &&
  d.filters.all (fun e => e.all (fun c => c ∉ ['\t', ';', '\n'])) &&
  d.info ≠ [] && (d.info.map Prod.fst).Nodup &&
  d.info.all (fun e =>
    e.1.all (fun c => c ∉ ['=', '\t', ';', '\n']) &&
    (match e.2 with
     | none => true
     | some vs =>
         vs ≠ [] && vs.all (fun v => v.all (fun c => c ∉ ['\t', ';', ',', '\n'])))) &&
  ((d.rows = [] && d.format = []) ||
   (d.rows ≠ [] && d.format ≠ [] && d.format.Nodup &&
    d.format.all (fun k => k.all (fun c => c ∉ ['\t', ':', '\n'])) &&
    d.rows.all (fun r =>
      r.length = d.format.length &&
      r.all (fun v => v.all (fun c => c ∉ ['\t', ':', '\n'])))))

/-- Well-formedness of a canonical line shape. -/
def shapeWFb : VCFShape → Bool
  | .comment text => text ≠ [] && text.all (fun c => c ∉ ['#', '\n'])
  | .metaScalar k v =>
      k ≠ [] && k.all (fun c => c ∉ ['=', '\n']) &&
      v ≠ [] && v.all (fun c => c ∉ ['<', '\n'])
  | .metaStruct k es =>
      k ≠ [] && k.all (fun c => c ∉ ['=', '\n']) &&
      es ≠ [] && (es.map Prod.fst).Nodup &&
      es.all (fun e =>
        e.1 ≠ [] && e.1.all (fun c => c ∉ ['=', ',', '>', '\n']) &&
        e.2 ≠ [] && e.2.all (fun c => c ∉ ['"', ',', '>', '\n']))
  | .data d => dataWFb d

/-- `ShapeWF s` states that `s` is a canonical line shape. -/
def ShapeWF (s : VCFShape) : Prop := shapeWFb s = true

/-- The info dict after the uncommitted values of the open entry: unchanged
until the first comma commits. -/
def infoPartial (k : List Char)
    (m : List (List Char × Option (List (List Char)))) :
    List (List Char) → List (List Char × Option (List (List Char)))
  | [] => m
  | vs => m ++ [(k, some vs)]

/-- A concrete canonical data line shape with two samples, used to
instantiate the round-trip theorem. -/
def c6Shape : VCFShape :=
  .data ⟨['c', 'h', 'r', '1'], 123, ['r', 's', '1'], ['A'],
    [['G'], ['T']], ['2', '9', '.', '5'], [['P', 'A', 'S', 'S']],
    [(['D', 'P'], some [['1', '4']]), (['D', 'B'], none)],
    [['G', 'T'], ['D', 'P']],
    [[['0', '|', '1'], ['1', '4']], [['1', '|', '1'], ['8']]]⟩

/-- The valid data line `c<TAB>01<TAB>.<TAB>A<TAB>.<TAB>.<TAB>.<TAB>K` with
a leading zero in POS: parsed successfully, it re-serializes with POS `1`. -/
def c6BadLine : List Char :=
  ['c', '\t', '0', '1', '\t', '.', '\t', 'A', '\t', '.', '\t', '.', '\t',
   '.', '\t', 'K', '\n']

end Puretabix

open Puretabix

namespace Puretabix

theorem leBytes_length (w n : Nat) : (leBytes w n).length = w := by
  induction w generalizing n with
  | zero => rfl
  | succ w ih => simp [leBytes, ih]

end Puretabix

/-- C5: for all `begin ≤ end < 2^29`, the bin id returned by `region_to_bin`
occurs among the bin ids yielded by `region_to_bins`. -/
theorem c5_region_to_bin_mem_region_to_bins
    (b e : Nat) (hbe : b ≤ e) (he : e < 2 ^ 29) :
    region_to_bin b e ∈ region_to_bins b e := by
  have hb29 : b >>> 29 = 0 := by
    have : b < 2 ^ 29 := lt_of_le_of_lt hbe he
    simpa [Nat.shiftRight_eq_div_pow] using Nat.div_eq_of_lt this
  unfold region_to_bins
  simp only [region_to_bins_aux, List.mem_append]
  by_cases h14 : b >>> 14 = e >>> 14
  · -- level 5 bin, offset 4681
    refine Or.inr (Or.inr (Or.inr (Or.inr (Or.inr (Or.inl ?_)))))
    rw [region_to_bin, if_pos h14]
    refine List.mem_range'.mpr ⟨0, by omega, ?_⟩
    norm_num [Nat.shiftLeft_eq]
  · by_cases h17 : b >>> 17 = e >>> 17
    · refine Or.inr (Or.inr (Or.inr (Or.inr (Or.inl ?_))))
      rw [region_to_bin, if_neg h14, if_pos h17]
      refine List.mem_range'.mpr ⟨0, by omega, ?_⟩
      norm_num [Nat.shiftLeft_eq]
    · by_cases h20 : b >>> 20 = e >>> 20
      · refine Or.inr (Or.inr (Or.inr (Or.inl ?_)))
        rw [region_to_bin, if_neg h14, if_neg h17, if_pos h20]
        refine List.mem_range'.mpr ⟨0, by omega, ?_⟩
        norm_num [Nat.shiftLeft_eq]
      · by_cases h23 : b >>> 23 = e >>> 23
        · refine Or.inr (Or.inr (Or.inl ?_))
          rw [region_to_bin, if_neg h14, if_neg h17, if_neg h20, if_pos h23]
          refine List.mem_range'.mpr ⟨0, by omega, ?_⟩
          norm_num [Nat.shiftLeft_eq]
        · by_cases h26 : b >>> 26 = e >>> 26
          · refine Or.inr (Or.inl ?_)
            rw [region_to_bin, if_neg h14, if_neg h17, if_neg h20, if_neg h23,
              if_pos h26]
            refine List.mem_range'.mpr ⟨0, by omega, ?_⟩
            norm_num [Nat.shiftLeft_eq]
          · refine Or.inl ?_
            rw [region_to_bin, if_neg h14, if_neg h17, if_neg h20, if_neg h23,
              if_neg h26]
            refine List.mem_range'.mpr ⟨0, by omega, ?_⟩
            norm_num [Nat.shiftLeft_eq, hb29]

/-- C5 witness: the theorem applied at the concrete region `[3, 5]`. -/
theorem c5_region_to_bin_mem_region_to_bins_witness :
    region_to_bin 3 5 ∈ region_to_bins 3 5 :=
  c5_region_to_bin_mem_region_to_bins 3 5 (by decide) (by norm_num)

/-- Applying a function to the last element of `pre ++ [x]` rewrites `x`. -/
theorem updateLast_append_singleton {α : Type} (f : α → α) (pre : List α) (x : α) :
    updateLast f (pre ++ [x]) = pre ++ [f x] := by
  induction pre with
  | nil => rfl
  | cons p ps ih =>
    cases ps with
    | nil => rfl
    | cons q qs => exact congrArg (fun l => p :: l) ih

/-- C2 counterexample: the claim fails for a record whose line spans two
BGZF blocks.  `build_from` leaves the linear index of sequence `1`
completely empty — the start window `(pos-1) >> 14 = 0` is never set to the
record's virtual start offset 5, and no forward fill happens — because the
interval-index update is guarded by `if start_block == end_block`. -/
theorem c2_counterexample :
    (build_from [c2Record]).indexes = [(['1'], ([(4681, [(5, 65540)])], []))] ∧
    lookup_linear (build_from [c2Record]) (['1']) 0 = none := by
  constructor <;> rfl

/-- C2 amended: for every non-comment record, `build_from`'s loop body
updates only the linear index of the most recently created sequence (the
last dict entry), and only when the record's line lies inside one BGZF
block; the update appends the record's virtual start offset until the list
is longer than the start window `(pos-1) >> 14`, never modifies existing
entries (no minimum is taken), never visits the end window separately, and
two-block records leave the linear index unchanged.  No forward-fill pass
exists (`build_from` is a single fold of this step). -/
theorem c2_linear_update_characterization
    (indexes : List (List Char × (BinIdx × LinIdx))) (r : BuildRecord)
    (hc : r.is_comment = false)
    (pre : List (List Char × (BinIdx × LinIdx)))
    (name : List Char) (b : BinIdx) (L : LinIdx)
    (hsplit : ensure_chrom indexes r.chrom = pre ++ [(name, (b, L))]) :
    ∃ bNew : BinIdx, build_from_step indexes r = pre ++ [(name, (bNew,
      if r.start_block = r.end_block then
        L ++ List.replicate (((r.pos - 1) >>> 14) + 1 - L.length)
          (r.start_block <<< 16 ||| r.start_offset)
      else L))] := by
  unfold build_from_step
  rw [hc]
  simp only [Bool.false_eq_true, if_false]
  rw [hsplit, updateLast_append_singleton]
  exact ⟨_, rfl⟩

/-- C2 amended witness: the characterization applied to the empty index and
a concrete single-block record (`chrom 1`, `pos 1`, `ref A`, both virtual
offsets in block 0): the new sequence's linear index becomes `[5]`. -/
theorem c2_linear_update_characterization_witness :
    ensure_chrom [] (['1']) = [] ++ [((['1']), (([] : BinIdx), ([] : LinIdx)))] ∧
    ∃ bNew : BinIdx,
      build_from_step []
          { is_comment := false, chrom := ['1'], pos := 1, ref := ['A'],
            start_block := 0, start_offset := 5, end_block := 0, end_offset := 9 }
        = [] ++ [((['1']), (bNew,
            if (0 : Nat) = 0 then
              ([] : LinIdx) ++ List.replicate ((((1 : Nat) - 1) >>> 14) + 1 - 0) 5
            else ([] : LinIdx)))] :=
  ⟨rfl, c2_linear_update_characterization [] _ rfl [] (['1']) [] [] rfl⟩

/-- C1: the code violates the claim.  For sequence `s` of `c1Index` the
query window `0 >> 14 = 0` exists in the linear index and stores virtual
offset 0, yet `lookup_virtual` returns `(None, None)` instead of proceeding
to scan the bin chunks: the Python guard `if not linear_start` conflates the
stored offset `0` with "window missing". -/
theorem c1_linear_zero_masks_lookup :
    lookup_linear c1Index (['s']) 0 = some 0 ∧
    lookup_virtual c1Index (['s']) 0 0 = (none, none) := by
  constructor <;> rfl

/-- C8: for any deflate function and content whose sizes fit the 16-bit
`BSIZE` field (always the case for real zlib output on ≤ 65 280 bytes), the
encoded block is header ++ raw-deflate(content) ++ (crc32, length), the
header's `BSIZE` field holds `len(deflate) + 18 + 8 - 1`, and the total
block length is `BSIZE + 1`; for empty content, given that zlib's raw
deflate of the empty string is `03 00`, the encoded block is exactly the
canonical 28-byte EOF marker block. -/
theorem c8_make_block_encoding :
    (∀ (compress : List Nat → List Nat) (content : List Nat),
      content.length ≤ 65280 →
      (compress content).length + 25 ≤ 65535 →
      generate_header (compress content) =
        some ([31, 139, 8, 4, 0, 0, 0, 0, 0, 255, 6, 0, 66, 67, 2, 0] ++
          leBytes 2 ((compress content).length + 18 + 8 - 1)) ∧
      make_block compress content =
        some (([31, 139, 8, 4, 0, 0, 0, 0, 0, 255, 6, 0, 66, 67, 2, 0] ++
          leBytes 2 ((compress content).length + 18 + 8 - 1)) ++
          compress content ++
          (leBytes 4 (crc32 content) ++ leBytes 4 content.length)) ∧
      (([31, 139, 8, 4, 0, 0, 0, 0, 0, 255, 6, 0, 66, 67, 2, 0] ++
          leBytes 2 ((compress content).length + 18 + 8 - 1)) ++
          compress content ++
          (leBytes 4 (crc32 content) ++ leBytes 4 content.length)).length =
        ((compress content).length + 18 + 8 - 1) + 1) ∧
    (∀ compress : List Nat → List Nat, compress [] = [3, 0] →
      make_block compress [] = some bgzfEofMarker) := by
  constructor
  · intro compress content hc hlen
    have hbsize : (compress content).length + 6 + 19 ≤ 65535 := by omega
    have hct : content.length ≤ 0xFFFFFFFF := by norm_num at *; omega
    have hhdr : generate_header (compress content) =
        some ([31, 139, 8, 4, 0, 0, 0, 0, 0, 255, 6, 0, 66, 67, 2, 0] ++
          leBytes 2 ((compress content).length + 18 + 8 - 1)) := by
      rw [generate_header]
      simp only [hbsize, if_pos]
      norm_num [leBytes]
      try omega
    refine ⟨hhdr, ?_, ?_⟩
    · rw [make_block, hhdr, generate_tail, if_pos hct]
    · simp only [List.length_append, List.length_cons, List.length_nil,
        leBytes_length]
      omega
  · intro compress h
    simp only [make_block, h]
    rfl

/-- C8 witness: both parts applied with the compressor that is constantly
`[3, 0]` (zlib's raw deflate of the empty string) and empty content. -/
theorem c8_make_block_encoding_witness :
    ((fun _ => [3, 0]) ([] : List Nat)).length + 25 ≤ 65535 ∧
    make_block (fun _ => [3, 0]) [] = some bgzfEofMarker :=
  ⟨by norm_num, c8_make_block_encoding.2 (fun _ => [3, 0]) rfl⟩

/-- C9: a query for a sequence name absent from the index returns an empty
result from both `fetch_bytes` and `fetch`, with no error raised. -/
theorem c9_absent_sequence_empty (mf : ModelFile) (t : TabixIndexData)
    (name : List Char) (start : Nat) (e : Option Nat)
    (h : alistFind name t.indexes = none) :
    fetch_bytes mf t name start e = some [] ∧
    fetch mf t name start e = some [] := by
  have hb : ∀ x, fetch_bytes mf t name start x = some [] := by
    intro x
    rw [fetch_bytes]
    simp [h]
  refine ⟨hb e, ?_⟩
  rw [fetch, fetch_lines, hb]
  rfl

/-- C9 witness: fetching the absent sequence `z` from a concrete index. -/
theorem c9_absent_sequence_empty_witness :
    alistFind (['z']) c1Index.indexes = none ∧
    fetch ⟨[], 0⟩ c1Index (['z']) 1 (some 1000000) = some [] :=
  ⟨rfl, (c9_absent_sequence_empty ⟨[], 0⟩ c1Index (['z']) 1 (some 1000000) rfl).2⟩

namespace Puretabix

theorem head_le_lastOffset (o : Nat) (c : List Char) :
    ∀ rest, List.Chain' (fun a b => a.1 < b.1) ((o, c) :: rest) →
      o ≤ lastOffset ((o, c) :: rest) := by
  intro rest
  induction rest generalizing o c with
  | nil => intro _; exact le_refl o
  | cons y ys ih =>
    intro hchain
    rcases List.chain'_cons.mp hchain with ⟨hlt, htail⟩
    calc o ≤ y.1 := le_of_lt hlt
      _ ≤ lastOffset (y :: ys) := ih y.1 y.2 (by simpa using htail)

theorem dropWhile_append_sat {α : Type} (p : α → Bool) (pre rest : List α)
    (hpre : ∀ x ∈ pre, p x) :
    (pre ++ rest).dropWhile p = rest.dropWhile p := by
  induction pre with
  | nil => rfl
  | cons a l ih =>
    have ha : p a = true := hpre a (by simp)
    simp only [List.cons_append, List.dropWhile_cons, ha, if_true]
    exact ih (fun x hx => hpre x (by simp [hx]))

end Puretabix

/-- One iteration of the `fetch_bytes_go` loop at a block boundary. -/
theorem fetch_go_step (file_end bs be os oe o : Nat) (c : List Char)
    (rest : List (Nat × List Char)) (value : List Char)
    (h1 : o ≤ be) (h3 : c ≠ []) :
    fetch_bytes_go file_end bs be os oe ((o, c) :: rest) o value =
      fetch_bytes_go file_end bs be os oe rest (nextOff file_end rest)
        (value ++
          (if o = bs then (if o = be then c.take oe else c).drop os
           else (if o = be then c.take oe else c))) := by
  rw [fetch_bytes_go]
  rw [if_pos h1, if_neg (by simp), if_neg h3]

/-- The `fetch_bytes_go` loop stops as soon as the position passes
`block_end`. -/
theorem fetch_go_stop (file_end bs be os oe : Nat)
    (blocks : List (Nat × List Char)) (block : Nat) (value : List Char)
    (h : ¬ block ≤ be) :
    fetch_bytes_go file_end bs be os oe blocks block value = some value := by
  cases blocks with
  | nil => rw [fetch_bytes_go]; exact if_neg h
  | cons x rest =>
    obtain ⟨o, c⟩ := x
    rw [fetch_bytes_go, if_neg h]

/-- The `fetch_bytes_go` loop over the blocks after the start block: every
block is read whole except the final one (offset `be`), which is cut at
`offset_end`. -/
theorem fetch_go_rest (file_end bs be os oe : Nat) :
    ∀ (mid : List (Nat × List Char)) (o : Nat) (c : List Char)
      (post : List (Nat × List Char)) (value : List Char),
      List.Chain' (fun a b => a.1 < b.1) ((o, c) :: mid) →
      lastOffset ((o, c) :: mid) = be →
      bs < o →
      (∀ x ∈ (o, c) :: mid, x.2 ≠ []) →
      be < nextOff file_end post →
      fetch_bytes_go file_end bs be os oe (((o, c) :: mid) ++ post) o value =
        some (value ++ slice_blocks (((o, c) :: mid).map Prod.snd) 0 oe) := by
  intro mid
  induction mid with
  | nil =>
    intro o c post value hchain hlast hbs hne hpost
    have ho : o = be := hlast
    subst ho
    have hc : c ≠ [] := hne (o, c) (by simp)
    simp only [List.singleton_append]
    rw [fetch_go_step file_end bs o os oe o c post value (le_refl o) hc]
    rw [fetch_go_stop file_end bs o os oe post (nextOff file_end post)
      (value ++ _) (by omega)]
    rw [if_neg (by omega : ¬ o = bs), if_pos rfl]
    simp [slice_blocks]
  | cons y ys ih =>
    obtain ⟨o2, c2⟩ := y
    intro o c post value hchain hlast hbs hne hpost
    rcases List.chain'_cons.mp hchain with ⟨hlt, htail⟩
    have hlast2 : lastOffset ((o2, c2) :: ys) = be := hlast
    have holt : o < be := by
      have h2 := head_le_lastOffset o2 c2 ys htail
      rw [hlast2] at h2
      have h3 : o < o2 := hlt
      omega
    have hc : c ≠ [] := hne (o, c) (by simp)
    simp only [List.cons_append]
    rw [fetch_go_step file_end bs be os oe o c ((o2, c2) :: (ys ++ post)) value
      (le_of_lt holt) hc]
    rw [if_neg (by omega : ¬ o = bs), if_neg (by omega : ¬ o = be)]
    have hnext : nextOff file_end ((o2, c2) :: (ys ++ post)) = o2 := rfl
    rw [hnext]
    have ihh := ih o2 c2 post (value ++ c) htail hlast2 (lt_trans hbs hlt)
      (fun x hx => hne x (List.mem_cons_of_mem _ hx)) hpost
    simp only [List.cons_append] at ihh
    rw [ihh]
    simp [slice_blocks, List.append_assoc]

/-- C10: when the sequence is known and `lookup_virtual` yields
`(virtual_start, virtual_end)`, `fetch_bytes` returns exactly the
decompressed bytes from `virtual_start` (inclusive) up to
`virtual_end - 1` (exclusive — one byte short of the looked-up range end):
it reads each block from the block of `virtual_start` through the block of
`virtual_end - 1`, slicing the first block at the start intra-offset and
the last block at the end intra-offset. -/
theorem c10_fetch_bytes_virtual_range
    (mf : ModelFile) (t : TabixIndexData) (name : List Char)
    (start : Nat) (e : Option Nat) (vs ve : Nat)
    (c0 : List Char) (pre midrest post : List (Nat × List Char))
    (hname : (alistFind name t.indexes).isNone = false)
    (hlook : lookup_virtual t name start (pyDefaultEnd e start) = (some vs, some ve))
    (hnz : ¬ (vs = 0 ∧ ve = 0))
    (hblocks : mf.blocks = pre ++ ((vs >>> 16, c0) :: midrest) ++ post)
    (hpre : ∀ x ∈ pre, x.1 < vs >>> 16)
    (hchain : List.Chain' (fun a b => a.1 < b.1) ((vs >>> 16, c0) :: midrest))
    (hlast : lastOffset ((vs >>> 16, c0) :: midrest) = (ve - 1) >>> 16)
    (hne : ∀ x ∈ (vs >>> 16, c0) :: midrest, x.2 ≠ [])
    (hpost : (ve - 1) >>> 16 < nextOff mf.file_end post) :
    fetch_bytes mf t name start e =
      some (slice_blocks (((vs >>> 16, c0) :: midrest).map Prod.snd)
        (vs &&& 0xFFFF) ((ve - 1) &&& 0xFFFF)) := by
  have hcond : (pyFalsy (some vs) && pyFalsy (some ve)) = false := by
    simp only [pyFalsy, Bool.and_eq_false_iff, beq_eq_false_iff_ne, ne_eq]
    by_cases h : vs = 0
    · exact Or.inr (fun h2 => hnz ⟨h, h2⟩)
    · exact Or.inl h
  simp only [fetch_bytes, hname, Bool.false_eq_true, if_false, hlook, hcond]
  rw [fetch_bytes_virtual, fetch_bytes_block_offset]
  have hdrop : mf.blocks.dropWhile (fun p => p.1 < vs >>> 16) =
      ((vs >>> 16, c0) :: midrest) ++ post := by
    rw [hblocks, List.append_assoc,
      dropWhile_append_sat _ pre _ (fun x hx => by simpa using hpre x hx)]
    simp [List.dropWhile_cons]
  rw [hdrop]
  have hc0 : c0 ≠ [] := hne (vs >>> 16, c0) (by simp)
  cases midrest with
  | nil =>
    have hbe : vs >>> 16 = (ve - 1) >>> 16 := hlast
    simp only [List.singleton_append]
    rw [fetch_go_step mf.file_end (vs >>> 16) ((ve - 1) >>> 16)
      (vs &&& 0xFFFF) ((ve - 1) &&& 0xFFFF) (vs >>> 16) c0 post []
      (le_of_eq hbe) hc0]
    rw [fetch_go_stop mf.file_end (vs >>> 16) ((ve - 1) >>> 16)
      (vs &&& 0xFFFF) ((ve - 1) &&& 0xFFFF) post (nextOff mf.file_end post)
      _ (by omega)]
    rw [if_pos rfl, if_pos hbe]
    simp [slice_blocks]
  | cons y ys =>
    obtain ⟨o2, c2⟩ := y
    rcases List.chain'_cons.mp hchain with ⟨hlt, htail⟩
    have hlast2 : lastOffset ((o2, c2) :: ys) = (ve - 1) >>> 16 := hlast
    have holt : vs >>> 16 < (ve - 1) >>> 16 := by
      have h2 := head_le_lastOffset o2 c2 ys htail
      rw [hlast2] at h2
      have h3 : vs >>> 16 < o2 := hlt
      omega
    simp only [List.cons_append]
    rw [fetch_go_step mf.file_end (vs >>> 16) ((ve - 1) >>> 16)
      (vs &&& 0xFFFF) ((ve - 1) &&& 0xFFFF) (vs >>> 16) c0
      ((o2, c2) :: (ys ++ post)) [] (le_of_lt holt) hc0]
    rw [if_pos rfl, if_neg (by omega : ¬ vs >>> 16 = (ve - 1) >>> 16)]
    have hnext : nextOff mf.file_end ((o2, c2) :: (ys ++ post)) = o2 := rfl
    rw [hnext]
    have hrest := fetch_go_rest mf.file_end (vs >>> 16) ((ve - 1) >>> 16)
      (vs &&& 0xFFFF) ((ve - 1) &&& 0xFFFF) ys o2 c2 post
      ([] ++ c0.drop (vs &&& 0xFFFF)) htail hlast2 hlt
      (fun x hx => hne x (List.mem_cons_of_mem _ hx)) hpost
    simp only [List.cons_append] at hrest
    rw [hrest]
    simp [slice_blocks]

/-- C10 witness: the theorem applied to `c10File`/`c10Index` with the query
`(s, 0, 100)`, whose lookup yields `(1, 1966083)`: the fetched bytes are
block 0 from intra-offset 1 joined with block 30 cut at intra-offset 2. -/
theorem c10_fetch_bytes_virtual_range_witness :
    lookup_virtual c10Index (['s']) 0 (pyDefaultEnd (some 100) 0) =
      (some 1, some 1966083) ∧
    fetch_bytes c10File c10Index (['s']) 0 (some 100) =
      some (slice_blocks
        (((1 >>> 16, ['a', 'b', 'c', 'd', 'e', 'f']) ::
          [(30, ['g', 'h', 'i', 'j'])]).map Prod.snd)
        (1 &&& 0xFFFF) ((1966083 - 1) &&& 0xFFFF)) :=
  ⟨rfl,
    c10_fetch_bytes_virtual_range c10File c10Index (['s']) 0 (some 100) 1 1966083
      (['a', 'b', 'c', 'd', 'e', 'f']) [] [(30, ['g', 'h', 'i', 'j'])] [(70, [])]
      rfl rfl (by decide) rfl (by simp)
      (by simp [List.chain'_cons]) rfl (by decide) (by decide)⟩

/-- Filtering by a Boolean predicate first is the same as folding the
predicate into the fallible keep-function. -/
theorem filterLines_filter (p : List Char → Bool) (k : List Char → Option Bool) :
    ∀ ls : List (List Char),
      filterLines k (ls.filter p) =
        filterLines (fun l => if p l then k l else some false) ls := by
  intro ls
  induction ls with
  | nil => rfl
  | cons l rest ih =>
    by_cases hp : p l
    · rw [List.filter_cons, if_pos hp]
      show filterLines k (l :: rest.filter p) = _
      rw [filterLines]
      cases hk : k l with
      | none => simp [filterLines, hp, hk]
      | some b => cases b <;> simp [filterLines, hp, hk, ih]
    · rw [List.filter_cons, if_neg hp]
      simp [filterLines, hp, ih]

theorem filterLines_congr (k1 k2 : List Char → Option Bool)
    (h : ∀ l, k1 l = k2 l) :
    ∀ ls : List (List Char), filterLines k1 ls = filterLines k2 ls := by
  intro ls
  induction ls with
  | nil => rfl
  | cons l rest ih => rw [filterLines, filterLines, h l, ih]

/-- The code's per-line filter agrees with the claim-side one. -/
theorem fetch_line_keep_eq_spec_keep (t : TabixIndexData) (start e : Nat)
    (line : List Char) :
    fetch_line_keep t start e line = spec_keep t start e line := by
  unfold fetch_line_keep spec_keep
  dsimp only
  by_cases hlen : ((splitTab line).length : Int) >=
      max t.column_sequence (max t.column_begin t.column_end)
  . rw [if_pos hlen, if_neg (not_lt.mpr hlen)]
    cases hg : pyGet (splitTab line) (t.column_begin - 1) with
    | none => rfl
    | some sb =>
      simp only [Option.bind_eq_bind, Option.some_bind]
      cases hi : pyInt sb with
      | none => rfl
      | some vb =>
        simp only [Option.some_bind]
        by_cases hvb : vb >= (start : Int)
        . rw [if_pos hvb, if_neg (not_lt.mpr hvb)]
          cases hg2 : pyGet (splitTab line)
              ((if t.column_end = 0 then t.column_begin else t.column_end) - 1) with
          | none => rfl
          | some se =>
            simp only [Option.some_bind]
            cases hi2 : pyInt se with
            | none => rfl
            | some vend => simp [decide_eq_true hvb]
        . rw [if_neg hvb, if_pos (lt_of_not_ge hvb)]
          rfl
  . rw [if_neg hlen, if_pos (lt_of_not_ge hlen)]

/-- C4 amended: `fetch_lines` applies no header-line skipping
(`headerlines_count` is ignored); the fetched region's lines are filtered
exactly by: not starting with the meta character, having at least
`max(col_seq, col_beg, col_end)` columns, begin-column value `≥ begin`,
and end-column value (begin column again when `col_end = 0`) `≤ end`. -/
theorem c4_fetch_lines_no_header_skip (t : TabixIndexData) (start e : Nat)
    (region : List Char) :
    fetch_lines_filter t start e region =
      fetch_lines_spec_noskip t start e region := by
  rw [fetch_lines_filter, fetch_lines_spec_noskip]
  rw [filterLines_filter]
  exact filterLines_congr _ _
    (fun l => by
      by_cases hs : startswith l t.meta
      · simp [hs]
      · simp [hs, fetch_line_keep_eq_spec_keep])
    (splitlinesPy region)

/-- C4 counterexample: with `skip_lines = 1` the claim requires the first
line of the fetched range to be skipped, but the code keeps it: on region
`"h\t5\nx\t6\n"` with query `[1, 10]` the code returns both lines while the
claimed pipeline returns only the second. -/
theorem c4_counterexample :
    fetch_lines_filter c4Index 1 10 ("h\t5\nx\t6\n".toList) =
      some [("h\t5".toList), ("x\t6".toList)] ∧
    fetch_lines_spec c4Index 1 10 ("h\t5\nx\t6\n".toList) =
      some [("x\t6".toList)] ∧
    fetch_lines_filter c4Index 1 10 ("h\t5\nx\t6\n".toList) ≠
      fetch_lines_spec c4Index 1 10 ("h\t5\nx\t6\n".toList) := by
  refine ⟨by decide, by decide, by decide⟩

theorem leVal_leBytes (w : Nat) : ∀ n : Nat, leVal (leBytes w n) = n % 2 ^ (8 * w) := by
  induction w with
  | zero => intro n; simp [leBytes, leVal, Nat.mod_one]
  | succ w ih =>
    intro n
    show (n % 256) + 256 * leVal (leBytes w (n / 256)) = n % 2 ^ (8 * (w + 1))
    rw [ih]
    have h : 2 ^ (8 * (w + 1)) = 256 * 2 ^ (8 * w) := by ring
    rw [h, Nat.mod_mul]

theorem rdBytes_exact (b rest : List Nat) :
    rdBytes b.length (b ++ rest) = some (b, rest) := by
  rw [rdBytes, if_pos (by simp), List.take_left, List.drop_left]

theorem rdInt32_int32Bytes (v : Int) (b rest : List Nat)
    (h : int32Bytes v = some b) :
    rdInt32 (b ++ rest) = some (v, rest) := by
  rw [int32Bytes] at h
  split at h
  · exact absurd h (by simp)
  · rename_i hrange
    have hb : b = leBytes 4 (v % 2 ^ 32).toNat := by
      injection h with h2
      exact h2.symm
    have hlen : b.length = 4 := by rw [hb, leBytes_length]
    rw [rdInt32, ← hlen, rdBytes_exact, Option.map_some'] at *
    simp only [hlen]
    have : int32OfBytes b = v := by
      rw [hb, int32OfBytes]
      simp only [leVal_leBytes]
      norm_num
      split <;> omega
    rw [this]

theorem rdUInt32_uint32Bytes (v : Nat) (b rest : List Nat)
    (h : uint32Bytes v = some b) :
    rdUInt32 (b ++ rest) = some (v, rest) := by
  rw [uint32Bytes] at h
  split at h
  · rename_i hv
    have hb : b = leBytes 4 v := by injection h with h2; exact h2.symm
    have hlen : b.length = 4 := by rw [hb, leBytes_length]
    rw [rdUInt32, ← hlen, rdBytes_exact, Option.map_some']
    simp only [hb, leVal_leBytes]
    norm_num
    omega
  · exact absurd h (by simp)

theorem rdUInt64_uint64Bytes (v : Nat) (b rest : List Nat)
    (h : uint64Bytes v = some b) :
    rdUInt64 (b ++ rest) = some (v, rest) := by
  rw [uint64Bytes] at h
  split at h
  · rename_i hv
    have hb : b = leBytes 8 v := by injection h with h2; exact h2.symm
    have hlen : b.length = 8 := by rw [hb, leBytes_length]
    rw [rdUInt64, ← hlen, rdBytes_exact, Option.map_some']
    simp only [hb, leVal_leBytes]
    norm_num
    omega
  · exact absurd h (by simp)

theorem alistFind_eq_none {α β : Type} [DecidableEq α] (k : α) :
    ∀ l : List (α × β), alistFind k l = none ↔ k ∉ l.map Prod.fst := by
  intro l
  induction l with
  | nil => simp [alistFind]
  | cons x rest ih =>
    obtain ⟨a, b⟩ := x
    by_cases hak : a = k
    · simp [alistFind, hak]
    · simp [alistFind, hak, ih, Ne.symm hak]

theorem alistFind_append_none {α β : Type} [DecidableEq α] (k : α)
    (l1 l2 : List (α × β)) (h : alistFind k l1 = none) :
    alistFind k (l1 ++ l2) = alistFind k l2 := by
  induction l1 with
  | nil => rfl
  | cons x rest ih =>
    obtain ⟨a, b⟩ := x
    by_cases hak : a = k
    · rw [alistFind, if_pos hak] at h
      exact absurd h (by simp)
    · rw [alistFind, if_neg hak] at h
      rw [List.cons_append, alistFind, if_neg hak]
      exact ih h

theorem rdChunks_wrChunks :
    ∀ (chs : List Chunk) (b rest : List Nat), wrChunks chs = some b →
      rdChunks chs.length (b ++ rest) = some (chs, rest) := by
  intro chs
  induction chs with
  | nil =>
    intro b rest h
    rw [wrChunks] at h
    injection h with h2
    rw [← h2]
    rfl
  | cons c cs ih =>
    obtain ⟨a, a2⟩ := c
    intro b rest h
    rw [wrChunks] at h
    simp only [Option.bind_eq_bind, Option.bind_eq_some, Option.pure_def, Option.some.injEq] at h
    obtain ⟨ba, hba, bb, hbb, brest, hbrest, heq⟩ := h
    rw [← heq]
    simp only [List.length_cons, List.append_assoc]
    rw [rdChunks]
    simp only [List.append_assoc]
    rw [rdUInt64_uint64Bytes a ba _ hba]
    simp only [Option.bind_eq_bind, Option.some_bind]
    rw [rdUInt64_uint64Bytes a2 bb _ hbb]
    simp only [Option.some_bind]
    rw [ih brest rest hbrest]
    rfl

theorem rdU64List_wrIntervals :
    ∀ (ivs : LinIdx) (b rest : List Nat), wrIntervals ivs = some b →
      rdU64List ivs.length (b ++ rest) = some (ivs, rest) := by
  intro ivs
  induction ivs with
  | nil =>
    intro b rest h
    rw [wrIntervals] at h
    injection h with h2
    rw [← h2]
    rfl
  | cons v vs ih =>
    intro b rest h
    rw [wrIntervals] at h
    simp only [Option.bind_eq_bind, Option.bind_eq_some, Option.pure_def, Option.some.injEq] at h
    obtain ⟨bv, hbv, brest, hbrest, heq⟩ := h
    rw [← heq]
    simp only [List.length_cons, List.append_assoc]
    rw [rdU64List]
    simp only [List.append_assoc]
    rw [rdUInt64_uint64Bytes v bv _ hbv]
    simp only [Option.bind_eq_bind, Option.some_bind]
    rw [ih brest rest hbrest]
    rfl

theorem rdBins_wrBins :
    ∀ (bins : BinIdx) (acc : BinIdx) (b rest : List Nat),
      wrBins bins = some b →
      (∀ k ∈ bins.map Prod.fst, alistFind k acc = none) →
      (bins.map Prod.fst).Nodup →
      rdBins bins.length acc (b ++ rest) = some (acc ++ bins, rest) := by
  intro bins
  induction bins with
  | nil =>
    intro acc b rest h _ _
    rw [wrBins] at h
    injection h with h2
    rw [← h2]
    simp [rdBins]
  | cons x bs ih =>
    obtain ⟨k, chs⟩ := x
    intro acc b rest h hdisj hnodup
    rw [wrBins] at h
    simp only [Option.bind_eq_bind, Option.bind_eq_some, Option.pure_def, Option.some.injEq] at h
    obtain ⟨bk, hbk, nc, hnc, bc, hbc, brest, hbrest, heq⟩ := h
    rw [← heq]
    simp only [List.length_cons, List.append_assoc]
    rw [rdBins]
    simp only [List.append_assoc]
    rw [rdUInt32_uint32Bytes k bk _ hbk]
    simp only [Option.bind_eq_bind, Option.some_bind]
    rw [rdInt32_int32Bytes _ nc _ hnc]
    simp only [Option.some_bind]
    rw [if_neg (by omega)]
    rw [Int.toNat_natCast]
    rw [rdChunks_wrChunks chs bc _ hbc]
    simp only [Option.some_bind]
    rw [hdisj k (by simp)]
    simp only [Option.isSome_none, Bool.false_eq_true, if_false]
    have hnodup2 : (bs.map Prod.fst).Nodup := by
      simpa using hnodup.of_cons
    have hdisj2 : ∀ k2 ∈ bs.map Prod.fst, alistFind k2 (acc ++ [(k, chs)]) = none := by
      intro k2 hk2
      rw [alistFind_append_none k2 acc _ (hdisj k2 (by simp [hk2]))]
      have hkne : k ≠ k2 := by
        intro hcontra
        subst hcontra
        exact (List.nodup_cons.mp (by simpa using hnodup)).1 hk2
      simp [alistFind, hkne]
    have := ih (acc ++ [(k, chs)]) brest rest hbrest hdisj2 hnodup2
    rw [this]
    simp

theorem rdSeqs_wrSeqs :
    ∀ (idxs : List (List Nat × (BinIdx × LinIdx)))
      (acc : List (List Nat × (BinIdx × LinIdx))) (b rest : List Nat),
      wrSeqs idxs = some b →
      (∀ nm ∈ idxs.map Prod.fst, alistFind nm acc = none) →
      (idxs.map Prod.fst).Nodup →
      (∀ x ∈ idxs, (x.2.1.map Prod.fst).Nodup) →
      rdSeqs (idxs.map Prod.fst) acc (b ++ rest) = some (acc ++ idxs, rest) := by
  intro idxs
  induction idxs with
  | nil =>
    intro acc b rest h _ _ _
    rw [wrSeqs] at h
    injection h with h2
    rw [← h2]
    simp [rdSeqs]
  | cons x xs ih =>
    obtain ⟨nm, bins, ivs⟩ := x
    intro acc b rest h hdisj hnodup hbinnodup
    rw [wrSeqs] at h
    simp only [Option.bind_eq_bind, Option.bind_eq_some, Option.pure_def, Option.some.injEq] at h
    obtain ⟨nb, hnb, bb, hbb, ni, hni, bi, hbi, brest, hbrest, heq⟩ := h
    rw [← heq]
    simp only [List.map_cons, List.append_assoc]
    rw [rdSeqs]
    simp only [List.append_assoc]
    rw [rdInt32_int32Bytes _ nb _ hnb]
    simp only [Option.bind_eq_bind, Option.some_bind]
    rw [Int.toNat_natCast]
    rw [rdBins_wrBins bins [] bb _ hbb (by simp [alistFind])
      (hbinnodup (nm, bins, ivs) (by simp))]
    simp only [Option.some_bind, List.nil_append]
    rw [rdInt32_int32Bytes _ ni _ hni]
    simp only [Option.some_bind]
    rw [Int.toNat_natCast]
    rw [rdU64List_wrIntervals ivs bi _ hbi]
    simp only [Option.some_bind]
    rw [hdisj nm (by simp)]
    simp only [Option.isSome_none, Bool.false_eq_true, if_false]
    have hnodup2 : (xs.map Prod.fst).Nodup := by
      simpa using (by simpa using hnodup : (nm :: xs.map Prod.fst).Nodup).of_cons
    have hdisj2 : ∀ nm2 ∈ xs.map Prod.fst,
        alistFind nm2 (acc ++ [(nm, (bins, ivs))]) = none := by
      intro nm2 hnm2
      rw [alistFind_append_none nm2 acc _ (hdisj nm2 (by simp [hnm2]))]
      have hne : nm ≠ nm2 := by
        intro hcontra
        subst hcontra
        exact (List.nodup_cons.mp (by simpa using hnodup)).1 hnm2
      simp [alistFind, hne]
    have := ih (acc ++ [(nm, (bins, ivs))]) brest rest hbrest hdisj2 hnodup2
      (fun y hy => hbinnodup y (by simp [hy]))
    rw [this]
    simp

theorem splitNul_prefix :
    ∀ (n t : List Nat), (0 : Nat) ∉ n → splitNul (n ++ 0 :: t) = n :: splitNul t := by
  intro n
  induction n with
  | nil => intro t _; simp [splitNul]
  | cons b n2 ih =>
    intro t hmem
    have hb : b ≠ 0 := fun hc => hmem (by simp [hc])
    have hn2 : (0 : Nat) ∉ n2 := fun hc => hmem (List.mem_cons_of_mem _ hc)
    rw [List.cons_append, splitNul, if_neg hb, ih t hn2]

theorem splitNul_namesConcat :
    ∀ names : List (List Nat), (∀ n ∈ names, (0 : Nat) ∉ n) →
      splitNul (namesConcat names) = names ++ [[]] := by
  intro names
  induction names with
  | nil => intro _; rfl
  | cons n ns ih =>
    intro h
    rw [namesConcat, splitNul_prefix n _ (h n (by simp)),
      ih (fun m hm => h m (by simp [hm]))]
    rfl

theorem rdBytes4_cons (a b c d : Nat) (rest : List Nat) :
    rdBytes 4 (a :: b :: c :: d :: rest) = some ([a, b, c, d], rest) := by
  rw [rdBytes, if_pos (by simp)]
  rfl

set_option maxHeartbeats 1000000 in
/-- Parsing the serialization of a well-formed index yields the index
back. -/
theorem from_file_payload_write_to (t : TbiIndex) (p : List Nat)
    (hwf : TbiWF t) (hw : write_to t = some p) :
    from_file_payload p = some t := by
  obtain ⟨hff, hmeta, hnodup, hseq⟩ := hwf
  rw [write_to] at hw
  rw [if_neg (by simp [hmeta])] at hw
  simp only [Option.bind_eq_bind, Option.bind_eq_some, Option.pure_def,
    Option.some.injEq] at hw
  obtain ⟨nseq, hnseq, ff, hffb, cs, hcs, cb, hcb, ce, hce, hc, hhc, hw2⟩ := hw
  by_cases hall : (t.indexes.map Prod.fst).all (fun n => n.all (· < 128))
  swap
  · rw [if_pos (by simpa using hall)] at hw2
    exact absurd hw2 (by simp)
  rw [if_neg (by simpa using hall)] at hw2
  simp only [Option.bind_eq_bind, Option.bind_eq_some, Option.pure_def,
    Option.some.injEq] at hw2
  obtain ⟨lnm, hlnm, body, hbody, heq⟩ := hw2
  rw [from_file_payload, ← heq]
  simp only [List.append_assoc, List.cons_append, List.nil_append]
  rw [rdBytes4_cons]
  simp only [Option.bind_eq_bind, Option.some_bind]
  rw [if_neg (by simp)]
  rw [rdInt32_int32Bytes _ nseq _ hnseq]
  simp only [Option.some_bind]
  rw [rdInt32_int32Bytes _ ff _ hffb]
  simp only [Option.some_bind]
  rw [if_neg (by rcases hff with h | h | h <;> simp [h])]
  rw [rdInt32_int32Bytes _ cs _ hcs]
  simp only [Option.some_bind]
  rw [rdInt32_int32Bytes _ cb _ hcb]
  simp only [Option.some_bind]
  rw [rdInt32_int32Bytes _ ce _ hce]
  simp only [Option.some_bind]
  rw [rdBytes4_cons]
  simp only [Option.some_bind]
  rw [if_neg (by simp [hmeta])]
  rw [if_neg (by simp [hmeta])]
  rw [rdInt32_int32Bytes _ hc _ hhc]
  simp only [Option.some_bind]
  rw [rdInt32_int32Bytes _ lnm _ hlnm]
  simp only [Option.some_bind]
  rw [if_neg (by omega)]
  rw [Int.toNat_natCast]
  rw [rdBytes_exact (namesConcat (t.indexes.map Prod.fst)) body]
  simp only [Option.some_bind]
  rw [splitNul_namesConcat (t.indexes.map Prod.fst)
    (fun n hn => by
      obtain ⟨x, hx, hxn⟩ := List.mem_map.mp hn
      exact hxn ▸ (hseq x hx).1)]
  have hdl : ((t.indexes.map Prod.fst) ++ [[]]).dropLast = t.indexes.map Prod.fst := by
    simp
  rw [hdl]
  rw [if_neg (by simp)]
  have hseqs := rdSeqs_wrSeqs t.indexes [] body [] hbody
    (by simp [alistFind]) hnodup (fun x hx => (hseq x hx).2)
  rw [List.append_nil] at hseqs
  rw [hseqs]
  simp only [Option.some_bind, List.nil_append]
  rfl

/-- C3 amended: the byte-exact round trip holds at the level of the
decompressed payload: for every canonical payload — one written from a
well-formed index — parsing yields that index and re-writing reproduces the
payload byte for byte.  (The on-disk compressed file itself is not
reproduced: `write_to` emits these bytes uncompressed.) -/
theorem c3_payload_write_parse_write (t : TbiIndex) (p : List Nat)
    (hwf : TbiWF t) (hw : write_to t = some p) :
    ∃ t2, from_file_payload p = some t2 ∧ write_to t2 = some p :=
  ⟨t, from_file_payload_write_to t p hwf hw, hw⟩

namespace Puretabix

set_option maxRecDepth 8000 in
theorem c3crc1 : List.foldl crc32_byte 4294967295
    [84, 66, 73, 1, 1, 0, 0, 0, 2, 0, 0, 0, 1, 0, 0, 0, 2, 0, 0, 0] = 3013413396 := by
  decide

set_option maxRecDepth 8000 in
theorem c3crc2 : List.foldl crc32_byte 3013413396
    [0, 0, 0, 0, 35, 0, 0, 0, 0, 0, 0, 0, 2, 0, 0, 0, 97, 0, 1, 0] = 2531949636 := by
  decide

set_option maxRecDepth 8000 in
theorem c3crc3 : List.foldl crc32_byte 2531949636
    [0, 0, 73, 18, 0, 0, 1, 0, 0, 0, 5, 0, 0, 0, 0, 0, 0, 0, 9, 0] = 2581136529 := by
  decide

set_option maxRecDepth 8000 in
theorem c3crc4 : List.foldl crc32_byte 2581136529
    [0, 0, 0, 0, 0, 0, 1, 0, 0, 0, 5, 0, 0, 0, 0, 0, 0, 0] = 4204739177 := by
  decide

theorem c3crc : crc32 c3Payload = 90228118 := by
  rw [crc32, show c3Payload =
    [84, 66, 73, 1, 1, 0, 0, 0, 2, 0, 0, 0, 1, 0, 0, 0, 2, 0, 0, 0] ++
    ([0, 0, 0, 0, 35, 0, 0, 0, 0, 0, 0, 0, 2, 0, 0, 0, 97, 0, 1, 0] ++
    ([0, 0, 73, 18, 0, 0, 1, 0, 0, 0, 5, 0, 0, 0, 0, 0, 0, 0, 9, 0] ++
    [0, 0, 0, 0, 0, 0, 1, 0, 0, 0, 5, 0, 0, 0, 0, 0, 0, 0])) from rfl]
  rw [List.foldl_append, List.foldl_append, List.foldl_append]
  rw [c3crc1, c3crc2, c3crc3, c3crc4]
  decide

set_option maxRecDepth 2000 in
theorem c3inflate : inflateStored
    (([1, 78, 0, 177, 255] ++ c3Payload ++ [150, 197, 96, 5, 78, 0, 0, 0]).length + 1)
    ([1, 78, 0, 177, 255] ++ c3Payload ++ [150, 197, 96, 5, 78, 0, 0, 0]) =
    some (c3Payload, [150, 197, 96, 5, 78, 0, 0, 0]) := by
  decide

theorem c3FileCons : c3File = 31 :: 139 :: 8 :: 4 :: 0 :: 0 :: 0 :: 0 :: 0 :: 255 :: 6 :: 0 ::
    ([66, 67, 2, 0, 108, 0] ++
      ([1, 78, 0, 177, 255] ++ c3Payload ++ [150, 197, 96, 5, 78, 0, 0, 0])) := by
  rw [c3File]
  rfl

theorem c3member : gunzipMember c3File = some (c3Payload, []) := by
  rw [c3FileCons, gunzipMember]
  rw [if_pos rfl]
  have hlen : c3Payload.length = 78 := by rw [c3Payload]; rfl
  rw [if_pos (by simp [hlen])]
  rw [show (6 + 256 * 0 : Nat) = ([66, 67, 2, 0, 108, 0] : List Nat).length from rfl]
  rw [List.drop_left]
  dsimp only
  rw [c3inflate]
  dsimp only
  rw [if_pos ⟨by rw [c3crc]; decide, by rw [hlen]; decide⟩]

theorem c3gunzip : gunzip (c3File.length + 1) c3File = some c3Payload := by
  rw [show c3File.length + 1 = 110 from by rw [c3File, c3Payload]; rfl]
  rw [c3FileCons, gunzip, ← c3FileCons, c3member]
  · dsimp only
    rw [gunzip]
    simp
  · simp

theorem c3write : write_to c3Index = some c3Payload := by
  rw [write_to, c3Index, c3Payload]
  rfl

theorem c3wf : TbiWF c3Index := by
  refine ⟨Or.inr (Or.inr rfl), rfl, by simp [c3Index], ?_⟩
  intro x hx
  rw [c3Index] at hx
  simp only [List.mem_singleton] at hx
  subst hx
  exact ⟨by decide, by simp⟩

theorem c3parse : parse_tabix_index c3File = some c3Index := by
  rw [parse_tabix_index, show c3File.length + 1 = 110 from by rw [c3File, c3Payload]; rfl,
    show (110 : Nat) = c3File.length + 1 from by rw [c3File, c3Payload]; rfl, c3gunzip]
  simp only [Option.bind_eq_bind, Option.some_bind]
  exact from_file_payload_write_to c3Index c3Payload c3wf c3write

end Puretabix

/-- C3 counterexample: for the concrete canonical BGZF-compressed index
file `c3File` (one BGZF block with a stored-DEFLATE stream), parsing
succeeds and yields `c3Index`, but writing the parsed index back yields
the 78 uncompressed payload bytes `c3Payload`, not the 109 on-disk bytes:
`write_to` compresses nothing, so `write(parse(x)) ≠ x` for every
BGZF-compressed input (the output starts with `TBI\x01` where the input
starts with the gzip magic `1f 8b`). -/
theorem c3_counterexample :
    parse_tabix_index c3File = some c3Index ∧
    write_to c3Index = some c3Payload ∧
    c3Payload ≠ c3File :=
  ⟨c3parse, c3write, by decide⟩

/-- C3 witness: the amended (payload-level) round trip applied to
`c3Index`: its payload parses back to an index that re-serializes to the
same payload. -/
theorem c3_payload_write_parse_write_witness :
    TbiWF c3Index ∧
    ∃ t2, from_file_payload c3Payload = some t2 ∧ write_to t2 = some c3Payload :=
  ⟨c3wf, c3_payload_write_parse_write c3Index c3Payload c3wf c3write⟩

namespace Puretabix

theorem consume_append_consume {xs ys : List Char} {st st2 : VState}
    {a a2 : VCFAccumulator} (h : consume xs st a = some (st2, a2)) :
    consume (xs ++ ys) st a = consume ys st2 a2 := by
  induction xs generalizing st a with
  | nil => simp [consume] at h; simp [h.1, h.2]
  | cons c rest ih =>
      rw [consume] at h
      rw [List.cons_append, consume]
      cases hp : process_next st (some c) a with
      | error e => simp [hp] at h
      | ok p =>
          obtain ⟨os, a1⟩ := p
          cases os with
          | none => simp [hp] at h
          | some s1 => simp only [hp] at h ⊢; exact ih h

theorem runFSM_of_consume {xs ys : List Char} {st st2 : VState}
    {a a2 : VCFAccumulator} (h : consume xs st a = some (st2, a2)) :
    runFSM (xs ++ ys) st a = runFSM ys st2 a2 := by
  induction xs generalizing st a with
  | nil => simp [consume] at h; simp [h.1, h.2]
  | cons c rest ih =>
      rw [consume] at h
      rw [List.cons_append, runFSM]
      cases hp : process_next st (some c) a with
      | error e => simp [hp] at h
      | ok p =>
          obtain ⟨os, a1⟩ := p
          cases os with
          | none => simp [hp] at h
          | some s1 => simp only [hp] at h ⊢; exact ih h

theorem loop_consume {ST : VState} {P : Char → Prop}
    (hstep : ∀ c a0, P c → process_next ST (some c) a0 =
      .ok (some ST, { a0 with characters := a0.characters ++ [c] })) :
    ∀ s a, (∀ c ∈ s, P c) →
      consume s ST a = some (ST, { a with characters := a.characters ++ s }) := by
  intro s
  induction s with
  | nil => intro a _; simp [consume]
  | cons c rest ih =>
      intro a h
      rw [consume, hstep c a (h c (by simp))]
      dsimp only
      rw [ih _ (fun x hx => h x (by simp [hx]))]
      simp

theorem chrom_loop (s : List Char) (a : VCFAccumulator)
    (h : ∀ c ∈ s, c ≠ '\t') :
    consume s .CHROM a = some (.CHROM, { a with characters := a.characters ++ s }) := by
  refine loop_consume ?_ s a h
  intro c a0 hc
  simp [process_next, transitions, findTrans, tmatch, append_character,
    Except.map, hc]

theorem pos_loop (s : List Char) (a : VCFAccumulator)
    (h : ∀ c ∈ s, c ∈ ['0','1','2','3','4','5','6','7','8','9']) :
    consume s .POS a
      = some (.POS, { a with characters := a.characters ++ s }) := by
  refine loop_consume ?_ s a h
  intro c a0 hc
  simp only [List.mem_cons, List.not_mem_nil, or_false] at hc
  rcases hc with rfl | rfl | rfl | rfl | rfl | rfl | rfl | rfl | rfl | rfl <;>
    simp [process_next, transitions, findTrans, tmatch, append_character,
      Except.map]

theorem id_loop (s : List Char) (a : VCFAccumulator)
    (h : ∀ c ∈ s, ¬ isPySpace c = true) :
    consume s .ID a
      = some (.ID, { a with characters := a.characters ++ s }) := by
  refine loop_consume ?_ s a h
  intro c a0 hc
  replace hc : (!(isPySpace c)) = true := by simpa using hc
  simp [process_next, transitions, findTrans, tmatch, append_character,
    Except.map, hc]

theorem ref_loop (s : List Char) (a : VCFAccumulator)
    (h : ∀ c ∈ s, c ∈ ['A','C','G','T','N']) :
    consume s .REF a
      = some (.REF, { a with characters := a.characters ++ s }) := by
  refine loop_consume ?_ s a h
  intro c a0 hc
  simp only [List.mem_cons, List.not_mem_nil, or_false] at hc
  rcases hc with rfl | rfl | rfl | rfl | rfl <;>
    simp [process_next, transitions, findTrans, tmatch, append_character,
      Except.map]

theorem alt_loop (s : List Char) (a : VCFAccumulator)
    (h : ∀ c ∈ s, c ∉ [',', '\t']) :
    consume s .ALT a
      = some (.ALT, { a with characters := a.characters ++ s }) := by
  refine loop_consume ?_ s a h
  intro c a0 hc
  have hc1 : c ≠ ',' := by intro he; exact hc (by simp [he])
  have hc2 : c ≠ '\t' := by intro he; exact hc (by simp [he])
  simp [process_next, transitions, findTrans, tmatch, append_character,
    Except.map, hc]

theorem qual_loop (s : List Char) (a : VCFAccumulator)
    (h : ∀ c ∈ s, c ∈ ['0','1','2','3','4','5','6','7','8','9','.','-']) :
    consume s .QUAL a
      = some (.QUAL, { a with characters := a.characters ++ s }) := by
  refine loop_consume ?_ s a h
  intro c a0 hc
  simp only [List.mem_cons, List.not_mem_nil, or_false] at hc
  rcases hc with rfl | rfl | rfl | rfl | rfl | rfl | rfl | rfl | rfl | rfl | rfl | rfl <;>
    simp [process_next, transitions, findTrans, tmatch, append_character,
      Except.map]

theorem filter_loop (s : List Char) (a : VCFAccumulator)
    (h : ∀ c ∈ s, c ∉ ['\t', ';']) :
    consume s .FILTER a
      = some (.FILTER, { a with characters := a.characters ++ s }) := by
  refine loop_consume ?_ s a h
  intro c a0 hc
  have hc1 : c ≠ '\t' := by intro he; exact hc (by simp [he])
  have hc2 : c ≠ ';' := by intro he; exact hc (by simp [he])
  simp [process_next, transitions, findTrans, tmatch, append_character,
    Except.map, hc]

theorem info_key_loop (s : List Char) (a : VCFAccumulator)
    (h : ∀ c ∈ s, c ∉ ['=', '\t', ';', '\n']) :
    consume s .INFO_KEY a
      = some (.INFO_KEY, { a with characters := a.characters ++ s }) := by
  refine loop_consume ?_ s a h
  intro c a0 hc
  have hc1 : c ≠ '=' := by intro he; exact hc (by simp [he])
  have hc2 : c ≠ '\t' := by intro he; exact hc (by simp [he])
  have hc3 : c ≠ ';' := by intro he; exact hc (by simp [he])
  have hc4 : c ≠ '\n' := by intro he; exact hc (by simp [he])
  simp [process_next, transitions, findTrans, tmatch, append_character,
    Except.map, hc]

theorem info_value_loop (s : List Char) (a : VCFAccumulator)
    (h : ∀ c ∈ s, c ∉ ['\t', ';', ',', '\n']) :
    consume s .INFO_VALUE a
      = some (.INFO_VALUE, { a with characters := a.characters ++ s }) := by
  refine loop_consume ?_ s a h
  intro c a0 hc
  have hc1 : c ≠ '\t' := by intro he; exact hc (by simp [he])
  have hc2 : c ≠ ';' := by intro he; exact hc (by simp [he])
  have hc3 : c ≠ ',' := by intro he; exact hc (by simp [he])
  have hc4 : c ≠ '\n' := by intro he; exact hc (by simp [he])
  simp [process_next, transitions, findTrans, tmatch, append_character,
    Except.map, hc]

theorem format_loop (s : List Char) (a : VCFAccumulator)
    (h : ∀ c ∈ s, c ∉ ['\t', ':']) :
    consume s .FORMAT a
      = some (.FORMAT, { a with characters := a.characters ++ s }) := by
  refine loop_consume ?_ s a h
  intro c a0 hc
  have hc1 : c ≠ '\t' := by intro he; exact hc (by simp [he])
  have hc2 : c ≠ ':' := by intro he; exact hc (by simp [he])
  simp [process_next, transitions, findTrans, tmatch, append_character,
    Except.map, hc]

theorem sample_loop (s : List Char) (a : VCFAccumulator)
    (h : ∀ c ∈ s, c ∉ ['\t', '\n']) :
    consume s .SAMPLE a
      = some (.SAMPLE, { a with characters := a.characters ++ s }) := by
  refine loop_consume ?_ s a h
  intro c a0 hc
  have hc1 : c ≠ '\t' := by intro he; exact hc (by simp [he])
  have hc2 : c ≠ '\n' := by intro he; exact hc (by simp [he])
  simp [process_next, transitions, findTrans, tmatch, append_character,
    Except.map, hc]

theorem comment_loop (s : List Char) (a : VCFAccumulator)
    (h : ∀ c ∈ s, c ∉ ['#', '\n']) :
    consume s .COMMENT a
      = some (.COMMENT, { a with characters := a.characters ++ s }) := by
  refine loop_consume ?_ s a h
  intro c a0 hc
  have hc1 : c ≠ '#' := by intro he; exact hc (by simp [he])
  have hc2 : c ≠ '\n' := by intro he; exact hc (by simp [he])
  simp [process_next, transitions, findTrans, tmatch, append_character,
    Except.map, hc]

theorem comment_key_loop (s : List Char) (a : VCFAccumulator)
    (h : ∀ c ∈ s, c ≠ '=') :
    consume s .COMMENT_KEY a
      = some (.COMMENT_KEY, { a with characters := a.characters ++ s }) := by
  refine loop_consume ?_ s a h
  intro c a0 hc
  simp [process_next, transitions, findTrans, tmatch, append_character,
    Except.map, hc]

theorem comment_value_loop (s : List Char) (a : VCFAccumulator)
    (h : ∀ c ∈ s, c ∉ ['<', '\n']) :
    consume s .COMMENT_VALUE a
      = some (.COMMENT_VALUE, { a with characters := a.characters ++ s }) := by
  refine loop_consume ?_ s a h
  intro c a0 hc
  have hc1 : c ≠ '<' := by intro he; exact hc (by simp [he])
  have hc2 : c ≠ '\n' := by intro he; exact hc (by simp [he])
  simp [process_next, transitions, findTrans, tmatch, append_character,
    Except.map, hc]

theorem comment_struct_key_loop (s : List Char) (a : VCFAccumulator)
    (h : ∀ c ∈ s, c ≠ '=') :
    consume s .COMMENT_STRUCT_KEY a
      = some (.COMMENT_STRUCT_KEY, { a with characters := a.characters ++ s }) := by
  refine loop_consume ?_ s a h
  intro c a0 hc
  simp [process_next, transitions, findTrans, tmatch, append_character,
    Except.map, hc]

theorem comment_struct_value_loop (s : List Char) (a : VCFAccumulator)
    (h : ∀ c ∈ s, c ∉ ['\x22', ',', '>']) :
    consume s .COMMENT_STRUCT_VALUE a
      = some (.COMMENT_STRUCT_VALUE, { a with characters := a.characters ++ s }) := by
  refine loop_consume ?_ s a h
  intro c a0 hc
  have hc1 : c ≠ '\x22' := by intro he; exact hc (by simp [he])
  have hc2 : c ≠ ',' := by intro he; exact hc (by simp [he])
  have hc3 : c ≠ '>' := by intro he; exact hc (by simp [he])
  simp [process_next, transitions, findTrans, tmatch, append_character,
    Except.map, hc]

theorem natReprAux_acc (fuel : Nat) : ∀ n acc,
    natReprAux fuel n acc = natReprAux fuel n [] ++ acc := by
  induction fuel with
  | zero => intro n acc; simp [natReprAux]
  | succ f ih =>
      intro n acc
      rw [natReprAux, natReprAux]
      by_cases h : n < 10
      · simp [h]
      · rw [if_neg h, if_neg h, ih (n / 10) (digitChar (n % 10) :: acc),
          ih (n / 10) [digitChar (n % 10)]]
        simp

theorem natReprAux_fuel : ∀ fuel fuel' n acc, n < fuel → n < fuel' →
    natReprAux fuel n acc = natReprAux fuel' n acc := by
  intro fuel
  induction fuel with
  | zero => intro _ n _ h; omega
  | succ f ih =>
      intro fuel' n acc h h'
      cases fuel' with
      | zero => omega
      | succ f' =>
          rw [natReprAux, natReprAux]
          by_cases h10 : n < 10
          · simp [h10]
          · rw [if_neg h10, if_neg h10]
            exact ih f' (n / 10) _ (by omega) (by omega)

theorem natRepr_split (n : Nat) (h : ¬ n < 10) :
    natRepr n = natRepr (n / 10) ++ [digitChar (n % 10)] := by
  rw [natRepr, natReprAux, if_neg h, natReprAux_acc]
  congr 1
  exact natReprAux_fuel n (n / 10 + 1) (n / 10) [] (by omega) (by omega)

theorem natRepr_ne_nil (n : Nat) : natRepr n ≠ [] := by
  by_cases h : n < 10
  · rw [natRepr, natReprAux, if_pos h]; simp
  · rw [natRepr_split n h]; simp

theorem digitChar_mem (d : Nat) (h : d < 10) :
    digitChar d ∈ ['0','1','2','3','4','5','6','7','8','9'] := by
  interval_cases d <;> decide

theorem digitChar_isDigit (d : Nat) (h : d < 10) :
    (digitChar d).isDigit = true := by
  interval_cases d <;> decide

theorem digitChar_toNat (d : Nat) (h : d < 10) :
    (digitChar d).toNat - 48 = d := by
  interval_cases d <;> decide

theorem natRepr_mem (n : Nat) :
    ∀ c ∈ natRepr n, c ∈ ['0','1','2','3','4','5','6','7','8','9'] := by
  induction n using Nat.strong_induction_on with
  | _ n ih =>
      intro c hc
      by_cases h : n < 10
      · rw [natRepr, natReprAux, if_pos h] at hc
        simp at hc
        subst hc
        exact digitChar_mem n h
      · rw [natRepr_split n h] at hc
        rcases List.mem_append.mp hc with h1 | h1
        · exact ih (n / 10) (by omega) c h1
        · simp at h1
          subst h1
          exact digitChar_mem (n % 10) (by omega)

theorem natRepr_isDigit (n : Nat) : (natRepr n).all Char.isDigit = true := by
  rw [List.all_eq_true]
  intro c hc
  have := natRepr_mem n c hc
  simp at this
  rcases this with rfl|rfl|rfl|rfl|rfl|rfl|rfl|rfl|rfl|rfl <;> decide

theorem digitsToNat_append (xs : List Char) (d : Char) :
    digitsToNat (xs ++ [d]) = 10 * digitsToNat xs + (d.toNat - 48) := by
  rw [digitsToNat, digitsToNat, List.foldl_append]
  rfl

theorem digitsToNat_natRepr (n : Nat) : digitsToNat (natRepr n) = n := by
  induction n using Nat.strong_induction_on with
  | _ n ih =>
      by_cases h : n < 10
      · rw [natRepr, natReprAux, if_pos h]
        have : digitsToNat [digitChar n] = (digitChar n).toNat - 48 := by
          rw [digitsToNat]; simp [List.foldl]
        rw [this, digitChar_toNat n h]
      · rw [natRepr_split n h, digitsToNat_append, ih (n / 10) (by omega),
          digitChar_toNat (n % 10) (by omega)]
        omega

theorem alistSet_fresh {α β : Type} [DecidableEq α] (k : α) (v : β) :
    ∀ m : List (α × β), alistFind k m = none → alistSet k v m = m ++ [(k, v)] := by
  intro m
  induction m with
  | nil => intro _; rfl
  | cons p rest ih =>
      intro h
      rw [alistFind] at h
      by_cases he : p.1 = k
      · rw [if_pos he] at h; exact absurd h (by simp)
      · obtain ⟨p1, p2⟩ := p
        simp only at he
        rw [if_neg he] at h
        rw [alistSet, if_neg he, ih h]
        simp

theorem alistFind_append_self {α β : Type} [DecidableEq α] (k : α) (v : β)
    (m : List (α × β)) (h : alistFind k m = none) :
    alistFind k (m ++ [(k, v)]) = some v := by
  rw [alistFind_append_none k m [(k, v)] h, alistFind, if_pos rfl]

theorem alistSet_append_self {α β : Type} [DecidableEq α] (k : α) (v w : β) :
    ∀ m : List (α × β), alistFind k m = none →
      alistSet k v (m ++ [(k, w)]) = m ++ [(k, v)] := by
  intro m
  induction m with
  | nil => intro _; simp [alistSet]
  | cons p rest ih =>
      intro h
      rw [alistFind] at h
      by_cases he : p.1 = k
      · rw [if_pos he] at h; exact absurd h (by simp)
      · obtain ⟨p1, p2⟩ := p
        simp only at he
        rw [if_neg he] at h
        rw [List.cons_append, alistSet, if_neg he, ih h]
        simp

theorem alistFind_append_single_ne {α β : Type} [DecidableEq α] {k k' : α}
    (v : β) (m : List (α × β)) (h : alistFind k m = none) (hne : k' ≠ k) :
    alistFind k (m ++ [(k', v)]) = none := by
  rw [alistFind_append_none k m [(k', v)] h, alistFind, if_neg hne]
  rfl

theorem intercalate_cons_cons (s x y : List Char) (l : List (List Char)) :
    List.intercalate s (x :: y :: l) = x ++ s ++ List.intercalate s (y :: l) := by
  simp [List.intercalate, List.intersperse]

theorem intercalate_single (s x : List Char) : List.intercalate s [x] = x := by
  simp [List.intercalate, List.intersperse]

theorem seg_chrom (c0 : Char) (cs : List Char) (a : VCFAccumulator)
    (h0 : c0 ≠ '#') (hcs : ∀ c ∈ c0 :: cs, c ≠ '\t') (ha : a.characters = []) :
    consume ((c0 :: cs) ++ ['\t']) .LINE_START a
      = some (.POS, { a with chrom := c0 :: cs, characters := [] }) := by
  have h1 : consume [c0] .LINE_START a
      = some (.CHROM, { a with characters := a.characters ++ [c0] }) := by
    simp [consume, process_next, transitions, findTrans, tmatch,
      append_character, Except.map, h0]
  rw [show (c0 :: cs) ++ ['\t'] = [c0] ++ (cs ++ ['\t']) from rfl,
    consume_append_consume h1,
    consume_append_consume (chrom_loop cs _ (fun c hc => hcs c (by simp [hc])))]
  simp [consume, process_next, transitions, findTrans, tmatch, chrom_to_pos,
    Except.map, ha]

theorem seg_pos (p : Nat) (a : VCFAccumulator) (ha : a.characters = []) :
    consume (natRepr p ++ ['\t']) .POS a
      = some (.ID, { a with pos := p, characters := [] }) := by
  rw [consume_append_consume (pos_loop (natRepr p) a (natRepr_mem p))]
  have hne : a.characters ++ natRepr p ≠ [] := by
    simp [ha, natRepr_ne_nil p]
  have hdig : (a.characters ++ natRepr p).all Char.isDigit = true := by
    simp [ha, natRepr_isDigit p]
  simp [consume, process_next, transitions, findTrans, tmatch, pos_to_id,
    Except.map, ha, natRepr_ne_nil p, natRepr_isDigit p, hne, hdig,
    digitsToNat_natRepr p, List.all_eq_true]

theorem seg_id (idStr : List Char) (a : VCFAccumulator)
    (h : ∀ c ∈ idStr, ¬ isPySpace c = true) (ha : a.characters = []) :
    consume (idStr ++ ['\t']) .ID a
      = some (.REF, { a with ids := a.ids ++ [idStr], characters := [] }) := by
  rw [consume_append_consume (id_loop idStr a h)]
  simp [consume, process_next, transitions, findTrans, tmatch, id_to_ref,
    append_character, isPySpace, Except.map, ha]

theorem seg_ref (refStr : List Char) (a : VCFAccumulator)
    (h : ∀ c ∈ refStr, c ∈ ['A','C','G','T','N']) (ha : a.characters = []) :
    consume (refStr ++ ['\t']) .REF a
      = some (.ALT, { a with ref := refStr, characters := [] }) := by
  rw [consume_append_consume (ref_loop refStr a h)]
  simp [consume, process_next, transitions, findTrans, tmatch, ref_to_alt,
    Except.map, ha]

theorem seg_alt : ∀ (l : List (List Char)) (x : List Char) (a : VCFAccumulator),
    (∀ e ∈ x :: l, ∀ c ∈ e, c ∉ [',', '\t']) → a.characters = [] →
    consume (List.intercalate [','] (x :: l) ++ ['\t']) .ALT a
      = some (.QUAL, { a with alt := a.alt ++ x :: l, characters := [] }) := by
  intro l
  induction l with
  | nil =>
      intro x a h ha
      rw [intercalate_single,
        consume_append_consume (alt_loop x a (h x (by simp)))]
      simp [consume, process_next, transitions, findTrans, tmatch, alt_to_qual,
        Except.map, ha]
  | cons y ys ih =>
      intro x a h ha
      rw [intercalate_cons_cons, List.append_assoc, List.append_assoc,
        consume_append_consume (alt_loop x a (h x (by simp)))]
      have h2 : consume [','] .ALT { a with characters := a.characters ++ x }
          = some (.ALT, { a with alt := a.alt ++ [x], characters := [] }) := by
        simp [consume, process_next, transitions, findTrans, tmatch, alt_to_alt,
          Except.map, ha]
      rw [consume_append_consume h2,
        ih y _ (fun e he c hc => h e (by simp at he ⊢; tauto) c hc) (by simp)]
      simp

theorem seg_qual (q : List Char) (a : VCFAccumulator)
    (h : ∀ c ∈ q, c ∈ ['0','1','2','3','4','5','6','7','8','9','.','-'])
    (ha : a.characters = []) :
    consume (q ++ ['\t']) .QUAL a
      = some (.FILTER, { a with qual := q, characters := [] }) := by
  rw [consume_append_consume (qual_loop q a h)]
  simp [consume, process_next, transitions, findTrans, tmatch, qual_to_filter,
    Except.map, ha]

theorem seg_filters : ∀ (l : List (List Char)) (x : List Char)
    (a : VCFAccumulator),
    (∀ e ∈ x :: l, ∀ c ∈ e, c ∉ ['\t', ';']) → a.characters = [] →
    consume (List.intercalate [';'] (x :: l) ++ ['\t']) .FILTER a
      = some (.INFO_KEY,
          { a with filters := a.filters ++ x :: l, characters := [] }) := by
  intro l
  induction l with
  | nil =>
      intro x a h ha
      rw [intercalate_single,
        consume_append_consume (filter_loop x a (h x (by simp)))]
      simp [consume, process_next, transitions, findTrans, tmatch,
        filter_to_info_key, Except.map, ha]
  | cons y ys ih =>
      intro x a h ha
      rw [intercalate_cons_cons, List.append_assoc, List.append_assoc,
        consume_append_consume (filter_loop x a (h x (by simp)))]
      have h2 : consume [';'] .FILTER { a with characters := a.characters ++ x }
          = some (.FILTER,
              { a with filters := a.filters ++ [x], characters := [] }) := by
        simp [consume, process_next, transitions, findTrans, tmatch,
          filter_to_info_key, Except.map, ha]
      rw [consume_append_consume h2,
        ih y _ (fun e he c hc => h e (by simp at he ⊢; tauto) c hc) (by simp)]
      simp

theorem intercalate_cons_ne_nil (s x : List Char) (l : List (List Char))
    (h : l ≠ []) :
    List.intercalate s (x :: l) = x ++ s ++ List.intercalate s l := by
  cases l with
  | nil => exact absurd rfl h
  | cons y ys => exact intercalate_cons_cons s x y ys

theorem info_vals_go : ∀ (vs' : List (List Char)) (vlast : List Char)
    (m1 : List (List Char × Option (List (List Char))))
    (cur : List (List Char)) (a : VCFAccumulator) (k : List Char),
    a.characters = [] → a.infokey = k → a.info = m1 ++ [(k, some cur)] →
    alistFind k m1 = none →
    (∀ v ∈ vs' ++ [vlast], ∀ c ∈ v, c ∉ ['\t', ';', ',', '\n']) →
    consume (List.intercalate [','] (vs' ++ [vlast])) .INFO_VALUE a
      = some (.INFO_VALUE,
          { a with info := m1 ++ [(k, some (cur ++ vs'))],
                   characters := vlast }) := by
  intro vs'
  induction vs' with
  | nil =>
      intro vlast m1 cur a k ha hk hinfo hm1 hgood
      rw [List.nil_append, intercalate_single,
        info_value_loop vlast a (hgood vlast (by simp))]
      simp [ha, hinfo]
  | cons v rest ih =>
      intro vlast m1 cur a k ha hk hinfo hm1 hgood
      rw [show ((v :: rest) ++ [vlast] : List (List Char))
            = v :: (rest ++ [vlast]) from rfl,
        intercalate_cons_ne_nil _ _ _ (by simp), List.append_assoc,
        consume_append_consume (info_value_loop v a (hgood v (by simp)))]
      have h2 : consume [','] .INFO_VALUE
            { a with characters := a.characters ++ v }
          = some (.INFO_VALUE,
              { a with info := m1 ++ [(k, some (cur ++ [v]))],
                       characters := [] }) := by
        simp [consume, process_next, transitions, findTrans, tmatch,
          info_value_to_format, Except.map, ha, hk, hinfo,
          alistFind_append_self k (some cur) m1 hm1,
          alistSet_append_self k (some (cur ++ [v])) (some cur) m1 hm1]
      rw [consume_append_consume h2,
        ih vlast m1 (cur ++ [v]) _ k (by simp) (by simp [hk])
          (by simp) hm1 (fun x hx c hc => hgood x (by simp at hx ⊢; tauto) c hc)]
      simp

theorem info_vals_fresh (vs' : List (List Char)) (vlast : List Char)
    (a : VCFAccumulator) (k : List Char)
    (ha : a.characters = []) (hk : a.infokey = k)
    (hf : alistFind k a.info = none)
    (hgood : ∀ v ∈ vs' ++ [vlast], ∀ c ∈ v, c ∉ ['\t', ';', ',', '\n']) :
    consume (List.intercalate [','] (vs' ++ [vlast])) .INFO_VALUE a
      = some (.INFO_VALUE,
          { a with info := infoPartial k a.info vs',
                   characters := vlast }) := by
  cases vs' with
  | nil =>
      rw [List.nil_append, intercalate_single,
        info_value_loop vlast a (hgood vlast (by simp))]
      simp [ha, infoPartial]
  | cons v rest =>
      rw [show ((v :: rest) ++ [vlast] : List (List Char))
            = v :: (rest ++ [vlast]) from rfl,
        intercalate_cons_ne_nil _ _ _ (by simp), List.append_assoc,
        consume_append_consume (info_value_loop v a (hgood v (by simp)))]
      have h2 : consume [','] .INFO_VALUE
            { a with characters := a.characters ++ v }
          = some (.INFO_VALUE,
              { a with info := a.info ++ [(k, some [v])],
                       characters := [] }) := by
        simp [consume, process_next, transitions, findTrans, tmatch,
          info_value_to_format, Except.map, ha, hk, hf, alistSet_fresh k _ _ hf]
      rw [consume_append_consume h2,
        info_vals_go rest vlast a.info [v] _ k (by simp) (by simp [hk])
          (by simp) hf (fun x hx c hc => hgood x (by simp at hx ⊢; tauto) c hc)]
      simp [infoPartial]

theorem info_value_commit (k : List Char) (vs' : List (List Char))
    (vlast : List Char) (a : VCFAccumulator) (i : Option Char)
    (hf : alistFind k a.info = none) :
    info_value_to_format
      { a with infokey := k, characters := vlast,
               info := infoPartial k a.info vs' } i
      = .ok { a with info := a.info ++ [(k, some (vs' ++ [vlast]))],
                     infokey := k, characters := [] } := by
  cases vs' with
  | nil =>
      simp [info_value_to_format, infoPartial, hf, alistSet_fresh k _ _ hf]
  | cons v rest =>
      have hfind : alistFind k (a.info ++ [(k, some (v :: rest))])
          = some (some (v :: rest)) := alistFind_append_self k _ _ hf
      simp [info_value_to_format, infoPartial, hfind,
        alistSet_append_self k _ _ _ hf]

theorem info_valued_body (k : List Char) (vs' : List (List Char))
    (vlast : List Char) (a : VCFAccumulator)
    (hk : ∀ c ∈ k, c ∉ ['=', '\t', ';', '\n'])
    (ha : a.characters = []) (hf : alistFind k a.info = none)
    (hgood : ∀ v ∈ vs' ++ [vlast], ∀ c ∈ v, c ∉ ['\t', ';', ',', '\n']) :
    consume (k ++ '=' :: List.intercalate [','] (vs' ++ [vlast])) .INFO_KEY a
      = some (.INFO_VALUE,
          { a with infokey := k, characters := vlast,
                   info := infoPartial k a.info vs' }) := by
  rw [show (k ++ '=' :: List.intercalate [','] (vs' ++ [vlast]))
        = k ++ (['='] ++ List.intercalate [','] (vs' ++ [vlast])) from rfl,
    consume_append_consume (info_key_loop k a hk)]
  have h2 : consume ['='] .INFO_KEY { a with characters := a.characters ++ k }
      = some (.INFO_VALUE,
          { a with infokey := k, characters := [] }) := by
    simp [consume, process_next, transitions, findTrans, tmatch,
      info_key_to_info_value, Except.map, ha]
  rw [consume_append_consume h2,
    info_vals_fresh vs' vlast _ k (by simp) (by simp) (by simp [hf]) hgood]

theorem info_entry_sep (k : List Char) (v : Option (List (List Char)))
    (a : VCFAccumulator)
    (hk : ∀ c ∈ k, c ∉ ['=', '\t', ';', '\n'])
    (hv : ∀ vs, v = some vs →
      vs ≠ [] ∧ ∀ x ∈ vs, ∀ c ∈ x, c ∉ ['\t', ';', ',', '\n'])
    (ha : a.characters = []) (hf : alistFind k a.info = none) :
    consume (renderInfoEntry (k, v) ++ [';']) .INFO_KEY a
      = some (.INFO_KEY,
          { a with info := a.info ++ [(k, v)], infokey := k,
                   characters := [] }) := by
  cases v with
  | none =>
      rw [renderInfoEntry, consume_append_consume (info_key_loop k a hk)]
      simp [consume, process_next, transitions, findTrans, tmatch,
        info_key_to_info_key, Except.map, ha, alistSet_fresh k none _ hf]
  | some vs =>
      obtain ⟨hne, hgood⟩ := hv vs rfl
      rcases vs.eq_nil_or_concat with rfl | ⟨vs', vlast, rfl⟩
      · exact absurd rfl hne
      · simp only [List.concat_eq_append] at hne hgood ⊢
        rw [renderInfoEntry,
          consume_append_consume (info_valued_body k vs' vlast a hk ha hf hgood)]
        have h3 := info_value_commit k vs' vlast a (some ';') hf
        simp [consume, process_next, transitions, findTrans, tmatch,
          Except.map, h3]

theorem info_entry_tab (k : List Char) (v : Option (List (List Char)))
    (a : VCFAccumulator)
    (hk : ∀ c ∈ k, c ∉ ['=', '\t', ';', '\n'])
    (hv : ∀ vs, v = some vs →
      vs ≠ [] ∧ ∀ x ∈ vs, ∀ c ∈ x, c ∉ ['\t', ';', ',', '\n'])
    (ha : a.characters = []) (hf : alistFind k a.info = none) :
    consume (renderInfoEntry (k, v) ++ ['\t']) .INFO_KEY a
      = some (.FORMAT,
          { a with info := a.info ++ [(k, v)], infokey := k,
                   characters := [] }) := by
  cases v with
  | none =>
      rw [renderInfoEntry, consume_append_consume (info_key_loop k a hk)]
      simp [consume, process_next, transitions, findTrans, tmatch,
        info_key_to_info_key, Except.map, ha, alistSet_fresh k none _ hf]
  | some vs =>
      obtain ⟨hne, hgood⟩ := hv vs rfl
      rcases vs.eq_nil_or_concat with rfl | ⟨vs', vlast, rfl⟩
      · exact absurd rfl hne
      · simp only [List.concat_eq_append] at hne hgood ⊢
        rw [renderInfoEntry,
          consume_append_consume (info_valued_body k vs' vlast a hk ha hf hgood)]
        have h3 := info_value_commit k vs' vlast a (some '\t') hf
        simp [consume, process_next, transitions, findTrans, tmatch,
          Except.map, h3]

theorem info_entry_nl (k : List Char) (v : Option (List (List Char)))
    (a : VCFAccumulator)
    (hk : ∀ c ∈ k, c ∉ ['=', '\t', ';', '\n'])
    (hv : ∀ vs, v = some vs →
      vs ≠ [] ∧ ∀ x ∈ vs, ∀ c ∈ x, c ∉ ['\t', ';', ',', '\n'])
    (ha : a.characters = []) (hf : alistFind k a.info = none) :
    runFSM (renderInfoEntry (k, v) ++ ['\n']) .INFO_KEY a
      = .ok
          { a with info := a.info ++ [(k, v)], infokey := k, characters := [] }
    := by
  cases v with
  | none =>
      rw [renderInfoEntry, runFSM_of_consume (info_key_loop k a hk)]
      simp [runFSM, process_next, transitions, findTrans, tmatch,
        info_key_to_info_key, Except.map, ha, alistSet_fresh k none _ hf]
  | some vs =>
      obtain ⟨hne, hgood⟩ := hv vs rfl
      rcases vs.eq_nil_or_concat with rfl | ⟨vs', vlast, rfl⟩
      · exact absurd rfl hne
      · simp only [List.concat_eq_append] at hne hgood ⊢
        rw [renderInfoEntry,
          runFSM_of_consume (info_valued_body k vs' vlast a hk ha hf hgood)]
        have h3 := info_value_commit k vs' vlast a (some '\n') hf
        simp [runFSM, process_next, transitions, findTrans, tmatch,
          Except.map, h3]

theorem info_entries_chain :
    ∀ (es : List (List Char × Option (List (List Char)))) (a : VCFAccumulator),
    a.characters = [] →
    (∀ e ∈ es, (∀ c ∈ e.1, c ∉ ['=', '\t', ';', '\n']) ∧
      ∀ vs, e.2 = some vs →
        vs ≠ [] ∧ ∀ x ∈ vs, ∀ c ∈ x, c ∉ ['\t', ';', ',', '\n']) →
    (es.map Prod.fst).Nodup →
    (∀ e ∈ es, alistFind e.1 a.info = none) →
    consume (es.flatMap (fun e => renderInfoEntry e ++ [';'])) .INFO_KEY a
      = some (.INFO_KEY,
          { a with info := a.info ++ es,
                   infokey := (es.map Prod.fst).getLastD a.infokey,
                   characters := [] }) := by
  intro es
  induction es with
  | nil =>
      intro a ha _ _ _
      cases a
      simp_all [consume, List.getLastD]
  | cons e rest ih =>
      intro a ha hgood hnd hf
      obtain ⟨k, v⟩ := e
      rw [List.flatMap_cons,
        consume_append_consume (info_entry_sep k v a
          (fun c hc => (hgood (k, v) (by simp)).1 c hc)
          (hgood (k, v) (by simp)).2 ha (hf (k, v) (by simp)))]
      have hnd2 := List.nodup_cons.mp (by simpa only [List.map_cons] using hnd)
      have hfresh : ∀ e2 ∈ rest, alistFind e2.1 (a.info ++ [(k, v)]) = none := by
        intro e2 he2
        have hne : k ≠ e2.1 := by
          intro heq
          exact hnd2.1 (heq ▸ List.mem_map_of_mem Prod.fst he2)
        exact alistFind_append_single_ne v a.info (hf e2 (by simp [he2])) hne
      rw [ih { a with info := a.info ++ [(k, v)], infokey := k, characters := [] } (by simp)
        (fun e2 he2 => hgood e2 (by simp [he2]))
        hnd2.2
        (by simpa using hfresh)]
      rcases rest.eq_nil_or_concat with rfl | ⟨l, e, rfl⟩
      · simp [List.getLastD_eq_getLast?]
      · have hgl : ∀ (A : List (List Char)) (x d : List Char),
            (k :: (A ++ [x])).getLast?.getD d = x := by
          intro A x d
          show (((k :: A) ++ [x]).getLast?).getD d = x
          rw [List.getLast?_concat]
          rfl
        simp [List.getLastD_eq_getLast?, hgl]

theorem seg_format : ∀ (l : List (List Char)) (x : List Char)
    (a : VCFAccumulator),
    (∀ e ∈ x :: l, ∀ c ∈ e, c ∉ ['\t', ':']) → a.characters = [] →
    consume (List.intercalate [':'] (x :: l) ++ ['\t']) .FORMAT a
      = some (.SAMPLE,
          { a with format := a.format ++ x :: l, characters := [] }) := by
  intro l
  induction l with
  | nil =>
      intro x a h ha
      rw [intercalate_single,
        consume_append_consume (format_loop x a (h x (by simp)))]
      simp [consume, process_next, transitions, findTrans, tmatch,
        format_to_sample, Except.map, ha]
  | cons y ys ih =>
      intro x a h ha
      rw [intercalate_cons_cons, List.append_assoc, List.append_assoc,
        consume_append_consume (format_loop x a (h x (by simp)))]
      have h2 : consume [':'] .FORMAT { a with characters := a.characters ++ x }
          = some (.FORMAT,
              { a with format := a.format ++ [x], characters := [] }) := by
        simp [consume, process_next, transitions, findTrans, tmatch,
          format_to_sample, Except.map, ha]
      rw [consume_append_consume h2,
        ih y _ (fun e he c hc => h e (by simp at he ⊢; tauto) c hc) (by simp)]
      simp

theorem mem_intercalate_single (s : Char) :
    ∀ (r : List (List Char)), ∀ c ∈ List.intercalate [s] r,
      c = s ∨ ∃ x ∈ r, c ∈ x := by
  intro r
  induction r with
  | nil => intro c hc; simp [List.intercalate, List.intersperse] at hc
  | cons x rest ih =>
      intro c hc
      cases rest with
      | nil =>
          rw [intercalate_single] at hc
          exact Or.inr ⟨x, by simp, hc⟩
      | cons y ys =>
          rw [intercalate_cons_cons] at hc
          simp only [List.append_assoc, List.mem_append] at hc
          rcases hc with hc | hc
          · exact Or.inr ⟨x, by simp, hc⟩
          · rcases hc with hc | hc
            · simp at hc; exact Or.inl hc
            · rcases ih c hc with hs | ⟨x2, hx2, hcx⟩
              · exact Or.inl hs
              · exact Or.inr ⟨x2, by simp [hx2], hcx⟩

theorem sample_row_chars (r : List (List Char))
    (h : ∀ v ∈ r, ∀ c ∈ v, c ∉ ['\t', ':', '\n']) :
    ∀ c ∈ List.intercalate [':'] r, c ∉ (['\t', '\n'] : List Char) := by
  intro c hc
  rcases mem_intercalate_single ':' r c hc with rfl | ⟨x, hx, hcx⟩
  · decide
  · have := h x hx c hcx
    simp at this ⊢
    tauto

theorem sample_rows_consume : ∀ (rows : List (List (List Char)))
    (a : VCFAccumulator),
    a.characters = [] →
    (∀ r ∈ rows, ∀ v ∈ r, ∀ c ∈ v, c ∉ ['\t', ':', '\n']) →
    consume (rows.flatMap (fun r => List.intercalate [':'] r ++ ['\t']))
        .SAMPLE a
      = some (.SAMPLE,
          { a with characters := [], samples := a.samples ++ rows.map (fun r => zipSample a.format (splitColon (List.intercalate [':'] r))) }) := by
  intro rows
  induction rows with
  | nil =>
      intro a ha _
      cases a
      simp_all [consume]
  | cons r rest ih =>
      intro a ha hgood
      rw [List.flatMap_cons, List.append_assoc,
        consume_append_consume (sample_loop _ a
          (sample_row_chars r (hgood r (by simp))))]
      have h2 : consume ['\t'] .SAMPLE
            { a with characters := a.characters ++ List.intercalate [':'] r }
          = some (.SAMPLE,
              { a with characters := [], samples := a.samples ++ [zipSample a.format (splitColon (List.intercalate [':'] r))] }) := by
        simp [consume, process_next, transitions, findTrans, tmatch,
          sample_to_sample, Except.map, ha]
      rw [consume_append_consume h2,
        ih _ (by simp) (fun r2 hr2 => hgood r2 (by simp [hr2]))]
      simp

theorem sample_last_nl (r : List (List Char)) (a : VCFAccumulator)
    (ha : a.characters = [])
    (hgood : ∀ v ∈ r, ∀ c ∈ v, c ∉ ['\t', ':', '\n']) :
    runFSM (List.intercalate [':'] r ++ ['\n']) .SAMPLE a
      = .ok { a with characters := [], samples := a.samples ++ [zipSample a.format (splitColon (List.intercalate [':'] r))] } := by
  rw [runFSM_of_consume (sample_loop _ a (sample_row_chars r hgood))]
  simp [runFSM, process_next, transitions, findTrans, tmatch,
    sample_to_sample, Except.map, ha]

theorem foldl_alistSet_fresh {α β : Type} [DecidableEq α] :
    ∀ (ps : List (α × β)) (acc : List (α × β)),
    (ps.map Prod.fst).Nodup → (∀ p ∈ ps, alistFind p.1 acc = none) →
    ps.foldl (fun d kv => alistSet kv.1 kv.2 d) acc = acc ++ ps := by
  intro ps
  induction ps with
  | nil => intro acc _ _; simp
  | cons p rest ih =>
      intro acc hnd hf
      obtain ⟨k, v⟩ := p
      have hnd2 := List.nodup_cons.mp (by simpa only [List.map_cons] using hnd)
      rw [List.foldl_cons]
      have hset : alistSet k v acc = acc ++ [(k, v)] :=
        alistSet_fresh k v acc (hf (k, v) (by simp))
      rw [hset, ih (acc ++ [(k, v)]) hnd2.2 ?_]
      · simp
      · intro p2 hp2
        have hne : k ≠ p2.1 := by
          intro heq
          exact hnd2.1 (heq ▸ List.mem_map_of_mem Prod.fst hp2)
        exact alistFind_append_single_ne v acc (hf p2 (by simp [hp2])) hne

theorem zipSample_eq_zip (f : List (List Char)) (row : List (List Char))
    (hnd : f.Nodup) (hlen : f.length ≤ row.length) :
    zipSample f row = f.zip row := by
  rw [zipSample, foldl_alistSet_fresh (f.zip row) []
    (by rw [List.map_fst_zip f row hlen]; exact hnd)
    (fun p _ => rfl)]
  simp

theorem map_find_zip (f : List (List Char)) (row : List (List Char))
    (d : List Char) (hnd : f.Nodup) (hlen : f.length = row.length) :
    f.map (fun k => (alistFind k (f.zip row)).getD d) = row := by
  induction f generalizing row with
  | nil => cases row with
      | nil => simp
      | cons v r => simp at hlen
  | cons k ftl ih =>
      cases row with
      | nil => simp at hlen
      | cons v rtl =>
          have hnd2 := List.nodup_cons.mp hnd
          rw [List.zip_cons_cons, List.map_cons]
          have hhead : alistFind k ((k, v) :: ftl.zip rtl) = some v := by
            rw [alistFind, if_pos rfl]
          rw [hhead]
          have htail : ftl.map
              (fun k2 => (alistFind k2 ((k, v) :: ftl.zip rtl)).getD d)
              = ftl.map (fun k2 => (alistFind k2 (ftl.zip rtl)).getD d) := by
            refine List.map_congr_left ?_
            intro k2 hk2
            have hne : k ≠ k2 := by
              intro heq
              exact hnd2.1 (heq ▸ hk2)
            rw [alistFind, if_neg hne]
          rw [htail, ih rtl hnd2.2 (by simpa using hlen)]
          simp

theorem foldl_keyins_subset :
    ∀ (ps : List (List Char × List Char)) (kl : List (List Char)),
    (∀ p ∈ ps, p.1 ∈ kl) →
    ps.foldl (fun kl2 kv => if kv.1 ∈ kl2 then kl2 else kl2 ++ [kv.1]) kl
      = kl := by
  intro ps
  induction ps with
  | nil => intro kl _; rfl
  | cons p rest ih =>
      intro kl h
      rw [List.foldl_cons, if_pos (h p (by simp))]
      exact ih kl (fun p2 hp2 => h p2 (by simp [hp2]))

theorem foldl_keyins_fresh :
    ∀ (ps : List (List Char × List Char)) (kl : List (List Char)),
    (ps.map Prod.fst).Nodup → (∀ p ∈ ps, p.1 ∉ kl) →
    ps.foldl (fun kl2 kv => if kv.1 ∈ kl2 then kl2 else kl2 ++ [kv.1]) kl
      = kl ++ ps.map Prod.fst := by
  intro ps
  induction ps with
  | nil => intro kl _ _; simp
  | cons p rest ih =>
      intro kl hnd h
      have hnd2 := List.nodup_cons.mp (by simpa only [List.map_cons] using hnd)
      rw [List.foldl_cons, if_neg (h p (by simp)),
        ih (kl ++ [p.1]) hnd2.2 ?_]
      · simp
      · intro p2 hp2
        simp only [List.mem_append, List.mem_singleton]
        push_neg
        refine ⟨h p2 (by simp [hp2]), ?_⟩
        intro heq
        exact hnd2.1 (heq ▸ List.mem_map_of_mem Prod.fst hp2)

theorem keylistOf_zip (f : List (List Char))
    (rows : List (List (List Char))) (hnd : f.Nodup)
    (hlen : ∀ r ∈ rows, f.length ≤ r.length) :
    rows ≠ [] →
    keylistOf (rows.map (fun r => f.zip r)) = f := by
  intro hne
  cases rows with
  | nil => exact absurd rfl hne
  | cons r0 rest =>
      rw [List.map_cons, keylistOf, List.foldl_cons]
      have h0 : (f.zip r0).foldl
          (fun kl2 kv => if kv.1 ∈ kl2 then kl2 else kl2 ++ [kv.1]) []
          = f := by
        rw [foldl_keyins_fresh (f.zip r0) []
          (by rw [List.map_fst_zip f r0 (hlen r0 (by simp))]; exact hnd)
          (fun p _ => by simp)]
        rw [List.nil_append, List.map_fst_zip f r0 (hlen r0 (by simp))]
      rw [h0]
      clear h0 hne
      induction rest with
      | nil => rfl
      | cons r1 rest2 ih =>
          rw [List.map_cons, List.foldl_cons,
            foldl_keyins_subset (f.zip r1) f ?_]
          · exact ih (fun r hr => hlen r (by simp at hr ⊢; tauto))
          · intro p hp
            have := List.of_mem_zip hp
            exact this.1

theorem splitColon_intercalate (r : List (List Char)) (hr : r ≠ [])
    (h : ∀ l ∈ r, ':' ∉ l) :
    splitColon (List.intercalate [':'] r) = r := by
  rw [splitColon]
  exact @List.splitOn_intercalate Char r _ ':' h hr

theorem struct_entry_consume (sk v : List Char) (term : Char)
    (dst : VState) (a : VCFAccumulator)
    (hterm : (term = ',' ∧ dst = .COMMENT_STRUCT_KEY) ∨
      (term = '>' ∧ dst = .COMMENT))
    (hskc : ∀ c ∈ sk, c ≠ '=')
    (hvc : ∀ c ∈ v, c ∉ ['\x22', ',', '>'])
    (ha : a.characters = [])
    (hnil : alistFind ([] : List Char) a.comment_struct = none)
    (hf : alistFind sk a.comment_struct = none) :
    consume ((sk ++ '=' :: v) ++ [term]) .COMMENT_STRUCT_KEY a
      = some (dst,
          { a with comment_struct := a.comment_struct ++ [(sk, some v)],
                   characters := [] }) := by
  rw [show ((sk ++ '=' :: v) ++ [term]) = sk ++ (['='] ++ (v ++ [term]))
      from by simp,
    consume_append_consume (comment_struct_key_loop sk a hskc)]
  have h2 : consume ['='] .COMMENT_STRUCT_KEY
        { a with characters := a.characters ++ sk }
      = some (.COMMENT_STRUCT_VALUE,
          { a with comment_struct := a.comment_struct ++ [(sk, none)],
                   characters := [] }) := by
    simp [consume, process_next, transitions, findTrans, tmatch,
      comment_struct_key_to_comment_struct_value, Except.map, ha, hnil,
      alistSet_fresh sk none _ hf]
  rw [consume_append_consume h2,
    consume_append_consume (comment_struct_value_loop v _ hvc)]
  have hlast : (List.map Prod.fst
      (a.comment_struct ++ [(sk, none)])).getLast? = some sk := by
    rw [List.map_append]
    exact List.getLast?_concat _
  rcases hterm with ⟨rfl, rfl⟩ | ⟨rfl, rfl⟩ <;>
    simp [consume, process_next, transitions, findTrans, tmatch,
      comment_struct_value_to_comment_struct_key, Except.map, hlast,
      alistSet_append_self sk (some v) none _ hf]

theorem struct_entries_chain :
    ∀ (es : List (List Char × List Char)) (a : VCFAccumulator),
    a.characters = [] →
    (∀ e ∈ es, e.1 ≠ [] ∧ (∀ c ∈ e.1, c ≠ '=') ∧
      ∀ c ∈ e.2, c ∉ ['\x22', ',', '>']) →
    (es.map Prod.fst).Nodup →
    alistFind ([] : List Char) a.comment_struct = none →
    (∀ e ∈ es, alistFind e.1 a.comment_struct = none) →
    consume (es.flatMap (fun e => (e.1 ++ '=' :: e.2) ++ [',']))
        .COMMENT_STRUCT_KEY a
      = some (.COMMENT_STRUCT_KEY,
          { a with characters := [], comment_struct := a.comment_struct ++ es.map (fun e => (e.1, some e.2)) }) := by
  intro es
  induction es with
  | nil =>
      intro a ha _ _ _ _
      cases a
      simp_all [consume]
  | cons e rest ih =>
      intro a ha hgood hnd hnil hf
      obtain ⟨sk, v⟩ := e
      have hge := hgood (sk, v) (by simp)
      rw [List.flatMap_cons,
        consume_append_consume (struct_entry_consume sk v ','
          .COMMENT_STRUCT_KEY a (Or.inl ⟨rfl, rfl⟩) hge.2.1 hge.2.2 ha hnil
          (hf (sk, v) (by simp)))]
      have hnd2 := List.nodup_cons.mp (by simpa only [List.map_cons] using hnd)
      have hnil2 : alistFind ([] : List Char)
          (a.comment_struct ++ [(sk, some v)]) = none :=
        alistFind_append_single_ne (some v) a.comment_struct hnil
          (fun heq => hge.1 heq)
      have hfresh : ∀ e2 ∈ rest,
          alistFind e2.1 (a.comment_struct ++ [(sk, some v)]) = none := by
        intro e2 he2
        have hne : sk ≠ e2.1 := by
          intro heq
          exact hnd2.1 (heq ▸ List.mem_map_of_mem Prod.fst he2)
        exact alistFind_append_single_ne (some v) a.comment_struct
          (hf e2 (by simp [he2])) hne
      rw [ih { a with comment_struct := a.comment_struct ++ [(sk, some v)], characters := [] }
        (by simp) (fun e2 he2 => hgood e2 (by simp [he2])) hnd2.2
        (by simpa using hnil2) (by simpa using hfresh)]
      simp

theorem flatMap_tab_shift (g : List (List Char) → List Char) :
    ∀ (rs : List (List (List Char))) (rlast : List (List Char)),
    (rs ++ [rlast]).flatMap (fun r => '\t' :: g r)
      = '\t' :: (rs.flatMap (fun r => g r ++ ['\t']) ++ g rlast) := by
  intro rs
  induction rs with
  | nil => intro rlast; simp
  | cons r rest ih =>
      intro rlast
      rw [List.cons_append, List.flatMap_cons, ih rlast, List.flatMap_cons]
      simp

theorem intercalate_concat_flat {γ : Type} (sep : Char) (f : γ → List Char) :
    ∀ (es : List γ) (elast : γ),
    List.intercalate [sep] ((es ++ [elast]).map f)
      = es.flatMap (fun e => f e ++ [sep]) ++ f elast := by
  intro es
  induction es with
  | nil => intro elast; simp [intercalate_single]
  | cons e rest ih =>
      intro elast
      rw [List.cons_append, List.map_cons,
        intercalate_cons_ne_nil _ _ _ (by simp), ih elast, List.flatMap_cons]
      simp

theorem run_vcf_comment (text : List Char) (_hne : text ≠ [])
    (hc : ∀ c ∈ text, c ∉ ['#', '\n']) :
    run_vcf ('#' :: text ++ ['\n'])
      = .ok ⟨text, [], [], [], [], 0, [], [], [], [], [], [], []⟩ := by
  rw [run_vcf]
  have h1 : consume ['#'] .LINE_START VCFAccumulator.reset
      = some (.COMMENT, VCFAccumulator.reset) := by
    simp [consume, process_next, transitions, findTrans, tmatch, Except.map,
      VCFAccumulator.reset]
  rw [show ('#' :: text ++ ['\n']) = ['#'] ++ (text ++ ['\n']) from rfl,
    runFSM_of_consume h1,
    runFSM_of_consume (comment_loop text _ hc)]
  simp [runFSM, process_next, transitions, findTrans, tmatch, end_comment,
    Except.map, VCFAccumulator.reset, VCFAccumulator.to_vcfline]

theorem run_vcf_meta_scalar (k v : List Char)
    (hk : ∀ c ∈ k, c ≠ '=') (hv : ∀ c ∈ v, c ∉ ['<', '\n']) :
    run_vcf ('#' :: '#' :: k ++ '=' :: v ++ ['\n'])
      = .ok ⟨[], k, v, [], [], 0, [], [], [], [], [], [], []⟩ := by
  rw [run_vcf]
  have h1 : consume ['#'] .LINE_START VCFAccumulator.reset
      = some (.COMMENT, VCFAccumulator.reset) := by
    simp [consume, process_next, transitions, findTrans, tmatch, Except.map,
      VCFAccumulator.reset]
  have h2 : consume ['#'] .COMMENT VCFAccumulator.reset
      = some (.COMMENT_KEY, VCFAccumulator.reset) := by
    simp [consume, process_next, transitions, findTrans, tmatch, Except.map,
      VCFAccumulator.reset]
  rw [show ('#' :: '#' :: k ++ '=' :: v ++ ['\n'])
        = ['#'] ++ (['#'] ++ (k ++ (['='] ++ (v ++ ['\n'])))) from by simp,
    runFSM_of_consume h1, runFSM_of_consume h2,
    runFSM_of_consume (comment_key_loop k _ hk)]
  have h3 : consume ['='] .COMMENT_KEY
        { VCFAccumulator.reset with
            characters := VCFAccumulator.reset.characters ++ k }
      = some (.COMMENT_VALUE,
          { VCFAccumulator.reset with comment_key := k }) := by
    simp [consume, process_next, transitions, findTrans, tmatch,
      comment_key_to_comment_value, Except.map, VCFAccumulator.reset]
  rw [runFSM_of_consume h3,
    runFSM_of_consume (comment_value_loop v _ hv)]
  simp [runFSM, process_next, transitions, findTrans, tmatch,
    comment_value_to_end, Except.map, VCFAccumulator.reset,
    VCFAccumulator.to_vcfline]

theorem run_vcf_meta_struct (k : List Char)
    (es : List (List Char × List Char)) (elast : List Char × List Char)
    (hk : ∀ c ∈ k, c ≠ '=')
    (hgood : ∀ e ∈ es ++ [elast], e.1 ≠ [] ∧ (∀ c ∈ e.1, c ≠ '=') ∧
      ∀ c ∈ e.2, c ∉ ['\x22', ',', '>'])
    (hnd : ((es ++ [elast]).map Prod.fst).Nodup) :
    run_vcf ('#' :: '#' :: k ++ '=' :: '<' ::
        List.intercalate [',']
          ((es ++ [elast]).map (fun e => e.1 ++ '=' :: e.2)) ++ '>' :: ['\n'])
      = .ok ⟨[], k, [], (es ++ [elast]).map (fun e => (e.1, some e.2)),
          [], 0, [], [], [], [], [], [], []⟩ := by
  rw [run_vcf]
  have h1 : consume ['#'] .LINE_START VCFAccumulator.reset
      = some (.COMMENT, VCFAccumulator.reset) := by
    simp [consume, process_next, transitions, findTrans, tmatch, Except.map,
      VCFAccumulator.reset]
  have h2 : consume ['#'] .COMMENT VCFAccumulator.reset
      = some (.COMMENT_KEY, VCFAccumulator.reset) := by
    simp [consume, process_next, transitions, findTrans, tmatch, Except.map,
      VCFAccumulator.reset]
  rw [intercalate_concat_flat ',' (fun e => e.1 ++ '=' :: e.2) es elast,
    show ('#' :: '#' :: k ++ '=' :: '<' ::
        ((es.flatMap (fun e => (e.1 ++ '=' :: e.2) ++ [','])) ++
          (elast.1 ++ '=' :: elast.2)) ++ '>' :: ['\n'])
      = ['#'] ++ (['#'] ++ (k ++ (['='] ++ (['<'] ++
          ((es.flatMap (fun e => (e.1 ++ '=' :: e.2) ++ [','])) ++
            (((elast.1 ++ '=' :: elast.2) ++ ['>']) ++ ['\n'])))))) from by simp,
    runFSM_of_consume h1, runFSM_of_consume h2,
    runFSM_of_consume (comment_key_loop k _ hk)]
  have h3 : consume ['='] .COMMENT_KEY
        { VCFAccumulator.reset with
            characters := VCFAccumulator.reset.characters ++ k }
      = some (.COMMENT_VALUE,
          { VCFAccumulator.reset with comment_key := k }) := by
    simp [consume, process_next, transitions, findTrans, tmatch,
      comment_key_to_comment_value, Except.map, VCFAccumulator.reset]
  rw [runFSM_of_consume h3]
  have h4 : consume ['<'] .COMMENT_VALUE
        { VCFAccumulator.reset with comment_key := k }
      = some (.COMMENT_STRUCT_KEY,
          { VCFAccumulator.reset with comment_key := k }) := by
    simp [consume, process_next, transitions, findTrans, tmatch,
      comment_value_to_comment_struct_key, Except.map, VCFAccumulator.reset]
  rw [runFSM_of_consume h4,
    runFSM_of_consume (struct_entries_chain es
      { VCFAccumulator.reset with comment_key := k } rfl
      (fun e he => hgood e (by simp at he ⊢; tauto))
      (by have := hnd; rw [List.map_append] at this
          exact (List.nodup_append.mp this).1)
      rfl (fun e _ => rfl))]
  have hel := hgood elast (by simp)
  have hkeys : ∀ (l : List (List Char × List Char)),
      (l.map (fun e => ((e.1 : List Char), (some e.2 : Option (List Char))))).map
          Prod.fst = l.map Prod.fst := by
    intro l; simp
  have hnil2 : alistFind ([] : List Char)
      (es.map (fun e => ((e.1 : List Char), (some e.2 : Option (List Char)))))
        = none := by
    rw [alistFind_eq_none, hkeys]
    intro hmem
    obtain ⟨e, he, heq⟩ := List.mem_map.mp hmem
    exact (hgood e (by simp [he])).1 heq
  have hffresh : alistFind elast.1
      (es.map (fun e => ((e.1 : List Char), (some e.2 : Option (List Char)))))
        = none := by
    rw [alistFind_eq_none, hkeys]
    rw [List.map_append] at hnd
    have hdisj := (List.nodup_append.mp hnd).2.2
    intro hmem
    exact hdisj hmem (by simp)
  rw [runFSM_of_consume (struct_entry_consume elast.1 elast.2 '>' .COMMENT _
    (Or.inr ⟨rfl, rfl⟩) hel.2.1 hel.2.2 (by simp)
    (by simpa [VCFAccumulator.reset] using hnil2)
    (by simpa [VCFAccumulator.reset] using hffresh))]
  simp [runFSM, process_next, transitions, findTrans, tmatch, end_comment,
    Except.map, VCFAccumulator.reset, VCFAccumulator.to_vcfline]

theorem run_vcf_data_nosamples (c0 : Char) (cs : List Char) (pos : Nat)
    (idStr refStr : List Char) (a0 : List Char) (arest : List (List Char))
    (qualStr : List Char) (f0 : List Char) (frest : List (List Char))
    (einit : List (List Char × Option (List (List Char))))
    (elast : List Char × Option (List (List Char)))
    (hhead : c0 ≠ '#') (hchrom : ∀ c ∈ c0 :: cs, c ≠ '\t')
    (hid : ∀ c ∈ idStr, ¬ isPySpace c = true)
    (href : ∀ c ∈ refStr, c ∈ ['A','C','G','T','N'])
    (halt : ∀ e ∈ a0 :: arest, ∀ c ∈ e, c ∉ [',', '\t'])
    (hqual : ∀ c ∈ qualStr, c ∈ ['0','1','2','3','4','5','6','7','8','9','.','-'])
    (hfil : ∀ e ∈ f0 :: frest, ∀ c ∈ e, c ∉ ['\t', ';'])
    (hinfo : ∀ e ∈ einit ++ [elast],
      (∀ c ∈ e.1, c ∉ ['=', '\t', ';', '\n']) ∧
      ∀ vs, e.2 = some vs →
        vs ≠ [] ∧ ∀ x ∈ vs, ∀ c ∈ x, c ∉ ['\t', ';', ',', '\n'])
    (hnd : ((einit ++ [elast]).map Prod.fst).Nodup) :
    run_vcf (renderDataShape ⟨c0 :: cs, pos, idStr, refStr, a0 :: arest,
        qualStr, f0 :: frest, einit ++ [elast], [], []⟩)
      = .ok ⟨[], [], [], [], c0 :: cs, pos, [idStr], refStr, a0 :: arest,
          qualStr, f0 :: frest, einit ++ [elast], []⟩ := by
  have hgrp : renderDataShape ⟨c0 :: cs, pos, idStr, refStr, a0 :: arest,
        qualStr, f0 :: frest, einit ++ [elast], [], []⟩
      = ((c0 :: cs) ++ ['\t']) ++ ((natRepr pos ++ ['\t']) ++
        ((idStr ++ ['\t']) ++ ((refStr ++ ['\t']) ++
        ((List.intercalate [','] (a0 :: arest) ++ ['\t']) ++
        ((qualStr ++ ['\t']) ++
        ((List.intercalate [';'] (f0 :: frest) ++ ['\t']) ++
        ((einit.flatMap (fun e => renderInfoEntry e ++ [';'])) ++
          (renderInfoEntry elast ++ ['\n'])))))))) := by
    rw [renderDataShape]
    simp only [if_pos rfl]
    rw [intercalate_concat_flat ';' renderInfoEntry einit elast]
    simp
  rw [run_vcf, hgrp,
    runFSM_of_consume (seg_chrom c0 cs VCFAccumulator.reset hhead hchrom rfl),
    runFSM_of_consume (seg_pos pos
      { VCFAccumulator.reset with chrom := c0 :: cs, characters := [] } rfl),
    runFSM_of_consume (seg_id idStr
      { VCFAccumulator.reset with
          chrom := c0 :: cs, characters := [], pos := pos } hid rfl),
    runFSM_of_consume (seg_ref refStr
      { VCFAccumulator.reset with
          chrom := c0 :: cs, characters := [], pos := pos,
          ids := VCFAccumulator.reset.ids ++ [idStr] } href rfl),
    runFSM_of_consume (seg_alt arest a0
      { VCFAccumulator.reset with
          chrom := c0 :: cs, characters := [], pos := pos,
          ids := VCFAccumulator.reset.ids ++ [idStr], ref := refStr } halt rfl),
    runFSM_of_consume (seg_qual qualStr
      { VCFAccumulator.reset with
          chrom := c0 :: cs, characters := [], pos := pos,
          ids := VCFAccumulator.reset.ids ++ [idStr], ref := refStr,
          alt := VCFAccumulator.reset.alt ++ a0 :: arest } hqual rfl),
    runFSM_of_consume (seg_filters frest f0
      { VCFAccumulator.reset with
          chrom := c0 :: cs, characters := [], pos := pos,
          ids := VCFAccumulator.reset.ids ++ [idStr], ref := refStr,
          alt := VCFAccumulator.reset.alt ++ a0 :: arest,
          qual := qualStr } hfil rfl)]
  have hnd2 : (einit.map Prod.fst).Nodup := by
    rw [List.map_append] at hnd
    exact (List.nodup_append.mp hnd).1
  rw [runFSM_of_consume (info_entries_chain einit
    { VCFAccumulator.reset with
        chrom := c0 :: cs, characters := [], pos := pos,
        ids := VCFAccumulator.reset.ids ++ [idStr], ref := refStr,
        alt := VCFAccumulator.reset.alt ++ a0 :: arest, qual := qualStr,
        filters := VCFAccumulator.reset.filters ++ f0 :: frest } rfl
    (fun e he => hinfo e (by simp at he ⊢; tauto)) hnd2
    (fun e _ => rfl))]
  have hel := hinfo elast (by simp)
  have hdisj : elast.1 ∉ einit.map Prod.fst := by
    rw [List.map_append] at hnd
    intro hmem
    exact (List.nodup_append.mp hnd).2.2 hmem (by simp)
  have hffresh : alistFind elast.1
      (einit.map (fun e => ((e.1 : List Char),
        (e.2 : Option (List (List Char)))))) = none := by
    rw [alistFind_eq_none]
    simpa using hdisj
  rw [info_entry_nl elast.1 elast.2 _ hel.1 hel.2 rfl
    (by simpa [VCFAccumulator.reset] using hffresh)]
  simp [VCFAccumulator.reset, VCFAccumulator.to_vcfline, Except.map]

theorem run_vcf_data_samples (c0 : Char) (cs : List Char) (pos : Nat)
    (idStr refStr : List Char) (a0 : List Char) (arest : List (List Char))
    (qualStr : List Char) (f0 : List Char) (frest : List (List Char))
    (einit : List (List Char × Option (List (List Char))))
    (elast : List Char × Option (List (List Char)))
    (g0 : List Char) (grest : List (List Char))
    (rinit : List (List (List Char))) (rlast : List (List Char))
    (hhead : c0 ≠ '#') (hchrom : ∀ c ∈ c0 :: cs, c ≠ '\t')
    (hid : ∀ c ∈ idStr, ¬ isPySpace c = true)
    (href : ∀ c ∈ refStr, c ∈ ['A','C','G','T','N'])
    (halt : ∀ e ∈ a0 :: arest, ∀ c ∈ e, c ∉ [',', '\t'])
    (hqual : ∀ c ∈ qualStr, c ∈ ['0','1','2','3','4','5','6','7','8','9','.','-'])
    (hfil : ∀ e ∈ f0 :: frest, ∀ c ∈ e, c ∉ ['\t', ';'])
    (hinfo : ∀ e ∈ einit ++ [elast],
      (∀ c ∈ e.1, c ∉ ['=', '\t', ';', '\n']) ∧
      ∀ vs, e.2 = some vs →
        vs ≠ [] ∧ ∀ x ∈ vs, ∀ c ∈ x, c ∉ ['\t', ';', ',', '\n'])
    (hnd : ((einit ++ [elast]).map Prod.fst).Nodup)
    (hfmt : ∀ e ∈ g0 :: grest, ∀ c ∈ e, c ∉ ['\t', ':'])
    (hrows : ∀ r ∈ rinit ++ [rlast], ∀ v ∈ r, ∀ c ∈ v, c ∉ ['\t', ':', '\n']) :
    run_vcf (renderDataShape ⟨c0 :: cs, pos, idStr, refStr, a0 :: arest,
        qualStr, f0 :: frest, einit ++ [elast], g0 :: grest,
        rinit ++ [rlast]⟩)
      = .ok ⟨[], [], [], [], c0 :: cs, pos, [idStr], refStr, a0 :: arest,
          qualStr, f0 :: frest, einit ++ [elast],
          (rinit ++ [rlast]).map (fun r =>
            zipSample (g0 :: grest)
              (splitColon (List.intercalate [':'] r)))⟩ := by
  have hgrp : renderDataShape ⟨c0 :: cs, pos, idStr, refStr, a0 :: arest,
        qualStr, f0 :: frest, einit ++ [elast], g0 :: grest,
        rinit ++ [rlast]⟩
      = ((c0 :: cs) ++ ['\t']) ++ ((natRepr pos ++ ['\t']) ++ ((idStr ++ ['\t']) ++ ((refStr ++ ['\t']) ++ ((List.intercalate [','] (a0 :: arest) ++ ['\t']) ++ ((qualStr ++ ['\t']) ++ ((List.intercalate [';'] (f0 :: frest) ++ ['\t']) ++ ((einit.flatMap (fun e => renderInfoEntry e ++ [';'])) ++ ((renderInfoEntry elast ++ ['\t']) ++ ((List.intercalate [':'] (g0 :: grest) ++ ['\t']) ++ ((rinit.flatMap (fun r => List.intercalate [':'] r ++ ['\t'])) ++ (List.intercalate [':'] rlast ++ ['\n']))))))))))) := by
    rw [renderDataShape]
    rw [if_neg (by simp)]
    rw [intercalate_concat_flat ';' renderInfoEntry einit elast,
      flatMap_tab_shift (fun r => List.intercalate [':'] r) rinit rlast]
    simp
  rw [run_vcf, hgrp,
    runFSM_of_consume (seg_chrom c0 cs VCFAccumulator.reset hhead hchrom rfl),
    runFSM_of_consume (seg_pos pos
      { VCFAccumulator.reset with chrom := c0 :: cs, characters := [] } rfl),
    runFSM_of_consume (seg_id idStr
      { VCFAccumulator.reset with
          chrom := c0 :: cs, characters := [], pos := pos } hid rfl),
    runFSM_of_consume (seg_ref refStr
      { VCFAccumulator.reset with
          chrom := c0 :: cs, characters := [], pos := pos,
          ids := VCFAccumulator.reset.ids ++ [idStr] } href rfl),
    runFSM_of_consume (seg_alt arest a0
      { VCFAccumulator.reset with
          chrom := c0 :: cs, characters := [], pos := pos,
          ids := VCFAccumulator.reset.ids ++ [idStr], ref := refStr } halt rfl),
    runFSM_of_consume (seg_qual qualStr
      { VCFAccumulator.reset with
          chrom := c0 :: cs, characters := [], pos := pos,
          ids := VCFAccumulator.reset.ids ++ [idStr], ref := refStr,
          alt := VCFAccumulator.reset.alt ++ a0 :: arest } hqual rfl),
    runFSM_of_consume (seg_filters frest f0
      { VCFAccumulator.reset with
          chrom := c0 :: cs, characters := [], pos := pos,
          ids := VCFAccumulator.reset.ids ++ [idStr], ref := refStr,
          alt := VCFAccumulator.reset.alt ++ a0 :: arest,
          qual := qualStr } hfil rfl)]
  have hnd2 : (einit.map Prod.fst).Nodup := by
    rw [List.map_append] at hnd
    exact (List.nodup_append.mp hnd).1
  rw [runFSM_of_consume (info_entries_chain einit
    { VCFAccumulator.reset with
        chrom := c0 :: cs, characters := [], pos := pos,
        ids := VCFAccumulator.reset.ids ++ [idStr], ref := refStr,
        alt := VCFAccumulator.reset.alt ++ a0 :: arest, qual := qualStr,
        filters := VCFAccumulator.reset.filters ++ f0 :: frest } rfl
    (fun e he => hinfo e (by simp at he ⊢; tauto)) hnd2
    (fun e _ => rfl))]
  have hel := hinfo elast (by simp)
  have hdisj : elast.1 ∉ einit.map Prod.fst := by
    rw [List.map_append] at hnd
    intro hmem
    exact (List.nodup_append.mp hnd).2.2 hmem (by simp)
  have hffresh : alistFind elast.1
      (einit.map (fun e => ((e.1 : List Char),
        (e.2 : Option (List (List Char)))))) = none := by
    rw [alistFind_eq_none]
    simpa using hdisj
  rw [runFSM_of_consume (info_entry_tab elast.1 elast.2 _ hel.1 hel.2 rfl
    (by simpa [VCFAccumulator.reset] using hffresh))]
  rw [runFSM_of_consume (seg_format grest g0 _ hfmt rfl)]
  rw [runFSM_of_consume (sample_rows_consume rinit _ rfl
    (fun r hr => hrows r (by simp at hr ⊢; tauto)))]
  rw [sample_last_nl rlast _ rfl (hrows rlast (by simp))]
  simp [VCFAccumulator.reset, VCFAccumulator.to_vcfline, Except.map]

theorem vcfline_str_comment (text : List Char) (hne : text ≠ []) :
    vcfline_str ⟨text, [], [], [], [], 0, [], [], [], [], [], [], []⟩
      = '#' :: text := by
  rw [vcfline_str]
  simp [hne]

theorem vcfline_str_meta_scalar (k v : List Char) (hk : k ≠ []) (hv : v ≠ []) :
    vcfline_str ⟨[], k, v, [], [], 0, [], [], [], [], [], [], []⟩
      = '#' :: '#' :: k ++ '=' :: v := by
  rw [vcfline_str]
  simp [hk, hv]

theorem vcfline_str_meta_struct (k : List Char)
    (es : List (List Char × List Char)) (hk : k ≠ []) (hne : es ≠ [])
    (hvals : ∀ e ∈ es, e.2 ≠ []) :
    vcfline_str ⟨[], k, [], es.map (fun e => (e.1, some e.2)),
        [], 0, [], [], [], [], [], [], []⟩
      = '#' :: '#' :: k ++ '=' :: '<' ::
          List.intercalate [','] (es.map (fun e => e.1 ++ '=' :: e.2))
          ++ ['>'] := by
  rw [vcfline_str]
  rw [if_neg (by simp), if_neg (by simp), if_pos (by simp [hk, hne])]
  have hmap : (es.map (fun e => ((e.1 : List Char),
        (some e.2 : Option (List Char))))).map (fun kv =>
          match kv.2 with
          | some val => if val ≠ [] then kv.1 ++ '=' :: val else kv.1
          | none => kv.1)
      = es.map (fun e => e.1 ++ '=' :: e.2) := by
    rw [List.map_map]
    refine List.map_congr_left ?_
    intro e he
    simp [hvals e he]
  rw [hmap]

theorem vcfline_str_data (chrom : List Char) (pos : Nat)
    (idStr refStr qualStr : List Char) (alt filters : List (List Char))
    (info : List (List Char × Option (List (List Char))))
    (hvals : ∀ e ∈ info, ∀ vs, e.2 = some vs → vs ≠ []) :
    vcfline_str ⟨[], [], [], [], chrom, pos, [idStr], refStr, alt,
        qualStr, filters, info, []⟩
      = chrom ++ '\t' :: natRepr pos ++ '\t' :: idStr ++ '\t' ::
        refStr ++ '\t' :: List.intercalate [','] alt ++ '\t' ::
        qualStr ++ '\t' :: List.intercalate [';'] filters ++ '\t' ::
        List.intercalate [';'] (info.map renderInfoEntry) := by
  rw [vcfline_str]
  rw [if_neg (by simp), if_neg (by simp), if_neg (by simp)]
  have hmap : info.map (fun kv =>
        match kv.2 with
        | some vs =>
            if vs ≠ [] then kv.1 ++ '=' :: List.intercalate [','] vs else kv.1
        | none => kv.1)
      = info.map renderInfoEntry := by
    refine List.map_congr_left ?_
    intro e he
    obtain ⟨k, v⟩ := e
    cases v with
    | none => rfl
    | some vs => simp [renderInfoEntry, hvals (k, some vs) he vs rfl]
  simp only [if_pos rfl, hmap, intercalate_single]
  simp [List.intercalate, List.intersperse]

theorem vcfline_str_data_samples (chrom : List Char) (pos : Nat)
    (idStr refStr qualStr : List Char) (alt filters : List (List Char))
    (info : List (List Char × Option (List (List Char))))
    (format : List (List Char)) (rows : List (List (List Char)))
    (hvals : ∀ e ∈ info, ∀ vs, e.2 = some vs → vs ≠ [])
    (hfnd : format.Nodup) (hrne : rows ≠ [])
    (hrlen : ∀ r ∈ rows, r.length = format.length) :
    vcfline_str ⟨[], [], [], [], chrom, pos, [idStr], refStr, alt,
        qualStr, filters, info, rows.map (fun r => format.zip r)⟩
      = chrom ++ '\t' :: natRepr pos ++ '\t' :: idStr ++ '\t' ::
        refStr ++ '\t' :: List.intercalate [','] alt ++ '\t' ::
        qualStr ++ '\t' :: List.intercalate [';'] filters ++ '\t' ::
        List.intercalate [';'] (info.map renderInfoEntry) ++
        '\t' :: List.intercalate [':'] format ++
        rows.flatMap (fun r => '\t' :: List.intercalate [':'] r) := by
  rw [vcfline_str]
  rw [if_neg (by simp), if_neg (by simp), if_neg (by simp)]
  have hkl : keylistOf (rows.map (fun r => format.zip r)) = format :=
    keylistOf_zip format rows hfnd
      (fun r hr => le_of_eq (hrlen r hr).symm) hrne
  have hmap : info.map (fun kv =>
        match kv.2 with
        | some vs =>
            if vs ≠ [] then kv.1 ++ '=' :: List.intercalate [','] vs else kv.1
        | none => kv.1)
      = info.map renderInfoEntry := by
    refine List.map_congr_left ?_
    intro e he
    obtain ⟨k, v⟩ := e
    cases v with
    | none => rfl
    | some vs => simp [renderInfoEntry, hvals (k, some vs) he vs rfl]
  have hflat : (rows.map (fun r => format.zip r)).flatMap (fun s =>
        '\t' :: List.intercalate [':']
          (format.map (fun k => (alistFind k s).getD ['.'])))
      = rows.flatMap (fun r => '\t' :: List.intercalate [':'] r) := by
    rw [List.flatMap_map]
    refine List.flatMap_congr ?_
    intro r hr
    rw [map_find_zip format r ['.'] hfnd (hrlen r hr).symm]
  have hsne : ¬ ((rows.map (fun r => format.zip r)) = []) := by simp [hrne]
  simp only [if_neg hsne, hkl, hmap, hflat, intercalate_single]
  simp [List.intercalate, List.intersperse]

theorem round_trip_comment (text : List Char)
    (h : shapeWFb (.comment text) = true) :
    (run_vcf (renderShape (.comment text))).map
        (fun v => vcfline_str v ++ ['\n'])
      = .ok (renderShape (.comment text)) := by
  rw [shapeWFb] at h
  simp only [Bool.and_eq_true, decide_eq_true_eq, List.all_eq_true] at h
  obtain ⟨hne, hc⟩ := h
  rw [renderShape,
    run_vcf_comment text hne (fun c hc2 => by simpa using hc c hc2)]
  simp [Except.map, vcfline_str_comment text hne]

theorem round_trip_meta_scalar (k v : List Char)
    (h : shapeWFb (.metaScalar k v) = true) :
    (run_vcf (renderShape (.metaScalar k v))).map
        (fun v2 => vcfline_str v2 ++ ['\n'])
      = .ok (renderShape (.metaScalar k v)) := by
  rw [shapeWFb] at h
  simp only [Bool.and_eq_true, decide_eq_true_eq, List.all_eq_true] at h
  obtain ⟨⟨⟨hkne, hkc⟩, hvne⟩, hvc⟩ := h
  rw [renderShape,
    run_vcf_meta_scalar k v
      (fun c hc => by have := hkc c hc; simp at this; exact this.1)
      (fun c hc => by simpa using hvc c hc)]
  simp [Except.map, vcfline_str_meta_scalar k v hkne hvne]

theorem round_trip_meta_struct (k : List Char)
    (es : List (List Char × List Char))
    (h : shapeWFb (.metaStruct k es) = true) :
    (run_vcf (renderShape (.metaStruct k es))).map
        (fun v2 => vcfline_str v2 ++ ['\n'])
      = .ok (renderShape (.metaStruct k es)) := by
  rw [shapeWFb] at h
  simp only [Bool.and_eq_true, decide_eq_true_eq, List.all_eq_true] at h
  obtain ⟨⟨⟨⟨hkne, hkc⟩, hesne⟩, hnd⟩, hes⟩ := h
  rcases es.eq_nil_or_concat with rfl | ⟨einit, elast, rfl⟩
  · exact absurd rfl hesne
  · simp only [List.concat_eq_append] at hes hnd ⊢
    have hvals : ∀ e ∈ einit ++ [elast], e.2 ≠ [] := by
      intro e he
      exact (hes e he).1.2
    have hgood : ∀ e ∈ einit ++ [elast], e.1 ≠ [] ∧ (∀ c ∈ e.1, c ≠ '=') ∧
        ∀ c ∈ e.2, c ∉ ['\x22', ',', '>'] := by
      intro e he
      have := hes e he
      refine ⟨this.1.1.1, fun c hc => ?_, fun c hc => ?_⟩
      · have h2 := this.1.1.2 c hc
        simp at h2
        exact h2.1
      · have h2 := this.2 c hc
        simp at h2 ⊢
        tauto
    rw [renderShape, run_vcf_meta_struct k einit elast
      (fun c hc => by have := hkc c hc; simp at this; exact this.1)
      hgood hnd]
    simp only [Except.map]
    rw [vcfline_str_meta_struct k (einit ++ [elast]) hkne (by simp) hvals]
    simp

theorem round_trip_data (d : DataShape) (h : shapeWFb (.data d) = true) :
    (run_vcf (renderShape (.data d))).map
        (fun v2 => vcfline_str v2 ++ ['\n'])
      = .ok (renderShape (.data d)) := by
  obtain ⟨chrom, pos, idStr, refStr, alt, qualStr, filters, info, format,
    rows⟩ := d
  rw [shapeWFb, dataWFb] at h
  simp only [Bool.and_eq_true, Bool.or_eq_true, decide_eq_true_eq,
    List.all_eq_true] at h
  obtain ⟨⟨⟨⟨⟨⟨⟨⟨⟨⟨⟨⟨⟨hcne, hchd⟩, hcc⟩, hidc⟩, hrefc⟩, haltne⟩, haltc⟩,
    hqualc⟩, hfilne⟩, hfilc⟩, hinfone⟩, hinfond⟩, hinfoc⟩, hsmp⟩ := h
  cases chrom with
  | nil => exact absurd rfl hcne
  | cons c0 cs =>
  cases alt with
  | nil => exact absurd rfl haltne
  | cons a0 arest =>
  cases filters with
  | nil => exact absurd rfl hfilne
  | cons f0 frest =>
  rcases info.eq_nil_or_concat with rfl | ⟨einit, elast, rfl⟩
  · exact absurd rfl hinfone
  simp only [List.concat_eq_append] at hinfond hinfoc ⊢
  have hchrom : ∀ c ∈ c0 :: cs, c ≠ '\t' := by
    intro c hc
    have := hcc c hc
    simp at this
    exact this.1
  have hhead : c0 ≠ '#' := by
    intro he
    exact hchd (by simp [he])
  have hid2 : ∀ c ∈ idStr, ¬ isPySpace c = true := by
    intro c hc
    simpa using hidc c hc
  have halt2 : ∀ e ∈ a0 :: arest, ∀ c ∈ e, c ∉ ([',', '\t'] : List Char) := by
    intro e he c hc
    have := haltc e he c hc
    simp at this ⊢
    tauto
  have hfil2 : ∀ e ∈ f0 :: frest, ∀ c ∈ e, c ∉ (['\t', ';'] : List Char) := by
    intro e he c hc
    have := hfilc e he c hc
    simp at this ⊢
    tauto
  have hinfo : ∀ e ∈ einit ++ [elast],
      (∀ c ∈ e.1, c ∉ (['=', '\t', ';', '\n'] : List Char)) ∧
      ∀ vs, e.2 = some vs →
        vs ≠ [] ∧ ∀ x ∈ vs, ∀ c ∈ x,
          c ∉ (['\t', ';', ',', '\n'] : List Char) := by
    intro e he
    have hb := hinfoc e he
    obtain ⟨k2, v2⟩ := e
    simp only [Bool.and_eq_true, List.all_eq_true, decide_eq_true_eq] at hb
    refine ⟨fun c hc => hb.1 c hc, ?_⟩
    intro vs hvs
    cases v2 with
    | none => cases hvs
    | some vs2 =>
        cases hvs
        have hb2 := hb.2
        simp only [Bool.and_eq_true, decide_eq_true_eq,
          List.all_eq_true] at hb2
        exact ⟨hb2.1, fun x hx c hc => hb2.2 x hx c hc⟩
  have hvals : ∀ e ∈ einit ++ [elast], ∀ vs, e.2 = some vs → vs ≠ [] :=
    fun e he vs hvs => ((hinfo e he).2 vs hvs).1
  rcases hsmp with ⟨hre, hfe⟩ | ⟨⟨⟨⟨hrne, hfne⟩, hfnd⟩, hfc⟩, hrows⟩
  · subst hre hfe
    rw [renderShape,
      run_vcf_data_nosamples c0 cs pos idStr refStr a0 arest qualStr f0
        frest einit elast hhead hchrom hid2 hrefc halt2 hqualc hfil2 hinfo
        hinfond]
    simp only [Except.map]
    rw [vcfline_str_data (c0 :: cs) pos idStr refStr qualStr (a0 :: arest)
      (f0 :: frest) (einit ++ [elast]) hvals]
    rw [renderDataShape]
    simp
  · cases format with
    | nil => exact absurd rfl hfne
    | cons g0 grest =>
    rcases rows.eq_nil_or_concat with rfl | ⟨rinit, rlast, rfl⟩
    · exact absurd rfl hrne
    simp only [List.concat_eq_append] at hrows ⊢
    have hfmt : ∀ e ∈ g0 :: grest, ∀ c ∈ e, c ∉ (['\t', ':'] : List Char) := by
      intro e he c hc
      have := hfc e he c hc
      simp at this ⊢
      tauto
    have hrowsc : ∀ r ∈ rinit ++ [rlast], ∀ v ∈ r, ∀ c ∈ v,
        c ∉ (['\t', ':', '\n'] : List Char) :=
      fun r hr v hv c hc => (hrows r hr).2 v hv c hc
    have hrlen : ∀ r ∈ rinit ++ [rlast], r.length = (g0 :: grest).length :=
      fun r hr => (hrows r hr).1
    rw [renderShape,
      run_vcf_data_samples c0 cs pos idStr refStr a0 arest qualStr f0 frest
        einit elast g0 grest rinit rlast hhead hchrom hid2 hrefc halt2
        hqualc hfil2 hinfo hinfond hfmt hrowsc]
    simp only [Except.map]
    have hzip : (rinit ++ [rlast]).map (fun r =>
          zipSample (g0 :: grest) (splitColon (List.intercalate [':'] r)))
        = (rinit ++ [rlast]).map (fun r => (g0 :: grest).zip r) := by
      refine List.map_congr_left ?_
      intro r hr
      have hrne2 : r ≠ [] := by
        intro he
        have := hrlen r hr
        rw [he] at this
        simp at this
      have hnocolon : ∀ l ∈ r, ':' ∉ l := by
        intro l hl hmem
        have := (hrows r hr).2 l hl ':' hmem
        simp at this
      rw [splitColon_intercalate r hrne2 hnocolon,
        zipSample_eq_zip (g0 :: grest) r hfnd (le_of_eq (hrlen r hr).symm)]
    rw [hzip,
      vcfline_str_data_samples (c0 :: cs) pos idStr refStr qualStr
        (a0 :: arest) (f0 :: frest) (einit ++ [elast]) (g0 :: grest)
        (rinit ++ [rlast]) hvals hfnd (by simp) hrlen]
    rw [renderDataShape]
    rw [if_neg (by simp)]
    simp

theorem findTrans_accept_mem :
    ∀ (ts : List Transition) (st : VState) (i : Option Char)
      (a a2 : VCFAccumulator),
    findTrans st i a ts = .ok (none, a2) →
    ∃ t ∈ ts, t.dst = none ∧ tmatch st t.cond i = .ok true := by
  intro ts
  induction ts with
  | nil => intro st i a a2 h; simp [findTrans] at h
  | cons t rest ih =>
      intro st i a a2 h
      rw [findTrans] at h
      cases htm : tmatch st t.cond i with
      | error e => simp [htm] at h
      | ok b =>
          cases b with
          | true =>
              simp only [htm] at h
              cases hcb : t.callback with
              | none =>
                  simp [hcb] at h
                  exact ⟨t, by simp, h.1, htm⟩
              | some cb =>
                  simp only [hcb] at h
                  cases hc : cb a i with
                  | error e => simp [hc, Except.map] at h
                  | ok a3 =>
                      simp [hc, Except.map] at h
                      exact ⟨t, by simp, h.1, htm⟩
          | false =>
              simp only [htm] at h
              obtain ⟨t2, ht2, hd, hm⟩ := ih st i a a2 h
              exact ⟨t2, by simp [ht2], hd, hm⟩

theorem accept_requires_newline (st : VState) :
    ∀ t ∈ transitions st, t.dst = none →
    ∀ c, tmatch st t.cond (some c) = .ok true → c = '\n' := by
  intro t ht hd c hm
  cases st with
  | LINE_START =>
      simp only [transitions, List.mem_cons, List.not_mem_nil, or_false] at ht
      rcases ht with rfl | rfl <;>
        first
          | exact Option.noConfusion hd
          | (simp only [tmatch] at hm
             simpa using hm)
  | CHROM =>
      simp only [transitions, List.mem_cons, List.not_mem_nil, or_false] at ht
      rcases ht with rfl | rfl <;>
        first
          | exact Option.noConfusion hd
          | (simp only [tmatch] at hm
             simpa using hm)
  | POS =>
      simp only [transitions, List.mem_cons, List.not_mem_nil, or_false] at ht
      rcases ht with rfl | rfl <;>
        first
          | exact Option.noConfusion hd
          | (simp only [tmatch] at hm
             simpa using hm)
  | ID =>
      simp only [transitions, List.mem_cons, List.not_mem_nil, or_false] at ht
      rcases ht with rfl | rfl | rfl <;>
        first
          | exact Option.noConfusion hd
          | (simp only [tmatch] at hm
             simpa using hm)
  | REF =>
      simp only [transitions, List.mem_cons, List.not_mem_nil, or_false] at ht
      rcases ht with rfl | rfl <;>
        first
          | exact Option.noConfusion hd
          | (simp only [tmatch] at hm
             simpa using hm)
  | ALT =>
      simp only [transitions, List.mem_cons, List.not_mem_nil, or_false] at ht
      rcases ht with rfl | rfl | rfl <;>
        first
          | exact Option.noConfusion hd
          | (simp only [tmatch] at hm
             simpa using hm)
  | QUAL =>
      simp only [transitions, List.mem_cons, List.not_mem_nil, or_false] at ht
      rcases ht with rfl | rfl <;>
        first
          | exact Option.noConfusion hd
          | (simp only [tmatch] at hm
             simpa using hm)
  | FILTER =>
      simp only [transitions, List.mem_cons, List.not_mem_nil, or_false] at ht
      rcases ht with rfl | rfl | rfl <;>
        first
          | exact Option.noConfusion hd
          | (simp only [tmatch] at hm
             simpa using hm)
  | INFO_KEY =>
      simp only [transitions, List.mem_cons, List.not_mem_nil, or_false] at ht
      rcases ht with rfl | rfl | rfl | rfl | rfl <;>
        first
          | exact Option.noConfusion hd
          | (simp only [tmatch] at hm
             simpa using hm)
  | INFO_VALUE =>
      simp only [transitions, List.mem_cons, List.not_mem_nil, or_false] at ht
      rcases ht with rfl | rfl | rfl | rfl | rfl <;>
        first
          | exact Option.noConfusion hd
          | (simp only [tmatch] at hm
             simpa using hm)
  | FORMAT =>
      simp only [transitions, List.mem_cons, List.not_mem_nil, or_false] at ht
      rcases ht with rfl | rfl | rfl <;>
        first
          | exact Option.noConfusion hd
          | (simp only [tmatch] at hm
             simpa using hm)
  | SAMPLE =>
      simp only [transitions, List.mem_cons, List.not_mem_nil, or_false] at ht
      rcases ht with rfl | rfl | rfl <;>
        first
          | exact Option.noConfusion hd
          | (simp only [tmatch] at hm
             simpa using hm)
  | COMMENT =>
      simp only [transitions, List.mem_cons, List.not_mem_nil, or_false] at ht
      rcases ht with rfl | rfl | rfl <;>
        first
          | exact Option.noConfusion hd
          | (simp only [tmatch] at hm
             simpa using hm)
  | COMMENT_KEY =>
      simp only [transitions, List.mem_cons, List.not_mem_nil, or_false] at ht
      rcases ht with rfl | rfl <;>
        first
          | exact Option.noConfusion hd
          | (simp only [tmatch] at hm
             simpa using hm)
  | COMMENT_VALUE =>
      simp only [transitions, List.mem_cons, List.not_mem_nil, or_false] at ht
      rcases ht with rfl | rfl | rfl <;>
        first
          | exact Option.noConfusion hd
          | (simp only [tmatch] at hm
             simpa using hm)
  | COMMENT_STRUCT_KEY =>
      simp only [transitions, List.mem_cons, List.not_mem_nil, or_false] at ht
      rcases ht with rfl | rfl <;>
        first
          | exact Option.noConfusion hd
          | (simp only [tmatch] at hm
             simpa using hm)
  | COMMENT_STRUCT_VALUE =>
      simp only [transitions, List.mem_cons, List.not_mem_nil, or_false] at ht
      rcases ht with rfl | rfl | rfl | rfl <;>
        first
          | exact Option.noConfusion hd
          | (simp only [tmatch] at hm
             simpa using hm)
  | COMMENT_STRUCT_VALUE_QUOTED =>
      simp only [transitions, List.mem_cons, List.not_mem_nil, or_false] at ht
      rcases ht with rfl | rfl <;>
        first
          | exact Option.noConfusion hd
          | (simp only [tmatch] at hm
             simpa using hm)

theorem process_none_no_accept :
    ∀ (st : VState) (a a2 : VCFAccumulator),
    process_next st none a ≠ .ok (none, a2) := by
  intro st a a2 h
  cases st <;>
    simp [process_next, transitions, findTrans, tmatch, append_character,
      Except.map] at h

theorem runFSM_no_nl_no_accept :
    ∀ (input : List Char) (st : VState) (a v : VCFAccumulator),
    '\n' ∉ input → runFSM input st a ≠ .ok v := by
  intro input
  induction input with
  | nil =>
      intro st a v _ h
      rw [runFSM] at h
      cases hp : process_next st none a with
      | error e => simp [hp] at h
      | ok p =>
          obtain ⟨os, a2⟩ := p
          cases os with
          | none => exact process_none_no_accept st a a2 hp
          | some s2 => simp [hp] at h
  | cons c rest ih =>
      intro st a v hn h
      rw [runFSM] at h
      cases hp : process_next st (some c) a with
      | error e => simp [hp] at h
      | ok p =>
          obtain ⟨os, a2⟩ := p
          cases os with
          | none =>
              obtain ⟨t, ht, hd, hm⟩ :=
                findTrans_accept_mem (transitions st) st (some c) a a2 hp
              exact hn (by simp [accept_requires_newline st t ht hd c hm])
          | some s2 =>
              simp only [hp] at h
              exact ih s2 a2 v (fun hmem => hn (by simp [hmem])) h

end Puretabix

open Puretabix in
/-- **C6** (amended): parse-then-serialize is the identity on canonical VCF
lines (vcf.py lines 116-181, 465-684): for every well-formed canonical
shape — comment, scalar meta-information, structured meta-information, or
data line, rendered with its terminating newline — running the parser
state machine and converting the resulting `VCFLine` back `__str__`-style
reproduces the line exactly (`str(parse(l)) + "\n" = l`), with info keys
and sample format keys in first-seen insertion order and structured field
order preserved.  Canonical here requires in particular: a single ID token,
POS without leading zeros (the shape stores a number), nonempty ALT /
FILTER / INFO lists, distinct info and FORMAT keys, values nonempty where
rendered with `=`, sample rows matching FORMAT in length, and the final
newline present. -/
theorem c6_canonical_round_trip (s : VCFShape) (h : ShapeWF s) :
    (run_vcf (renderShape s)).map (fun v => vcfline_str v ++ ['\n'])
      = .ok (renderShape s) := by
  cases s with
  | comment text => exact round_trip_comment text h
  | metaScalar k v => exact round_trip_meta_scalar k v h
  | metaStruct k es => exact round_trip_meta_struct k es h
  | data d => exact round_trip_data d h

open Puretabix in
/-- Witness for C6: the round trip at a concrete canonical data line with
INFO flags and values and two samples. -/
theorem c6_canonical_round_trip_witness :
    (run_vcf (renderShape c6Shape)).map (fun v => vcfline_str v ++ ['\n'])
      = .ok (renderShape c6Shape) :=
  c6_canonical_round_trip c6Shape (show shapeWFb c6Shape = true by decide)

open Puretabix in
/-- **C6 counterexample**: the syntactically valid data line
`c<TAB>01<TAB>.<TAB>A<TAB>.<TAB>.<TAB>.<TAB>K` (leading zero in POS) is
accepted by the parser, but `int()` normalizes POS to `1`, so serializing
the parsed line does not reproduce the original bytes — refuting the claim
for arbitrary syntactically valid lines. -/
theorem c6_counterexample :
    ∃ v, run_vcf c6BadLine = .ok v ∧ vcfline_str v ++ ['\n'] ≠ c6BadLine :=
  ⟨⟨[], [], [], [], ['c'], 1, [['.']], ['A'], [['.']], ['.'], [['.']],
    [(['K'], none)], []⟩, by rfl, by decide⟩

open Puretabix in
/-- **C7** (code bug): fsm.py lines 125-165 with the table of vcf.py lines
465-684.  The spec says a line's final newline may be absent and the FSM
diagram accepts on end-of-input (`'\n'|EOI → done`), and the
`("\n", None)` transition conditions in vcf.py show the same intent.  But
`SetNotInTransition.match` answers True for the end-of-input `None`
(`None not in frozenset(...)`), and in every state such a transition
precedes the accepting one, so the accepting transitions are dead at
end-of-input: no input whatsoever that lacks a `'\n'` is ever accepted —
`run` instead hits its `assert state is None` (here `unexpectedEnding`) or
another error.  Even the comment line `#x`, accepted as `#x\n`, fails
without the newline. -/
theorem c7_no_accept_without_newline :
    (∀ (line : List Char) (v : VCFLine), '\n' ∉ line →
      run_vcf line ≠ .ok v) ∧
    run_vcf ['#', 'x', '\n']
      = .ok ⟨['x'], [], [], [], [], 0, [], [], [], [], [], [], []⟩ := by
  constructor
  · intro line v hn h
    rw [run_vcf] at h
    cases hr : runFSM line .LINE_START VCFAccumulator.reset with
    | error e => simp [hr, Except.map] at h
    | ok a2 =>
        exact runFSM_no_nl_no_accept line .LINE_START
          VCFAccumulator.reset a2 hn hr
  · rfl

open Puretabix in
/-- Witness for C7: the valid comment line `#x` without its trailing
newline is rejected. -/
theorem c7_no_accept_without_newline_witness :
    run_vcf ['#', 'x']
      ≠ .ok ⟨['x'], [], [], [], [], 0, [], [], [], [], [], [], []⟩ :=
  c7_no_accept_without_newline.1 ['#', 'x']
    ⟨['x'], [], [], [], [], 0, [], [], [], [], [], [], []⟩ (by decide)

